import Mathlib

/-!
Shallow embedding of the rhash component (rhash.c): a Robin-Hood
open-addressing hash set/map with iterative two-table rehashing.

Modelling conventions:
* Keys are byte sequences (`List Nat`).  A string key (`key_bytes = 0`)
  is modelled as the list of its bytes before the null terminator, so the
  C loop over the null-terminated string is a fold over the list and
  `strcmp`-equality is list equality.  A fixed-width key is a list of at
  least `key_bytes` bytes; `memcmp` over `key_bytes` bytes is equality of
  the `key_bytes`-byte prefixes, and the fixed-width hash folds over
  exactly those bytes.
* A slot is `Option Entry`; `none` is the C null-pointer "empty" sentinel.
  A map slot holds key and value; in set mode the value word does not
  exist in C and is never read here, so entries carry a dummy value.
* Table storage is a function `Nat → Option Entry`; `calloc`/`memset`
  give the all-`none` function.  All C slot indices are `uint32_t`
  values below the table size; `(hcode + pr) & (size - 1)` equals
  `(hcode + pr) % size` because the size is `2^order` (and the prior
  `uint32_t` wraparound of `hcode + pr` is absorbed because `2^order`
  divides `2^32` for `order ≤ 32`).
* Machine integers are `Nat` with explicit `% 2^32` exactly where the C
  computation can wrap (the hash recurrence, and the iterator slot
  cursor); everywhere else the C `uint32_t` quantities stay below
  `2^32` so plain `Nat` arithmetic coincides.  `cl_rhash_should_move_higher`
  and `cl_rhash_should_move_lower` compute with C `int`, modelled as `Int`.
* The C loops are bounded (`pr < n_size`), modelled by structural fuel
  equal to the loop's iteration count; running out of fuel is exactly the
  C loop falling through its bound.
-/

namespace Rhash

/-- A key is its byte content. -/
abbrev Key := List Nat

/-- A table entry: key and (map mode only) value word. -/
abbrev Entry := Key × Nat

/-- `CL_HASH_MIN_ORDER`. -/
def minOrder : Nat := 6

/-- `CL_HASH_MAX_ORDER`. -/
def maxOrder : Nat := 31

/-- One step of the hash recurrence `((hash << 5) + hash) + c` in
`uint32_t` arithmetic (each operation wraps mod `2^32`). -/
def hashStep (h c : Nat) : Nat := ((h * 32 % 2^32 + h) % 2^32 + c) % 2^32

/-- `cl_rhash_table_hash_str`: fold of `hashStep` from seed 5381 over the
bytes of the null-terminated string, i.e. over the whole modelled list. -/
def hashStr (key : Key) : Nat := key.foldl hashStep 5381

/-- `cl_rhash_table_hash_fixed`: fold of `hashStep` from seed 5381 over
exactly `key_bytes` bytes. -/
def hashFixed (key : Key) (kb : Nat) : Nat := (key.take kb).foldl hashStep 5381

/-- `cl_rhash_table_hash` (key part): dispatch on `key_bytes`. -/
def hashKey (kb : Nat) (k : Key) : Nat :=
  if kb > 0 then hashFixed k kb else hashStr k

/-- `cl_rhash_table_key_equals`: `memcmp` over `key_bytes` bytes when
fixed-width, `strcmp` (list equality) for string keys. -/
def keyEq (kb : Nat) (k1 k2 : Key) : Bool :=
  if kb > 0 then k1.take kb == k2.take kb else k1 == k2

/-- `struct cl_rhash_table`. -/
structure RTable where
  table : Nat → Option Entry
  n_entries : Nat
  n_peek : Nat
  order : Nat
  key_bytes : Nat

/-- `cl_rhash_table_size`: `1 << order`. -/
def tableSize (t : RTable) : Nat := 2 ^ t.order

/-- `cl_rhash_table_slot`: `(hcode + pr) & (size - 1)`. -/
def tableSlot (t : RTable) (hcode pr : Nat) : Nat :=
  (hcode + pr) % tableSize t

/-- Write one slot of the storage function. -/
def updateFn (f : Nat → Option Entry) (s : Nat) (v : Option Entry) : Nat → Option Entry :=
  fun s1 => if s1 = s then v else f s1

/-- `cl_rhash_table_cost_slot`. -/
def costSlot (t : RTable) (slot o_slot : Nat) : Nat :=
  if slot ≥ o_slot then slot - o_slot else tableSize t + slot - o_slot

/-- `cl_rhash_table_cost`: probe cost of the entry at `slot` (only ever
invoked by the C code on occupied slots; an empty slot yields 0). -/
def cost (t : RTable) (slot : Nat) : Nat :=
  match t.table slot with
  | some e => costSlot t slot (tableSlot t (hashKey t.key_bytes e.1) 0)
  | none => 0

/-- `cl_rhash_table_init`: fresh table at minimum order, zeroed storage. -/
def tableInit (kb : Nat) : RTable :=
  { table := fun _ => none
    n_entries := 0
    n_peek := 2 ^ minOrder
    order := minOrder
    key_bytes := kb }

/-- `cl_rhash_table_clear`: reset count and peek cursor (the cursor is
set to the size at the old order, as in the C), then reallocate at
minimum order if needed, else zero in place; either way the storage is
all-empty. -/
def tableClear (t : RTable) : RTable :=
  if t.order ≠ minOrder then
    { t with n_entries := 0, n_peek := tableSize t, order := minOrder, table := fun _ => none }
  else
    { t with n_entries := 0, n_peek := tableSize t, table := fun _ => none }

/-- `cl_rhash_table_slimit`. -/
def tableSlimit (t : RTable) : Nat :=
  if t.order > minOrder then tableSize t / 4 else 0

/-- `cl_rhash_table_limit`: `n_size - (n_size / 4)`. -/
def tableLimit (t : RTable) : Nat := tableSize t - tableSize t / 4

/-- `cl_rhash_table_entry_update`: lower the peek cursor to `slot`. -/
def setPeekMin (t : RTable) (slot : Nat) : RTable := { t with n_peek := min t.n_peek slot }

/-- Place a fresh entry at `slot`: `cl_rhash_table_entry_copy` onto an
empty slot plus the count increment and `cl_rhash_table_entry_update`. -/
def storeNew (t : RTable) (slot : Nat) (ent : Entry) : RTable :=
  { t with
    table := updateFn t.table slot (some ent)
    n_entries := t.n_entries + 1
    n_peek := min t.n_peek slot }

/-- Overwrite the entry at `slot` (key-match update):
`cl_rhash_table_entry_copy` plus `cl_rhash_table_entry_update`. -/
def storeOver (t : RTable) (slot : Nat) (ent : Entry) : RTable :=
  { t with
    table := updateFn t.table slot (some ent)
    n_peek := min t.n_peek slot }

/-- Loop of `cl_rhash_table_peek_entry`: scan slots from `pr` upward for
an occupied one; fuel is the remaining iteration count `n_size - pr`. -/
def peekLoop (t : RTable) : Nat → Nat → Option Nat
  | _, 0 => none
  | s, fuel + 1 => if (t.table s).isSome then some s else peekLoop t (s + 1) fuel

/-- `cl_rhash_table_peek_entry`: first occupied slot at or after
`n_peek`, caching it in `n_peek`. -/
def tablePeekEntry (t : RTable) : RTable × Option Entry :=
  match peekLoop t t.n_peek (tableSize t - t.n_peek) with
  | some s => ({ t with n_peek := s }, t.table s)
  | none => (t, none)

/-- `cl_rhash_table_peek`. -/
def tablePeek (t : RTable) : RTable × Option Entry :=
  if t.n_entries > 0 then tablePeekEntry t else (t, none)

/-- Loop of `cl_rhash_table_entry` (lookup): probe linearly; stop on an
empty slot, a key match, or when the probe exceeds the resident cost.
Returns the matching slot.  Initial call: `pr = 0`, fuel `n_size`. -/
def findLoop (t : RTable) (hcode : Nat) (k : Key) : Nat → Nat → Option Nat
  | _, 0 => none
  | pr, fuel + 1 =>
    match t.table (tableSlot t hcode pr) with
    | none => none
    | some e =>
      if keyEq t.key_bytes k e.1 then some (tableSlot t hcode pr)
      else if cost t (tableSlot t hcode pr) < pr then none
      else findLoop t hcode k (pr + 1) fuel

/-- `cl_rhash_table_entry`: slot of the entry matching `k`, if found. -/
def tableFind (t : RTable) (k : Key) : Option Nat :=
  findLoop t (hashKey t.key_bytes k) k 0 (tableSize t)

/-- `cl_rhash_table_contains`. -/
def tableContains (t : RTable) (k : Key) : Bool := (tableFind t k).isSome

/-- `cl_rhash_table_find_empty`: number of probes (from `hcode`) to the
next empty slot, scanning from probe `pr`; 0 if none before the table
ends.  Fuel is `n_size - pr`. -/
def findEmpty (t : RTable) (hcode : Nat) : Nat → Nat → Nat
  | _, 0 => 0
  | pr, fuel + 1 =>
    if t.table (tableSlot t hcode pr) = none then pr
    else findEmpty t hcode (pr + 1) fuel

/-- `cl_rhash_table_shift_forward`: move the run of entries at probes
`[ipr, shift)` one probe forward into `(ipr, shift]`, where `shift` is
the first empty probe at or after `ipr`.  The C loop walks `pr` from
`shift` down to `ipr` copying each entry into its successor's slot, so
every copy reads a pre-loop value; it calls `cl_rhash_table_entry_update`
on every visited slot, lowering `n_peek` to the least of them. -/
def shiftForwardAux (t : RTable) (hcode ipr shift : Nat) : RTable :=
  if shift < ipr then t
  else
    { t with
      table := (List.range' (ipr + 1) (shift - ipr)).foldl
        (fun acc j => updateFn acc (tableSlot t hcode j) (t.table (tableSlot t hcode (j - 1))))
        t.table
      n_peek := (List.range' ipr (shift - ipr + 1)).foldl
        (fun m j => min m (tableSlot t hcode j)) t.n_peek }

def shiftForward (t : RTable) (hcode ipr : Nat) : RTable :=
  shiftForwardAux t hcode ipr (findEmpty t hcode ipr (tableSize t - ipr))

/-- Loop of `cl_rhash_table_insert`: probe linearly; place on an empty
slot, overwrite on a key match (returning the previous key), or displace
a richer resident (Robin Hood) via `shiftForward`.  Fuel exhaustion is
the C loop falling through to `assert(false); return NULL` with the
table untouched. -/
def insLoop (t : RTable) (ent : Entry) (hcode : Nat) : Nat → Nat → RTable × Option Key
  | _, 0 => (t, none)
  | pr, fuel + 1 =>
    match t.table (tableSlot t hcode pr) with
    | none => (storeNew t (tableSlot t hcode pr) ent, none)
    | some e =>
      if keyEq t.key_bytes ent.1 e.1 then
        (storeOver t (tableSlot t hcode pr) ent, some e.1)
      else if cost t (tableSlot t hcode pr) < pr then
        (storeNew (shiftForward t hcode pr) (tableSlot t hcode pr) ent, none)
      else insLoop t ent hcode (pr + 1) fuel

/-- `cl_rhash_table_insert`. -/
def tableInsert (t : RTable) (ent : Entry) : RTable × Option Key :=
  insLoop t ent (hashKey t.key_bytes ent.1) 0 (tableSize t)

/-- Loop bound of `cl_rhash_table_shift_backward`: the probe at which the
walk stops (an empty slot, a zero-cost resident, or the table end).
Initial call: `pr = ipr + 1`, fuel `n_size - (ipr + 1)`; exhausting the
fuel returns the C loop's final `pr = n_size`. -/
def backScan (t : RTable) (hcode : Nat) : Nat → Nat → Nat
  | pr, 0 => pr
  | pr, fuel + 1 =>
    match t.table (tableSlot t hcode pr) with
    | none => pr
    | some _ => if cost t (tableSlot t hcode pr) = 0 then pr else backScan t hcode (pr + 1) fuel

/-- `cl_rhash_table_shift_backward`: walk forward from the removed slot
(probe `ipr`) copying each subsequent entry one probe back until the
stop probe, then zero the last vacated slot.  The C loop's copies read
pre-loop values (each slot is read before it is overwritten). -/
def shiftBackwardAux (t : RTable) (hcode ipr stop : Nat) : RTable :=
  { t with
    table := updateFn
      ((List.range' (ipr + 1) (stop - (ipr + 1))).foldl
        (fun acc j => updateFn acc (tableSlot t hcode (j - 1)) (t.table (tableSlot t hcode j)))
        t.table)
      (tableSlot t hcode (stop - 1)) none }

def shiftBackward (t : RTable) (hcode ipr : Nat) : RTable :=
  shiftBackwardAux t hcode ipr (backScan t hcode (ipr + 1) (tableSize t - (ipr + 1)))

/-- Loop of `cl_rhash_table_remove`: probe linearly (no cost early-exit);
on a match decrement the count, shift the following run backward and
lower `n_peek` to the matched slot. -/
def remLoop (t : RTable) (k : Key) (hcode : Nat) : Nat → Nat → RTable × Option Key
  | _, 0 => (t, none)
  | pr, fuel + 1 =>
    match t.table (tableSlot t hcode pr) with
    | none => (t, none)
    | some e =>
      if keyEq t.key_bytes k e.1 then
        (setPeekMin
          (shiftBackward { t with n_entries := t.n_entries - 1 }
            (hashKey t.key_bytes e.1) pr)
          (tableSlot t hcode pr), some e.1)
      else remLoop t k hcode (pr + 1) fuel

/-- `cl_rhash_table_remove`. -/
def tableRemove (t : RTable) (k : Key) : RTable × Option Key :=
  if t.n_entries = 0 then (t, none)
  else remLoop t k (hashKey t.key_bytes k) 0 (tableSize t)

/-- `struct cl_rhash` (the iterator pool is an external collaborator and
holds no hash state). -/
structure RHash where
  h_lo : RTable
  h_hi : RTable
  is_map : Bool
  n_edit : Nat

/-- `cl_rhash_create`. -/
def hashCreate (kb : Nat) (im : Bool) : RHash :=
  { h_lo := tableInit kb, h_hi := tableInit kb, is_map := im, n_edit := 0 }

/-- `cl_rhash_edit`. -/
def bumpEdit (h : RHash) : RHash := { h with n_edit := h.n_edit + 1 }

/-- `cl_rhash_count`. -/
def hashCount (h : RHash) : Nat := h.h_lo.n_entries + h.h_hi.n_entries

/-- `cl_rhash_contains`. -/
def hashContains (h : RHash) (k : Key) : Bool :=
  tableContains h.h_lo k || tableContains h.h_hi k

/-- `cl_rhash_peek`: arbitrary key from `h_lo`, else `h_hi` (updates the
peek cursors). -/
def hashPeek (h : RHash) : RHash × Option Key :=
  match tablePeek h.h_lo with
  | (lo1, some e) => ({ h with h_lo := lo1 }, some e.1)
  | (lo1, none) =>
    match tablePeek h.h_hi with
    | (hi1, some e) => ({ h with h_lo := lo1, h_hi := hi1 }, some e.1)
    | (hi1, none) => ({ h with h_lo := lo1, h_hi := hi1 }, none)

/-- `cl_rhash_get`: `NULL` on a set; else the value of the first match
in `h_lo` then `h_hi` (the C lookup path writes nothing). -/
def hashGet (h : RHash) (k : Key) : Option Nat :=
  if h.is_map then
    match tableFind h.h_lo k with
    | some s => (h.h_lo.table s).map (fun e => e.2)
    | none =>
      match tableFind h.h_hi k with
      | some s => (h.h_hi.table s).map (fun e => e.2)
      | none => none
  else none

/-- `cl_rhash_should_move_higher` (C `int` arithmetic). -/
def shouldMoveHigher (h : RHash) : Bool :=
  let n_lo : Int := h.h_lo.n_entries
  let n_hi : Int := h.h_hi.n_entries
  let n_thresh : Int := tableLimit h.h_hi
  n_lo > 0 && n_hi ≥ n_thresh - n_lo * 2

/-- `cl_rhash_move_higher`: peek an entry in `h_lo` (copied out before
removal), remove it there, and if the removal succeeded insert the copy
into `h_hi`. -/
def moveHigher (h : RHash) : RHash :=
  match tablePeek h.h_lo with
  | (lo1, none) => { h with h_lo := lo1 }
  | (lo1, some ent) =>
    match tableRemove lo1 ent.1 with
    | (lo2, none) => { h with h_lo := lo2 }
    | (lo2, some _) => { h with h_lo := lo2, h_hi := (tableInsert h.h_hi ent).1 }

/-- `cl_rhash_check_move_higher`. -/
def checkMoveHigher (h : RHash) : RHash :=
  if shouldMoveHigher h then moveHigher h else h

/-- `cl_rhash_should_expand`. -/
def shouldExpand (h : RHash) : Bool :=
  decide (h.h_hi.order < maxOrder) &&
  decide (h.h_lo.n_entries = 0) &&
  decide (h.h_hi.n_entries ≥ tableLimit h.h_hi)

/-- `cl_rhash_expand`: `h_lo` takes over the whole `h_hi` table
(`cl_rhash_table_clone`), and `h_hi` is rebuilt empty at the next order. -/
def hashExpand (h : RHash) : RHash :=
  { h with
    h_lo := h.h_hi
    h_hi := { h.h_hi with
      order := h.h_hi.order + 1
      n_entries := 0
      n_peek := 2 ^ (h.h_hi.order + 1)
      table := fun _ => none } }

/-- `cl_rhash_check_expand`. -/
def checkExpand (h : RHash) : RHash :=
  if shouldExpand h then hashExpand h else h

/-- `cl_rhash_insert`: insert into `h_hi`; on a fresh placement evict a
shadow copy from `h_lo`; if none existed run the migrate-up and expand
checks.  The edit version is bumped at the end of every call. -/
def hashInsert (h : RHash) (ent : Entry) : RHash × Option Key :=
  match tableInsert h.h_hi ent with
  | (hi1, some k) => (bumpEdit { h with h_hi := hi1 }, some k)
  | (hi1, none) =>
    match tableRemove h.h_lo ent.1 with
    | (lo1, some k) => (bumpEdit { h with h_hi := hi1, h_lo := lo1 }, some k)
    | (lo1, none) =>
      (bumpEdit (checkExpand (checkMoveHigher { h with h_hi := hi1, h_lo := lo1 })), none)

/-- `cl_rhash_add`: on a map this returns the key argument and touches
nothing; on a set the entry is the bare key word (no value is stored or
read, modelled by a dummy 0). -/
def hashAdd (h : RHash) (k : Key) : RHash × Option Key :=
  if h.is_map then (h, some k) else hashInsert h (k, 0)

/-- `cl_rhash_put`: `NULL` and no effect on a set. -/
def hashPut (h : RHash) (k : Key) (v : Nat) : RHash × Option Key :=
  if h.is_map then hashInsert h (k, v) else (h, none)

/-- `cl_rhash_should_move_lower` (C `int` arithmetic). -/
def shouldMoveLower (h : RHash) : Bool :=
  let n_hi : Int := h.h_hi.n_entries
  let n_thresh : Int := tableSlimit h.h_hi
  n_hi > 0 && n_thresh > 0

/-- `cl_rhash_move_lower`. -/
def moveLower (h : RHash) : RHash :=
  match tablePeek h.h_hi with
  | (hi1, none) => { h with h_hi := hi1 }
  | (hi1, some ent) =>
    match tableRemove hi1 ent.1 with
    | (hi2, none) => { h with h_hi := hi2 }
    | (hi2, some _) => { h with h_hi := hi2, h_lo := (tableInsert h.h_lo ent).1 }

/-- `cl_rhash_check_move_lower`. -/
def checkMoveLower (h : RHash) : RHash :=
  if shouldMoveLower h then moveLower h else h

/-- `cl_rhash_should_shrink`. -/
def shouldShrink (h : RHash) : Bool :=
  decide (h.h_hi.order > minOrder) &&
  decide (h.h_hi.n_entries = 0) &&
  decide (h.h_lo.n_entries ≤ tableSlimit h.h_hi)

/-- `cl_rhash_shrink`: `h_hi` takes over the whole `h_lo` table and
`h_lo` is rebuilt empty at the previous order. -/
def hashShrink (h : RHash) : RHash :=
  { h with
    h_hi := h.h_lo
    h_lo := { h.h_lo with
      order := h.h_lo.order - 1
      n_entries := 0
      n_peek := 2 ^ (h.h_lo.order - 1)
      table := fun _ => none } }

/-- `cl_rhash_check_shrink`. -/
def checkShrink (h : RHash) : RHash :=
  if shouldShrink h then hashShrink h else h

/-- `cl_rhash_remove`: remove from `h_lo` first, then `h_hi`; on success
run the migrate-down and shrink checks and bump the edit version; a miss
touches nothing. -/
def hashRemove (h : RHash) (k : Key) : RHash × Option Key :=
  match tableRemove h.h_lo k with
  | (lo1, some pk) => (bumpEdit (checkShrink (checkMoveLower { h with h_lo := lo1 })), some pk)
  | (lo1, none) =>
    match tableRemove h.h_hi k with
    | (hi1, some pk) =>
      (bumpEdit (checkShrink (checkMoveLower { h with h_lo := lo1, h_hi := hi1 })), some pk)
    | (hi1, none) => ({ h with h_lo := lo1, h_hi := hi1 }, none)

/-- `cl_rhash_clear`. -/
def hashClear (h : RHash) : RHash :=
  bumpEdit { h with h_lo := tableClear h.h_lo, h_hi := tableClear h.h_hi }

/-- The mutating public operations (lookup paths `contains`/`get` write
nothing; `peek` moves the scan cursors, so it is included). -/
inductive Op where
  | add : Key → Op
  | put : Key → Nat → Op
  | remove : Key → Op
  | clear : Op
  | peek : Op

/-- Apply one public operation, discarding its result. -/
def applyOp (h : RHash) (op : Op) : RHash :=
  match op with
  | .add k => (hashAdd h k).1
  | .put k v => (hashPut h k v).1
  | .remove k => (hashRemove h k).1
  | .clear => hashClear h
  | .peek => (hashPeek h).1

/-- Run a sequence of public operations from a fresh hash. -/
def runOps (kb : Nat) (im : Bool) (ops : List Op) : RHash :=
  ops.foldl applyOp (hashCreate kb im)

/-- States observable between top-level calls: a fresh hash, or any state
reached from one by public operations. -/
inductive Reachable (kb : Nat) (im : Bool) : RHash → Prop where
  | init : Reachable kb im (hashCreate kb im)
  | step : ∀ h op, Reachable kb im h → Reachable kb im (applyOp h op)

/-- `enum cl_rhash_table_num`. -/
inductive TblNum where
  | tLo : TblNum
  | tHi : TblNum
  | tNone : TblNum
deriving DecidableEq

/-- `struct cl_rhash_iterator` (the back-pointer to the hash is passed
explicitly; the hash is not mutated by iteration). -/
structure RIter where
  n_table : TblNum
  n_slot : Nat
  n_edit : Nat

/-- `cl_rhash_iterator_create`: start one before `h_lo`'s peek cursor
(`n_peek - 1` in wrapping `uint32_t`), snapshotting the edit version. -/
def iterCreate (h : RHash) : RIter :=
  { n_table := .tLo, n_slot := (h.h_lo.n_peek + (2 ^ 32 - 1)) % 2 ^ 32, n_edit := h.n_edit }

/-- `cl_rhash_iterator_table`. -/
def iterTable (h : RHash) (it : RIter) : Option RTable :=
  match it.n_table with
  | .tLo => some h.h_lo
  | .tHi => some h.h_hi
  | .tNone => none

/-- `cl_rhash_iterator_done`. -/
def iterDone (it : RIter) : Bool := it.n_table = .tNone

/-- `cl_rhash_iterator_table_done`. -/
def iterTableDone (h : RHash) (it : RIter) : Bool :=
  match iterTable h it with
  | some tbl => it.n_slot ≥ tableSize tbl
  | none => false

/-- `cl_rhash_iterator_next_table`. -/
def iterNextTable (h : RHash) (it : RIter) : RIter :=
  if it.n_table = .tLo then { it with n_table := .tHi, n_slot := h.h_hi.n_peek }
  else { it with n_table := .tNone, n_slot := 0 }

/-- `cl_rhash_iterator_next_slot`: advance the slot (wrapping `uint32_t`
increment) then hop tables while the current one is exhausted.  The C
`while` runs at most twice (lo to hi to done, and `iterTableDone` is
false once no table is selected), so it is unrolled twice. -/
def iterNextSlot (h : RHash) (it : RIter) : RIter :=
  let i1 := { it with n_slot := (it.n_slot + 1) % 2 ^ 32 }
  let i2 := if iterTableDone h i1 then iterNextTable h i1 else i1
  if iterTableDone h i2 then iterNextTable h i2 else i2

/-- `cl_rhash_iterator_entry`. -/
def iterEntry (h : RHash) (it : RIter) : Option Entry :=
  match iterTable h it with
  | some tbl => tbl.table it.n_slot
  | none => none

/-- Loop of `cl_rhash_iterator_next`: advance until an occupied slot or
exhaustion.  The C loop terminates within `size lo + size hi + 2` steps
from any state it can reach, which bounds the fuel. -/
def iterNextLoop (h : RHash) : RIter → Nat → Option Key × RIter
  | it, 0 => (none, it)
  | it, fuel + 1 =>
    if iterDone it then (none, it)
    else
      let it1 := iterNextSlot h it
      match iterEntry h it1 with
      | some e => (some e.1, it1)
      | none => iterNextLoop h it1 fuel

/-- `cl_rhash_iterator_next`. -/
def iterNext (h : RHash) (it : RIter) : Option Key × RIter :=
  iterNextLoop h it (tableSize h.h_lo + tableSize h.h_hi + 2)

/-- Collect the keys of a full iteration (fuel bounds the number of
yielded keys; `hashCount h + 1` calls suffice to reach exhaustion). -/
def iterCollect (h : RHash) : RIter → Nat → List Key
  | _, 0 => []
  | it, fuel + 1 =>
    match iterNext h it with
    | (some k, it1) => k :: iterCollect h it1 fuel
    | (none, _) => []

/-- All keys yielded by a fresh iterator run to exhaustion. -/
def iterKeys (h : RHash) : List Key :=
  iterCollect h (iterCreate h) (hashCount h + 1)

/-- The occupied entries of a table, in slot order. -/
def tableEntries (t : RTable) : List Entry :=
  (List.range (tableSize t)).filterMap (fun s => t.table s)

/-- The keys stored in both tables, low table first, in slot order. -/
def hashKeysList (h : RHash) : List Key :=
  (tableEntries h.h_lo).map (fun e => e.1) ++ (tableEntries h.h_hi).map (fun e => e.1)

/-! ### Basic field-preservation lemmas -/

theorem pair_fst {p : RTable × Option Key} {a : RTable} {b : Option Key}
    (h : p = (a, b)) : p.1 = a := by rw [h]

theorem pairE_fst {p : RTable × Option Entry} {a : RTable} {b : Option Entry}
    (h : p = (a, b)) : p.1 = a := by rw [h]

theorem setPeekMin_order (t : RTable) (s : Nat) : (setPeekMin t s).order = t.order := rfl

theorem storeNew_order (t : RTable) (s : Nat) (e : Entry) : (storeNew t s e).order = t.order := rfl

theorem storeOver_order (t : RTable) (s : Nat) (e : Entry) : (storeOver t s e).order = t.order := rfl

theorem shiftForwardAux_order (t : RTable) (hcode ipr shift : Nat) :
    (shiftForwardAux t hcode ipr shift).order = t.order := by
  unfold shiftForwardAux; split <;> rfl

theorem shiftForwardAux_key_bytes (t : RTable) (hcode ipr shift : Nat) :
    (shiftForwardAux t hcode ipr shift).key_bytes = t.key_bytes := by
  unfold shiftForwardAux; split <;> rfl

theorem shiftForwardAux_n_entries (t : RTable) (hcode ipr shift : Nat) :
    (shiftForwardAux t hcode ipr shift).n_entries = t.n_entries := by
  unfold shiftForwardAux; split <;> rfl

theorem shiftForward_order (t : RTable) (hcode ipr : Nat) :
    (shiftForward t hcode ipr).order = t.order := shiftForwardAux_order t hcode ipr _

theorem shiftForward_key_bytes (t : RTable) (hcode ipr : Nat) :
    (shiftForward t hcode ipr).key_bytes = t.key_bytes := shiftForwardAux_key_bytes t hcode ipr _

theorem shiftForward_n_entries (t : RTable) (hcode ipr : Nat) :
    (shiftForward t hcode ipr).n_entries = t.n_entries := shiftForwardAux_n_entries t hcode ipr _

theorem shiftBackward_order (t : RTable) (hcode ipr : Nat) :
    (shiftBackward t hcode ipr).order = t.order := rfl

theorem shiftBackward_key_bytes (t : RTable) (hcode ipr : Nat) :
    (shiftBackward t hcode ipr).key_bytes = t.key_bytes := rfl

theorem shiftBackward_n_entries (t : RTable) (hcode ipr : Nat) :
    (shiftBackward t hcode ipr).n_entries = t.n_entries := rfl

theorem insLoop_order (t : RTable) (ent : Entry) (hcode : Nat) :
    ∀ fuel pr, ((insLoop t ent hcode pr fuel).1).order = t.order := by
  intro fuel
  induction fuel with
  | zero => intro pr; rfl
  | succ n ih =>
    intro pr
    rw [insLoop]
    cases t.table (tableSlot t hcode pr) with
    | none => rfl
    | some e =>
      dsimp only
      split
      · rfl
      · split
        · show (storeNew (shiftForward t hcode pr) _ ent).order = t.order
          rw [storeNew_order, shiftForward_order]
        · exact ih (pr + 1)

theorem insLoop_key_bytes (t : RTable) (ent : Entry) (hcode : Nat) :
    ∀ fuel pr, ((insLoop t ent hcode pr fuel).1).key_bytes = t.key_bytes := by
  intro fuel
  induction fuel with
  | zero => intro pr; rfl
  | succ n ih =>
    intro pr
    rw [insLoop]
    cases t.table (tableSlot t hcode pr) with
    | none => rfl
    | some e =>
      dsimp only
      split
      · rfl
      · split
        · show (storeNew (shiftForward t hcode pr) _ ent).key_bytes = t.key_bytes
          show (shiftForward t hcode pr).key_bytes = t.key_bytes
          rw [shiftForward_key_bytes]
        · exact ih (pr + 1)

theorem tableInsert_order (t : RTable) (ent : Entry) :
    ((tableInsert t ent).1).order = t.order := insLoop_order t ent _ _ 0

theorem tableInsert_key_bytes (t : RTable) (ent : Entry) :
    ((tableInsert t ent).1).key_bytes = t.key_bytes := insLoop_key_bytes t ent _ _ 0

theorem remLoop_order (t : RTable) (k : Key) (hcode : Nat) :
    ∀ fuel pr, ((remLoop t k hcode pr fuel).1).order = t.order := by
  intro fuel
  induction fuel with
  | zero => intro pr; rfl
  | succ n ih =>
    intro pr
    rw [remLoop]
    cases t.table (tableSlot t hcode pr) with
    | none => rfl
    | some e =>
      dsimp only
      split
      · rfl
      · exact ih (pr + 1)

theorem remLoop_key_bytes (t : RTable) (k : Key) (hcode : Nat) :
    ∀ fuel pr, ((remLoop t k hcode pr fuel).1).key_bytes = t.key_bytes := by
  intro fuel
  induction fuel with
  | zero => intro pr; rfl
  | succ n ih =>
    intro pr
    rw [remLoop]
    cases t.table (tableSlot t hcode pr) with
    | none => rfl
    | some e =>
      dsimp only
      split
      · rfl
      · exact ih (pr + 1)

theorem tableRemove_order (t : RTable) (k : Key) :
    ((tableRemove t k).1).order = t.order := by
  unfold tableRemove; split
  · rfl
  · exact remLoop_order t k _ _ 0

theorem tableRemove_key_bytes (t : RTable) (k : Key) :
    ((tableRemove t k).1).key_bytes = t.key_bytes := by
  unfold tableRemove; split
  · rfl
  · exact remLoop_key_bytes t k _ _ 0

theorem tablePeek_order (t : RTable) : ((tablePeek t).1).order = t.order := by
  unfold tablePeek tablePeekEntry
  split
  · split <;> rfl
  · rfl

theorem tablePeek_key_bytes (t : RTable) : ((tablePeek t).1).key_bytes = t.key_bytes := by
  unfold tablePeek tablePeekEntry
  split
  · split <;> rfl
  · rfl

theorem tablePeek_n_entries (t : RTable) : ((tablePeek t).1).n_entries = t.n_entries := by
  unfold tablePeek tablePeekEntry
  split
  · split <;> rfl
  · rfl

theorem tablePeek_table (t : RTable) : ((tablePeek t).1).table = t.table := by
  unfold tablePeek tablePeekEntry
  split
  · split <;> rfl
  · rfl

theorem tableClear_order (t : RTable) : (tableClear t).order = minOrder := by
  unfold tableClear
  split
  · rfl
  · rename_i hne
    simpa using Decidable.not_not.mp hne

def OrdInv (h : RHash) : Prop :=
  minOrder ≤ h.h_hi.order ∧ h.h_hi.order ≤ maxOrder ∧
    (h.h_hi.order = h.h_lo.order + 1 ∨
      (h.h_lo.order = minOrder ∧ h.h_hi.order = minOrder))

theorem ordInv_create (kb : Nat) (im : Bool) : OrdInv (hashCreate kb im) := by
  refine ⟨Nat.le_refl _, ?_, Or.inr ⟨rfl, rfl⟩⟩
  show minOrder ≤ maxOrder
  decide

/-- Transport `OrdInv` along equal orders. -/
theorem ordInv_of_orders (h h1 : RHash) (e1 : h1.h_lo.order = h.h_lo.order)
    (e2 : h1.h_hi.order = h.h_hi.order) (hI : OrdInv h) : OrdInv h1 := by
  unfold OrdInv at *
  rw [e1, e2]
  exact hI

theorem moveHigher_lo_order (h : RHash) :
    (moveHigher h).h_lo.order = h.h_lo.order := by
  unfold moveHigher
  split
  · rename_i lo1 heq
    show lo1.order = h.h_lo.order
    rw [← pairE_fst heq, tablePeek_order]
  · rename_i lo1 ent heq
    split
    · rename_i lo2 heq2
      show lo2.order = h.h_lo.order
      rw [← pair_fst heq2, tableRemove_order, ← pairE_fst heq, tablePeek_order]
    · rename_i lo2 k heq2
      show lo2.order = h.h_lo.order
      rw [← pair_fst heq2, tableRemove_order, ← pairE_fst heq, tablePeek_order]

theorem moveHigher_hi_order (h : RHash) :
    (moveHigher h).h_hi.order = h.h_hi.order := by
  unfold moveHigher
  split
  · rfl
  · rename_i lo1 ent heq
    split
    · rfl
    · exact tableInsert_order h.h_hi ent

theorem moveLower_lo_order (h : RHash) :
    (moveLower h).h_lo.order = h.h_lo.order := by
  unfold moveLower
  split
  · rfl
  · rename_i hi1 ent heq
    split
    · rfl
    · exact tableInsert_order h.h_lo ent

theorem moveLower_hi_order (h : RHash) :
    (moveLower h).h_hi.order = h.h_hi.order := by
  unfold moveLower
  split
  · rename_i hi1 heq
    show hi1.order = h.h_hi.order
    rw [← pairE_fst heq, tablePeek_order]
  · rename_i hi1 ent heq
    split
    · rename_i hi2 heq2
      show hi2.order = h.h_hi.order
      rw [← pair_fst heq2, tableRemove_order, ← pairE_fst heq, tablePeek_order]
    · rename_i hi2 k heq2
      show hi2.order = h.h_hi.order
      rw [← pair_fst heq2, tableRemove_order, ← pairE_fst heq, tablePeek_order]

theorem checkMoveHigher_lo_order (h : RHash) :
    (checkMoveHigher h).h_lo.order = h.h_lo.order := by
  unfold checkMoveHigher
  split
  · exact moveHigher_lo_order h
  · rfl

theorem checkMoveHigher_hi_order (h : RHash) :
    (checkMoveHigher h).h_hi.order = h.h_hi.order := by
  unfold checkMoveHigher
  split
  · exact moveHigher_hi_order h
  · rfl

theorem checkMoveLower_lo_order (h : RHash) :
    (checkMoveLower h).h_lo.order = h.h_lo.order := by
  unfold checkMoveLower
  split
  · exact moveLower_lo_order h
  · rfl

theorem checkMoveLower_hi_order (h : RHash) :
    (checkMoveLower h).h_hi.order = h.h_hi.order := by
  unfold checkMoveLower
  split
  · exact moveLower_hi_order h
  · rfl

theorem checkExpand_ordInv (h : RHash) (hI : OrdInv h) : OrdInv (checkExpand h) := by
  unfold checkExpand
  split
  · rename_i hse
    have hlt : h.h_hi.order < maxOrder := by
      unfold shouldExpand at hse
      have := Bool.and_elim_left (Bool.and_elim_left hse)
      exact of_decide_eq_true this
    obtain ⟨h1, h2, _⟩ := hI
    exact ⟨Nat.le_succ_of_le h1, hlt, Or.inl rfl⟩
  · exact hI

theorem checkShrink_ordInv (h : RHash) (hI : OrdInv h) : OrdInv (checkShrink h) := by
  unfold checkShrink
  split
  · rename_i hss
    have hgt : h.h_hi.order > minOrder := by
      unfold shouldShrink at hss
      have := Bool.and_elim_left (Bool.and_elim_left hss)
      exact of_decide_eq_true this
    obtain ⟨h1, h2, h3⟩ := hI
    have hmo : minOrder = 6 := rfl
    rcases h3 with h3 | ⟨h3a, h3b⟩
    · refine ⟨?_, ?_, Or.inl ?_⟩
      · show minOrder ≤ h.h_lo.order
        omega
      · show h.h_lo.order ≤ maxOrder
        omega
      · show h.h_lo.order = h.h_lo.order - 1 + 1
        omega
    · omega
  · exact hI

theorem ordInv_hashInsert (h : RHash) (ent : Entry) (hI : OrdInv h) :
    OrdInv (hashInsert h ent).1 := by
  unfold hashInsert
  split
  · rename_i hi1 k heq
    refine ordInv_of_orders h _ rfl ?_ hI
    show hi1.order = h.h_hi.order
    rw [← pair_fst heq, tableInsert_order]
  · rename_i hi1 heq
    split
    · rename_i lo1 k heq2
      refine ordInv_of_orders h _ ?_ ?_ hI
      · show lo1.order = h.h_lo.order
        rw [← pair_fst heq2, tableRemove_order]
      · show hi1.order = h.h_hi.order
        rw [← pair_fst heq, tableInsert_order]
    · rename_i lo1 heq2
      have base : OrdInv { h with h_hi := hi1, h_lo := lo1 } := by
        refine ordInv_of_orders h _ ?_ ?_ hI
        · show lo1.order = h.h_lo.order
          rw [← pair_fst heq2, tableRemove_order]
        · show hi1.order = h.h_hi.order
          rw [← pair_fst heq, tableInsert_order]
      have hcm : OrdInv (checkMoveHigher { h with h_hi := hi1, h_lo := lo1 }) :=
        ordInv_of_orders _ _ (checkMoveHigher_lo_order _) (checkMoveHigher_hi_order _) base
      have hce := checkExpand_ordInv _ hcm
      exact ordInv_of_orders _ _ rfl rfl hce

theorem ordInv_hashRemove (h : RHash) (k : Key) (hI : OrdInv h) :
    OrdInv (hashRemove h k).1 := by
  unfold hashRemove
  split
  · rename_i lo1 pk heq
    have base : OrdInv { h with h_lo := lo1 } := by
      refine ordInv_of_orders h _ ?_ rfl hI
      show lo1.order = h.h_lo.order
      rw [← pair_fst heq, tableRemove_order]
    have hcm : OrdInv (checkMoveLower { h with h_lo := lo1 }) :=
      ordInv_of_orders _ _ (checkMoveLower_lo_order _) (checkMoveLower_hi_order _) base
    have hcs := checkShrink_ordInv _ hcm
    exact ordInv_of_orders _ _ rfl rfl hcs
  · rename_i lo1 heq
    split
    · rename_i hi1 pk heq2
      have base : OrdInv { h with h_lo := lo1, h_hi := hi1 } := by
        refine ordInv_of_orders h _ ?_ ?_ hI
        · show lo1.order = h.h_lo.order
          rw [← pair_fst heq, tableRemove_order]
        · show hi1.order = h.h_hi.order
          rw [← pair_fst heq2, tableRemove_order]
      have hcm : OrdInv (checkMoveLower { h with h_lo := lo1, h_hi := hi1 }) :=
        ordInv_of_orders _ _ (checkMoveLower_lo_order _) (checkMoveLower_hi_order _) base
      have hcs := checkShrink_ordInv _ hcm
      exact ordInv_of_orders _ _ rfl rfl hcs
    · rename_i hi1 heq2
      refine ordInv_of_orders h _ ?_ ?_ hI
      · show lo1.order = h.h_lo.order
        rw [← pair_fst heq, tableRemove_order]
      · show hi1.order = h.h_hi.order
        rw [← pair_fst heq2, tableRemove_order]

theorem ordInv_hashClear (h : RHash) : OrdInv (hashClear h) := by
  refine ⟨?_, ?_, Or.inr ⟨?_, ?_⟩⟩ <;>
    simp [hashClear, bumpEdit, tableClear_order, minOrder, maxOrder]

theorem ordInv_hashPeek (h : RHash) (hI : OrdInv h) : OrdInv (hashPeek h).1 := by
  unfold hashPeek
  split
  · rename_i lo1 e heq
    refine ordInv_of_orders h _ ?_ rfl hI
    show lo1.order = h.h_lo.order
    rw [← pairE_fst heq, tablePeek_order]
  · rename_i lo1 heq
    split
    · rename_i hi1 e heq2
      refine ordInv_of_orders h _ ?_ ?_ hI
      · show lo1.order = h.h_lo.order
        rw [← pairE_fst heq, tablePeek_order]
      · show hi1.order = h.h_hi.order
        rw [← pairE_fst heq2, tablePeek_order]
    · rename_i hi1 heq2
      refine ordInv_of_orders h _ ?_ ?_ hI
      · show lo1.order = h.h_lo.order
        rw [← pairE_fst heq, tablePeek_order]
      · show hi1.order = h.h_hi.order
        rw [← pairE_fst heq2, tablePeek_order]

theorem ordInv_applyOp (h : RHash) (op : Op) (hI : OrdInv h) : OrdInv (applyOp h op) := by
  cases op with
  | add k =>
    show OrdInv (hashAdd h k).1
    unfold hashAdd
    split
    · exact hI
    · exact ordInv_hashInsert h (k, 0) hI
  | put k v =>
    show OrdInv (hashPut h k v).1
    unfold hashPut
    split
    · exact ordInv_hashInsert h (k, v) hI
    · exact hI
  | remove k => exact ordInv_hashRemove h k hI
  | clear => exact ordInv_hashClear h
  | peek => exact ordInv_hashPeek h hI

theorem reachable_ordInv (kb : Nat) (im : Bool) (h : RHash)
    (hr : Reachable kb im h) : OrdInv h := by
  induction hr with
  | init => exact ordInv_create kb im
  | step h0 op _ ih => exact ordInv_applyOp h0 op ih

/-! ### Claim C9: the hash function -/

theorem hashStep_eq (h c : Nat) : hashStep h c = (h * 33 + c) % 2 ^ 32 := by
  unfold hashStep
  rw [Nat.mod_add_mod, Nat.add_assoc, Nat.mod_add_mod]
  congr 1
  ring

/-- C9: for every key, the hash equals the fold `h := h*33 + byte` from
seed 5381 in 32-bit arithmetic (mod `2^32`): over all bytes up to the
null terminator (the whole modelled list) when `key_bytes = 0`, and over
exactly `key_bytes` bytes otherwise.  Being a Lean function of the key
bytes alone, `hashKey` is deterministic and total. -/
theorem c9_hash_fold (kb : Nat) (k : Key) :
    hashKey kb k =
      (if kb > 0 then (k.take kb).foldl (fun h b => (h * 33 + b) % 2 ^ 32) 5381
       else k.foldl (fun h b => (h * 33 + b) % 2 ^ 32) 5381) := by
  unfold hashKey hashFixed hashStr
  split
  · exact List.foldl_ext _ _ 5381 (fun a b _ => hashStep_eq a b)
  · exact List.foldl_ext _ _ 5381 (fun a b _ => hashStep_eq a b)

/-! ### Claim C10: cross-mode misuse -/

/-- C10: `cl_rhash_add` on a map returns the key argument and leaves the
hash (both tables and the edit version) unchanged; `cl_rhash_put` on a
set returns `NULL` and leaves the hash unchanged; `cl_rhash_get` on a
set returns `NULL` (and, being modelled as a pure function of the state
exactly as the C lookup path, mutates nothing). -/
theorem c10_cross_mode_noop (h : RHash) (k : Key) (v : Nat) :
    (h.is_map = true → hashAdd h k = (h, some k)) ∧
    (h.is_map = false → hashPut h k v = (h, none)) ∧
    (h.is_map = false → hashGet h k = none) := by
  refine ⟨fun hm => ?_, fun hm => ?_, fun hm => ?_⟩ <;>
    simp [hashAdd, hashPut, hashGet, hm]

theorem c10_cross_mode_noop_witness :
    hashAdd (hashCreate 0 true) [1] = (hashCreate 0 true, some [1]) ∧
    hashPut (hashCreate 0 false) [1] 2 = (hashCreate 0 false, none) ∧
    hashGet (hashCreate 0 false) [1] = none :=
  ⟨(c10_cross_mode_noop (hashCreate 0 true) [1] 2).1 rfl,
   (c10_cross_mode_noop (hashCreate 0 false) [1] 2).2.1 rfl,
   (c10_cross_mode_noop (hashCreate 0 false) [1] 2).2.2 rfl⟩

/-! ### Claim C3: the order relation between the two tables

`cl_rhash_create` initialises BOTH tables at `CL_HASH_MIN_ORDER`, so
immediately after creation `h_hi.order = h_lo.order`, not
`h_lo.order + 1`; the `+1` relation is only established by the first
expand. -/

/-- C3 counterexample: immediately after `cl_rhash_create` the high
table's order is 6 and the low table's order is 6, so the claimed
relation `hi.order = lo.order + 1` fails in an observable state. -/
theorem c3_create_orders_equal :
    (hashCreate 0 false).h_hi.order ≠ (hashCreate 0 false).h_lo.order + 1 ∧
    (hashCreate 0 false).h_hi.order = (hashCreate 0 false).h_lo.order := by
  decide

/-- C3 amended: in every observable state, either
`h_hi.order = h_lo.order + 1` or both tables are at the minimum order 6
(the latter holds from creation until the first expand, and again after
`cl_rhash_clear`). -/
theorem c3_order_relation (kb : Nat) (im : Bool) (h : RHash)
    (hr : Reachable kb im h) :
    h.h_hi.order = h.h_lo.order + 1 ∨
      (h.h_lo.order = minOrder ∧ h.h_hi.order = minOrder) :=
  (reachable_ordInv kb im h hr).2.2

theorem c3_order_relation_witness :
    (hashCreate 0 false).h_hi.order = (hashCreate 0 false).h_lo.order + 1 ∨
      ((hashCreate 0 false).h_lo.order = minOrder ∧
        (hashCreate 0 false).h_hi.order = minOrder) :=
  c3_order_relation 0 false (hashCreate 0 false) Reachable.init

/-! ### Claim C8: the range of table orders

`cl_rhash_shrink` decrements `h_lo.order` after cloning, and a shrink
from orders `(6, 7)` (reached by growing past the first expand and
removing back down) leaves `h_lo.order = 5`, below `CL_HASH_MIN_ORDER`.
The high table's order does stay in `[6, 31]`, and the low table's order
never drops below 5; every table size is `2^order` by construction. -/

set_option maxRecDepth 100000 in
/-- C8 counterexample: adding the 48 one-byte keys `[0] .. [47]` to a
fresh set (triggering one expand to orders `(6, 7)`) and then removing
the 16 keys `[0] .. [15]` (triggering one shrink) is a reachable state
whose low table has order 5, outside the claimed range `[6, 31]`. -/
theorem c8_order_below_min :
    (runOps 1 false (((List.range 48).map fun i => Op.add [i]) ++
      ((List.range 16).map fun i => Op.remove [i]))).h_lo.order = 5 ∧
    ¬ minOrder ≤ (runOps 1 false (((List.range 48).map fun i => Op.add [i]) ++
      ((List.range 16).map fun i => Op.remove [i]))).h_lo.order := by
  constructor
  · decide
  · decide

/-- C8 amended: in every reachable state the high table's order lies in
`[CL_HASH_MIN_ORDER, CL_HASH_MAX_ORDER] = [6, 31]` and the low table's
order lies in `[5, 30]` (it reaches 5 exactly when a shrink lands at
orders `(5, 6)`); each table's size is `2^order`, a power of two. -/
theorem c8_order_range (kb : Nat) (im : Bool) (h : RHash)
    (hr : Reachable kb im h) :
    5 ≤ h.h_lo.order ∧ h.h_lo.order ≤ 30 ∧
      minOrder ≤ h.h_hi.order ∧ h.h_hi.order ≤ maxOrder ∧
      tableSize h.h_lo = 2 ^ h.h_lo.order ∧ tableSize h.h_hi = 2 ^ h.h_hi.order := by
  obtain ⟨h1, h2, h3⟩ := reachable_ordInv kb im h hr
  have hmo : minOrder = 6 := rfl
  have hma : maxOrder = 31 := rfl
  refine ⟨?_, ?_, h1, h2, rfl, rfl⟩ <;> omega

theorem c8_order_range_witness :
    5 ≤ (hashCreate 0 false).h_lo.order ∧ (hashCreate 0 false).h_lo.order ≤ 30 ∧
      minOrder ≤ (hashCreate 0 false).h_hi.order ∧
      (hashCreate 0 false).h_hi.order ≤ maxOrder ∧
      tableSize (hashCreate 0 false).h_lo = 2 ^ (hashCreate 0 false).h_lo.order ∧
      tableSize (hashCreate 0 false).h_hi = 2 ^ (hashCreate 0 false).h_hi.order :=
  c8_order_range 0 false (hashCreate 0 false) Reachable.init

/-! ### Claim C4: the expand boundary

`cl_rhash_should_expand` fires as soon as `h_hi.n_entries >= limit`
with the limit at 48 = 3/4 of 64, so the 48th distinct insertion into a
fresh set already triggers the expand — not only insertions beyond 49. -/

set_option maxRecDepth 100000 in
/-- C4 counterexample: after adding the 49 distinct one-byte keys
`[0] .. [48]` to a fresh set, the high table's order is 7 (it was 6 at
creation): an expand HAS occurred — in fact already on the 48th add,
refuting the claim that 49 adds do not trigger an expand. -/
theorem c4_expand_at_49 :
    (runOps 1 false ((List.range 49).map fun i => Op.add [i])).h_hi.order = 7 ∧
    (hashCreate 1 false).h_hi.order = 6 := by
  constructor
  · decide
  · decide

set_option maxRecDepth 100000 in
/-- C4 amended: adding the 47 distinct one-byte keys `[0] .. [46]` to a
fresh set triggers no expand (both orders still 6, all 47 entries in the
high table); the 48th add reaches the threshold `48 = 3/4 * 64` and
triggers the (first) expand, after which the old high table (48 entries,
order 6) is the low table and the new high table has order 7. -/
theorem c4_expand_boundary :
    (runOps 1 false ((List.range 47).map fun i => Op.add [i])).h_lo.order = 6 ∧
    (runOps 1 false ((List.range 47).map fun i => Op.add [i])).h_hi.order = 6 ∧
    (runOps 1 false ((List.range 47).map fun i => Op.add [i])).h_hi.n_entries = 47 ∧
    (runOps 1 false ((List.range 48).map fun i => Op.add [i])).h_lo.order = 6 ∧
    (runOps 1 false ((List.range 48).map fun i => Op.add [i])).h_hi.order = 7 ∧
    (runOps 1 false ((List.range 48).map fun i => Op.add [i])).h_lo.n_entries = 48 ∧
    (runOps 1 false ((List.range 48).map fun i => Op.add [i])).h_hi.n_entries = 0 := by
  refine ⟨?_, ?_, ?_, ?_, ?_, ?_, ?_⟩ <;> decide

/-! ### Probe arithmetic -/

theorem tableSize_pos (t : RTable) : 0 < tableSize t := Nat.two_pow_pos t.order

theorem tableSlot_lt (t : RTable) (hcode pr : Nat) :
    tableSlot t hcode pr < tableSize t := Nat.mod_lt _ (tableSize_pos t)

/-- The probe index of slot `s` relative to hash code `hcode`. -/
def probeOf (t : RTable) (hcode s : Nat) : Nat :=
  (s + tableSize t - hcode % tableSize t) % tableSize t

theorem probeOf_lt (t : RTable) (hcode s : Nat) : probeOf t hcode s < tableSize t :=
  Nat.mod_lt _ (tableSize_pos t)

theorem tableSlot_probeOf (t : RTable) (hcode : Nat) {s : Nat} (hs : s < tableSize t) :
    tableSlot t hcode (probeOf t hcode s) = s := by
  unfold tableSlot probeOf
  have hp : 0 < tableSize t := tableSize_pos t
  have hm : hcode % tableSize t < tableSize t := Nat.mod_lt _ hp
  have hq := Nat.div_add_mod hcode (tableSize t)
  rw [Nat.add_mod_mod]
  have h2 : tableSize t * (hcode / tableSize t + 1)
      = tableSize t * (hcode / tableSize t) + tableSize t := by ring
  have h1 : hcode + (s + tableSize t - hcode % tableSize t)
      = s + tableSize t * (hcode / tableSize t + 1) := by omega
  rw [h1, Nat.add_mul_mod_self_left, Nat.mod_eq_of_lt hs]

theorem tableSlot_inj (t : RTable) (hcode : Nat) {i j : Nat} (hi : i < tableSize t)
    (hj : j < tableSize t) (he : tableSlot t hcode i = tableSlot t hcode j) : i = j := by
  unfold tableSlot at he
  have := Nat.ModEq.add_left_cancel' hcode (he : (hcode + i) % tableSize t = (hcode + j) % tableSize t)
  have h2 : i % tableSize t = j % tableSize t := this
  rwa [Nat.mod_eq_of_lt hi, Nat.mod_eq_of_lt hj] at h2

theorem probeOf_tableSlot (t : RTable) (hcode : Nat) {pr : Nat} (hpr : pr < tableSize t) :
    probeOf t hcode (tableSlot t hcode pr) = pr :=
  tableSlot_inj t hcode (probeOf_lt t hcode _) hpr
    (tableSlot_probeOf t hcode (tableSlot_lt t hcode pr))

theorem pred_tableSlot (t : RTable) (hcode pr : Nat) :
    (tableSlot t hcode (pr + 1) + tableSize t - 1) % tableSize t = tableSlot t hcode pr := by
  unfold tableSlot
  have hp : 0 < tableSize t := tableSize_pos t
  have h1 : (hcode + (pr + 1)) % tableSize t + tableSize t - 1
      = (hcode + (pr + 1)) % tableSize t + (tableSize t - 1) := by omega
  rw [h1, Nat.mod_add_mod]
  have h2 : hcode + (pr + 1) + (tableSize t - 1) = hcode + pr + tableSize t := by omega
  rw [h2, Nat.add_mod_right]

theorem succ_tableSlot (t : RTable) (hcode pr : Nat) :
    (tableSlot t hcode pr + 1) % tableSize t = tableSlot t hcode (pr + 1) := by
  unfold tableSlot
  rw [Nat.mod_add_mod, Nat.add_assoc]

theorem cost_eq_probeOf (t : RTable) {s : Nat} {e : Entry} (he : t.table s = some e)
    (hs : s < tableSize t) :
    cost t s = probeOf t (hashKey t.key_bytes e.1) s := by
  unfold cost
  rw [he]
  show costSlot t s (tableSlot t (hashKey t.key_bytes e.1) 0) = _
  unfold costSlot tableSlot probeOf
  simp only [Nat.add_zero]
  have hm : hashKey t.key_bytes e.1 % tableSize t < tableSize t := Nat.mod_lt _ (tableSize_pos t)
  split
  · rename_i hge
    have h1 : s + tableSize t - hashKey t.key_bytes e.1 % tableSize t
        = (s - hashKey t.key_bytes e.1 % tableSize t) + tableSize t := by omega
    rw [h1, Nat.add_mod_right]
    exact (Nat.mod_eq_of_lt (by omega)).symm
  · rename_i hlt
    have h2 : s + tableSize t - hashKey t.key_bytes e.1 % tableSize t
        = tableSize t + s - hashKey t.key_bytes e.1 % tableSize t := by omega
    rw [h2]
    exact (Nat.mod_eq_of_lt (by omega)).symm

theorem cost_lt_size (t : RTable) (s : Nat) (hs : s < tableSize t) :
    cost t s < tableSize t := by
  cases he : t.table s with
  | none =>
    unfold cost
    rw [he]
    exact tableSize_pos t
  | some e =>
    rw [cost_eq_probeOf t he hs]
    exact probeOf_lt t _ s

theorem slot_cost (t : RTable) {s : Nat} {e : Entry} (he : t.table s = some e)
    (hs : s < tableSize t) :
    tableSlot t (hashKey t.key_bytes e.1) (cost t s) = s := by
  rw [cost_eq_probeOf t he hs]
  exact tableSlot_probeOf t _ hs

/-! ### Key-equality facts -/

theorem keyEq_refl (kb : Nat) (k : Key) : keyEq kb k k = true := by
  unfold keyEq; split <;> simp

theorem keyEq_symm {kb : Nat} {a b : Key} (h : keyEq kb a b = true) : keyEq kb b a = true := by
  unfold keyEq at *
  split at h <;> rename_i hkb
  · rw [if_pos hkb]
    rw [beq_iff_eq] at *
    exact h.symm
  · rw [if_neg hkb]
    rw [beq_iff_eq] at *
    exact h.symm

theorem keyEq_trans {kb : Nat} {a b c : Key} (h1 : keyEq kb a b = true)
    (h2 : keyEq kb b c = true) : keyEq kb a c = true := by
  unfold keyEq at *
  split at h1 <;> rename_i hkb
  · rw [if_pos hkb] at h2 ⊢
    rw [beq_iff_eq] at *
    exact h1.trans h2
  · rw [if_neg hkb] at h2 ⊢
    rw [beq_iff_eq] at *
    exact h1.trans h2

theorem hashKey_keyEq {kb : Nat} {a b : Key} (h : keyEq kb a b = true) :
    hashKey kb a = hashKey kb b := by
  unfold keyEq at h
  unfold hashKey hashFixed
  split at h <;> rename_i hkb
  · simp only [if_pos hkb]
    rw [beq_iff_eq] at h
    rw [h]
  · simp only [if_neg hkb]
    rw [beq_iff_eq] at h
    unfold hashStr
    rw [h]

/-! ### The table well-formedness invariant

`WF t` packages the structural facts the C code relies on: all slots
beyond the table are empty (storage is exactly `2^order` slots), all
slots below the peek cursor are empty, `n_entries` counts the occupied
slots, no two occupied slots hold equal keys, and the Robin-Hood
ordering: an entry with positive cost has an occupied predecessor slot
whose cost is at least one less. -/

def occCount (t : RTable) : Nat :=
  ((Finset.range (tableSize t)).filter (fun s => (t.table s).isSome = true)).card

structure WF (t : RTable) : Prop where
  oob : ∀ s, tableSize t ≤ s → t.table s = none
  peekInv : ∀ s, s < t.n_peek → t.table s = none
  count : occCount t = t.n_entries
  nodup : ∀ s1 s2 e1 e2, t.table s1 = some e1 → t.table s2 = some e2 →
      keyEq t.key_bytes e1.1 e2.1 = true → s1 = s2
  rh : ∀ s e, t.table s = some e → 0 < cost t s →
      (t.table ((s + tableSize t - 1) % tableSize t)).isSome = true ∧
      cost t s ≤ cost t ((s + tableSize t - 1) % tableSize t) + 1

/-- A key is stored somewhere in the table. -/
def memKey (t : RTable) (k : Key) : Prop :=
  ∃ s e, t.table s = some e ∧ keyEq t.key_bytes k e.1 = true

/-- An entry is stored somewhere in the table. -/
def memEnt (t : RTable) (e : Entry) : Prop := ∃ s, t.table s = some e

theorem mem_lt_size {t : RTable} (wf : WF t) {s : Nat} {e : Entry}
    (he : t.table s = some e) : s < tableSize t := by
  by_contra hc
  rw [wf.oob s (Nat.le_of_not_lt hc)] at he
  exact Option.noConfusion he

/-- Walking back along the probe path of an occupied slot: every earlier
probe position is occupied with at least that probe's cost. -/
theorem chain {t : RTable} (wf : WF t) {s : Nat} {e : Entry}
    (hs : t.table s = some e) :
    ∀ d i, i + d = cost t s →
      ∃ e2, t.table (tableSlot t (hashKey t.key_bytes e.1) i) = some e2 ∧
        i ≤ cost t (tableSlot t (hashKey t.key_bytes e.1) i) := by
  intro d
  induction d with
  | zero =>
    intro i hi
    rw [Nat.add_zero] at hi
    subst hi
    rw [slot_cost t hs (mem_lt_size wf hs)]
    exact ⟨e, hs, Nat.le_refl _⟩
  | succ d ih =>
    intro i hi
    obtain ⟨e2, he2, hc2⟩ := ih (i + 1) (by omega)
    have hpos : 0 < cost t (tableSlot t (hashKey t.key_bytes e.1) (i + 1)) := by omega
    obtain ⟨hocc, hcost⟩ := wf.rh _ e2 he2 hpos
    rw [pred_tableSlot] at hocc hcost
    obtain ⟨e3, he3⟩ := Option.isSome_iff_exists.mp hocc
    exact ⟨e3, he3, by omega⟩

theorem chain_at {t : RTable} (wf : WF t) {s : Nat} {e : Entry}
    (hs : t.table s = some e) {i : Nat} (hi : i ≤ cost t s) :
    ∃ e2, t.table (tableSlot t (hashKey t.key_bytes e.1) i) = some e2 ∧
      i ≤ cost t (tableSlot t (hashKey t.key_bytes e.1) i) :=
  chain wf hs (cost t s - i) i (by omega)

/-- Cost is bounded by the number of entries (the chain of occupied
slots behind an entry has `cost + 1` distinct members). -/
theorem cost_lt_entries {t : RTable} (wf : WF t) {s : Nat} {e : Entry}
    (hs : t.table s = some e) : cost t s < t.n_entries := by
  have hslt : s < tableSize t := mem_lt_size wf hs
  have hclt : cost t s < tableSize t := cost_lt_size t s hslt
  have hsub : (Finset.range (cost t s + 1)).image
      (fun i => tableSlot t (hashKey t.key_bytes e.1) i) ⊆
      (Finset.range (tableSize t)).filter (fun x => (t.table x).isSome = true) := by
    intro x hx
    obtain ⟨i, hi, rfl⟩ := Finset.mem_image.mp hx
    rw [Finset.mem_range] at hi
    obtain ⟨e2, he2, _⟩ := chain_at wf hs (i := i) (by omega)
    refine Finset.mem_filter.mpr ⟨Finset.mem_range.mpr (tableSlot_lt t _ _), ?_⟩
    rw [he2]
    rfl
  have hcard : ((Finset.range (cost t s + 1)).image
      (fun i => tableSlot t (hashKey t.key_bytes e.1) i)).card = cost t s + 1 := by
    rw [Finset.card_image_of_injOn, Finset.card_range]
    intro i hi j hj hij
    rw [Finset.mem_coe, Finset.mem_range] at hi hj
    exact tableSlot_inj t _ (by omega) (by omega) hij
  have := Finset.card_le_card hsub
  rw [hcard] at this
  have hcnt := wf.count
  unfold occCount at hcnt
  omega

theorem exists_empty_slot {t : RTable} (wf : WF t) (hn : t.n_entries < tableSize t) :
    ∃ s0, s0 < tableSize t ∧ t.table s0 = none := by
  by_contra hc
  push_neg at hc
  have hall : ∀ x ∈ Finset.range (tableSize t), (t.table x).isSome = true := by
    intro x hx
    rw [Finset.mem_range] at hx
    cases hx2 : t.table x with
    | none => exact absurd hx2 (hc x hx)
    | some e => rfl
  have : occCount t = tableSize t := by
    unfold occCount
    rw [Finset.filter_true_of_mem hall, Finset.card_range]
  have hcnt := wf.count
  omega

/-! ### Lookup correctness -/

theorem findLoop_sound (t : RTable) (hcode : Nat) (k : Key) :
    ∀ fuel pr s, findLoop t hcode k pr fuel = some s →
      ∃ e, t.table s = some e ∧ keyEq t.key_bytes k e.1 = true := by
  intro fuel
  induction fuel with
  | zero =>
    intro pr s h
    exact absurd h (by rw [findLoop]; exact Option.noConfusion)
  | succ n ih =>
    intro pr s h
    rw [findLoop] at h
    cases hsl : t.table (tableSlot t hcode pr) with
    | none =>
      rw [hsl] at h
      exact Option.noConfusion h
    | some e =>
      rw [hsl] at h
      dsimp only at h
      by_cases hk : keyEq t.key_bytes k e.1 = true
      · rw [if_pos hk] at h
        injection h with h
        subst h
        exact ⟨e, hsl, hk⟩
      · rw [if_neg hk] at h
        by_cases hcst : cost t (tableSlot t hcode pr) < pr
        · rw [if_pos hcst] at h
          exact Option.noConfusion h
        · rw [if_neg hcst] at h
          exact ih (pr + 1) s h

theorem findLoop_complete {t : RTable} (wf : WF t) {s : Nat} {e : Entry} {k : Key}
    (hs : t.table s = some e) (hk : keyEq t.key_bytes k e.1 = true) :
    ∀ fuel pr, pr ≤ cost t s → cost t s < pr + fuel →
      findLoop t (hashKey t.key_bytes k) k pr fuel = some s := by
  have hh : hashKey t.key_bytes k = hashKey t.key_bytes e.1 := hashKey_keyEq hk
  intro fuel
  induction fuel with
  | zero => intro pr h1 h2; omega
  | succ n ih =>
    intro pr h1 h2
    obtain ⟨e2, he2, hc2⟩ := chain_at wf hs h1
    rw [findLoop, hh, he2]
    dsimp only
    by_cases hke : keyEq t.key_bytes k e2.1 = true
    · rw [if_pos hke]
      have hee : keyEq t.key_bytes e2.1 e.1 = true :=
        keyEq_trans (keyEq_symm hke) hk
      have := wf.nodup _ _ _ _ he2 hs hee
      rw [this]
    · rw [if_neg hke]
      have hprc : pr ≠ cost t s := by
        intro hc
        subst hc
        rw [slot_cost t hs (mem_lt_size wf hs)] at he2
        rw [hs] at he2
        injection he2 with he2
        subst he2
        exact hke hk
      have hncost : ¬ cost t (tableSlot t (hashKey t.key_bytes e.1) pr) < pr :=
        Nat.not_lt.mpr hc2
      rw [if_neg hncost]
      have := ih (pr + 1) (by omega) (by omega)
      rw [hh] at this
      exact this

theorem tableFind_sound {t : RTable} {k : Key} {s : Nat} (h : tableFind t k = some s) :
    ∃ e, t.table s = some e ∧ keyEq t.key_bytes k e.1 = true :=
  findLoop_sound t _ k _ 0 s h

theorem tableFind_complete {t : RTable} (wf : WF t) {s : Nat} {e : Entry} {k : Key}
    (hs : t.table s = some e) (hk : keyEq t.key_bytes k e.1 = true) :
    tableFind t k = some s := by
  unfold tableFind
  exact findLoop_complete wf hs hk (tableSize t) 0 (Nat.zero_le _)
    (by simpa using cost_lt_size t s (mem_lt_size wf hs))

theorem tableContains_iff {t : RTable} (wf : WF t) (k : Key) :
    tableContains t k = true ↔ memKey t k := by
  constructor
  · intro h
    unfold tableContains at h
    obtain ⟨s, hse⟩ := Option.isSome_iff_exists.mp h
    obtain ⟨e, he, hk⟩ := tableFind_sound hse
    exact ⟨s, e, he, hk⟩
  · rintro ⟨s, e, he, hk⟩
    unfold tableContains
    rw [tableFind_complete wf he hk]
    rfl

theorem not_memKey_find {t : RTable} (wf : WF t) {k : Key} (h : ¬ memKey t k) :
    tableFind t k = none := by
  cases hf : tableFind t k with
  | none => rfl
  | some s =>
    obtain ⟨e, he, hk⟩ := tableFind_sound hf
    exact absurd ⟨s, e, he, hk⟩ h

/-! ### Generic update-fold and counting lemmas -/

theorem updateFn_eq (f : Nat → Option Entry) (s : Nat) (v : Option Entry) :
    updateFn f s v s = v := by
  unfold updateFn
  rw [if_pos rfl]

theorem updateFn_ne (f : Nat → Option Entry) {s s1 : Nat} (v : Option Entry)
    (h : s1 ≠ s) : updateFn f s v s1 = f s1 := by
  unfold updateFn
  rw [if_neg h]

theorem foldl_updateFn_ne (σ : Nat → Nat) (v : Nat → Option Entry) :
    ∀ (l : List Nat) (t0 : Nat → Option Entry) (s : Nat), (∀ j ∈ l, σ j ≠ s) →
      (l.foldl (fun acc j => updateFn acc (σ j) (v j)) t0) s = t0 s := by
  intro l
  induction l with
  | nil => intro t0 s h; rfl
  | cons a l2 ih =>
    intro t0 s h
    rw [List.foldl_cons]
    rw [ih _ s (fun j hj => h j (List.mem_cons_of_mem a hj))]
    exact updateFn_ne t0 _ (fun hc => h a (List.mem_cons_self a l2) hc.symm)

theorem foldl_updateFn_eq (σ : Nat → Nat) (v : Nat → Option Entry) :
    ∀ (l : List Nat) (t0 : Nat → Option Entry) (s j : Nat), j ∈ l → σ j = s →
      (∀ j2 ∈ l, σ j2 = s → j2 = j) →
      (l.foldl (fun acc j => updateFn acc (σ j) (v j)) t0) s = v j := by
  intro l
  induction l with
  | nil => intro t0 s j hj; exact absurd hj (List.not_mem_nil j)
  | cons a l2 ih =>
    intro t0 s j hj hs huniq
    rw [List.foldl_cons]
    by_cases hmem : j ∈ l2
    · exact ih _ s j hmem hs (fun j2 hj2 hs2 => huniq j2 (List.mem_cons_of_mem a hj2) hs2)
    · have haj : a = j := by
        cases List.mem_cons.mp hj with
        | inl h => exact h.symm
        | inr h => exact absurd h hmem
      subst haj
      rw [foldl_updateFn_ne σ v l2 _ s]
      · rw [hs]
        exact updateFn_eq t0 s (v a)
      · intro j2 hj2 hc
        exact hmem ((huniq j2 (List.mem_cons_of_mem a hj2) hc) ▸ hj2)

theorem foldl_min_le_init (σ : Nat → Nat) :
    ∀ (l : List Nat) (a : Nat), l.foldl (fun m j => min m (σ j)) a ≤ a := by
  intro l
  induction l with
  | nil => intro a; exact Nat.le_refl a
  | cons b l2 ih =>
    intro a
    rw [List.foldl_cons]
    exact Nat.le_trans (ih _) (Nat.min_le_left _ _)

theorem foldl_min_le_mem (σ : Nat → Nat) :
    ∀ (l : List Nat) (a : Nat) (j : Nat), j ∈ l →
      l.foldl (fun m j => min m (σ j)) a ≤ σ j := by
  intro l
  induction l with
  | nil => intro a j hj; exact absurd hj (List.not_mem_nil j)
  | cons b l2 ih =>
    intro a j hj
    rw [List.foldl_cons]
    cases List.mem_cons.mp hj with
    | inl h =>
      subst h
      exact Nat.le_trans (foldl_min_le_init σ l2 _) (Nat.min_le_right _ _)
    | inr h => exact ih _ j h

/-- Occupancy count after a change that occupies exactly one previously
empty slot. -/
theorem occCount_succ_of (t t3 : RTable) (hsz : tableSize t3 = tableSize t) (s0 : Nat)
    (hs0 : s0 < tableSize t) (hold : t.table s0 = none) (hnew : (t3.table s0).isSome = true)
    (hother : ∀ s, s ≠ s0 → (t3.table s).isSome = (t.table s).isSome) :
    occCount t3 = occCount t + 1 := by
  unfold occCount
  rw [hsz]
  have hset : (Finset.range (tableSize t)).filter (fun s => (t3.table s).isSome = true)
      = insert s0 ((Finset.range (tableSize t)).filter (fun s => (t.table s).isSome = true)) := by
    ext x
    simp only [Finset.mem_insert, Finset.mem_filter, Finset.mem_range]
    constructor
    · rintro ⟨hx, hocc⟩
      by_cases hxs : x = s0
      · exact Or.inl hxs
      · refine Or.inr ⟨hx, ?_⟩
        rw [← hother x hxs]
        exact hocc
    · rintro (hx | ⟨hx, hocc⟩)
      · subst hx
        exact ⟨hs0, hnew⟩
      · by_cases hxs : x = s0
        · subst hxs
          rw [hold] at hocc
          exact absurd hocc (by decide)
        · refine ⟨hx, ?_⟩
          rw [hother x hxs]
          exact hocc
  rw [hset, Finset.card_insert_of_not_mem]
  intro hmem
  rw [Finset.mem_filter, hold] at hmem
  exact absurd hmem.2 (by decide)

/-- Occupancy count after a change that empties exactly one previously
occupied slot. -/
theorem occCount_pred_of (t t3 : RTable) (hsz : tableSize t3 = tableSize t) (s0 : Nat)
    (hs0 : s0 < tableSize t) (hold : (t.table s0).isSome = true) (hnew : t3.table s0 = none)
    (hother : ∀ s, s ≠ s0 → (t3.table s).isSome = (t.table s).isSome) :
    occCount t3 + 1 = occCount t := by
  have := occCount_succ_of t3 t (by omega) s0 (by omega) hnew hold
    (fun s hs => (hother s hs).symm)
  omega

/-- Occupancy count when no slot changes its occupancy flag. -/
theorem occCount_congr (t t3 : RTable) (hsz : tableSize t3 = tableSize t)
    (hother : ∀ s, (t3.table s).isSome = (t.table s).isSome) :
    occCount t3 = occCount t := by
  unfold occCount
  rw [hsz]
  congr 1
  exact Finset.filter_congr (fun x _ => by rw [hother x])

/-- Cost only depends on the slot's content, the order and the key
width. -/
theorem cost_eq_of_table_eq {t t2 : RTable} (hord : t2.order = t.order)
    (hkb : t2.key_bytes = t.key_bytes) {s : Nat} (hs : t2.table s = t.table s) :
    cost t2 s = cost t s := by
  unfold cost costSlot tableSlot tableSize
  rw [hs, hord, hkb]

theorem keyEq_symm_false {kb : Nat} {a b : Key} (h : keyEq kb a b = false) :
    keyEq kb b a = false := by
  cases he : keyEq kb b a with
  | false => rfl
  | true => rw [keyEq_symm he] at h; exact Bool.noConfusion h

theorem probeOf_succ (t : RTable) (h2 : Nat) {s : Nat} (hs : s < tableSize t)
    (hb : probeOf t h2 s + 1 < tableSize t) :
    probeOf t h2 ((s + 1) % tableSize t) = probeOf t h2 s + 1 := by
  have h1 : s = tableSlot t h2 (probeOf t h2 s) := (tableSlot_probeOf t h2 hs).symm
  conv_lhs => rw [h1, succ_tableSlot]
  exact probeOf_tableSlot t h2 hb

/-! ### The find-empty scan -/

theorem findEmpty_spec (t : RTable) (hcode : Nat) :
    ∀ fuel pr j0, pr ≤ j0 → j0 < pr + fuel →
      t.table (tableSlot t hcode j0) = none →
      pr ≤ findEmpty t hcode pr fuel ∧ findEmpty t hcode pr fuel ≤ j0 ∧
        t.table (tableSlot t hcode (findEmpty t hcode pr fuel)) = none ∧
        ∀ i, pr ≤ i → i < findEmpty t hcode pr fuel →
          (t.table (tableSlot t hcode i)).isSome = true := by
  intro fuel
  induction fuel with
  | zero => intro pr j0 h1 h2; omega
  | succ n ih =>
    intro pr j0 h1 h2 hj0
    rw [findEmpty]
    by_cases hemp : t.table (tableSlot t hcode pr) = none
    · rw [if_pos hemp]
      exact ⟨Nat.le_refl pr, h1, hemp, fun i hi1 hi2 => by omega⟩
    · rw [if_neg hemp]
      have hne : pr ≠ j0 := fun hc => hemp (hc ▸ hj0)
      obtain ⟨ha, hb, hc, hd⟩ := ih (pr + 1) j0 (by omega) (by omega) hj0
      refine ⟨by omega, hb, hc, ?_⟩
      intro i hi1 hi2
      by_cases hip : i = pr
      · subst hip
        cases hx : t.table (tableSlot t hcode i) with
        | none => exact absurd hx hemp
        | some e => rfl
      · exact hd i (by omega) hi2

/-! ### Structure-congruence helpers -/

theorem tableSize_congr {t t2 : RTable} (h : t2.order = t.order) :
    tableSize t2 = tableSize t := by
  unfold tableSize
  rw [h]

theorem tableSlot_congr {t t2 : RTable} (h : t2.order = t.order) (hcode pr : Nat) :
    tableSlot t2 hcode pr = tableSlot t hcode pr := by
  unfold tableSlot
  rw [tableSize_congr h]

theorem probeOf_congr {t t2 : RTable} (h : t2.order = t.order) (hcode s : Nat) :
    probeOf t2 hcode s = probeOf t hcode s := by
  unfold probeOf
  rw [tableSize_congr h]

theorem succ_pred_slot (t : RTable) {s : Nat} (hs : s < tableSize t) :
    ((s + tableSize t - 1) % tableSize t + 1) % tableSize t = s := by
  have hp : 0 < tableSize t := tableSize_pos t
  rw [Nat.mod_add_mod]
  have h1 : s + tableSize t - 1 + 1 = s + tableSize t := by omega
  rw [h1, Nat.add_mod_right, Nat.mod_eq_of_lt hs]

/-! ### Characterisation of `shiftForwardAux` -/

theorem sfa_table_at (t : RTable) (hcode ipr shift : Nat) (hsz : shift < tableSize t)
    {j : Nat} (hj1 : ipr + 1 ≤ j) (hj2 : j ≤ shift) :
    (shiftForwardAux t hcode ipr shift).table (tableSlot t hcode j)
      = t.table (tableSlot t hcode (j - 1)) := by
  unfold shiftForwardAux
  rw [if_neg (by omega)]
  exact foldl_updateFn_eq _ _ _ _ _ j
    (List.mem_range'_1.mpr ⟨hj1, by omega⟩) rfl
    (fun j2 hj2m hs2 => by
      rw [List.mem_range'_1] at hj2m
      exact tableSlot_inj t hcode (by omega) (by omega) hs2)

theorem sfa_table_untouched (t : RTable) (hcode ipr shift : Nat) {s : Nat}
    (hno : ∀ j, ipr + 1 ≤ j → j ≤ shift → tableSlot t hcode j ≠ s) :
    (shiftForwardAux t hcode ipr shift).table s = t.table s := by
  unfold shiftForwardAux
  split
  · rfl
  · exact foldl_updateFn_ne _ _ _ _ s (fun j hj => by
      rw [List.mem_range'_1] at hj
      exact hno j hj.1 (by omega))

theorem sfa_n_peek_le (t : RTable) (hcode ipr shift : Nat) :
    (shiftForwardAux t hcode ipr shift).n_peek ≤ t.n_peek := by
  unfold shiftForwardAux
  split
  · exact Nat.le_refl _
  · exact foldl_min_le_init _ _ _

theorem sfa_n_peek_le_slot (t : RTable) (hcode ipr shift : Nat) (hle : ipr ≤ shift)
    {j : Nat} (hj1 : ipr ≤ j) (hj2 : j ≤ shift) :
    (shiftForwardAux t hcode ipr shift).n_peek ≤ tableSlot t hcode j := by
  unfold shiftForwardAux
  rw [if_neg (by omega)]
  exact foldl_min_le_mem _ _ _ j (List.mem_range'_1.mpr ⟨hj1, by omega⟩)

/-! ### The insert loop invariant and key freshness -/

/-- Invariant of the probe loops after inspecting probes `0 .. pr-1`:
each earlier probe slot is occupied by a key different from the one
sought, with cost at least its probe index. -/
def probeInv (t : RTable) (ent : Entry) (hcode pr : Nat) : Prop :=
  ∀ i, i < pr → ∃ ei, t.table (tableSlot t hcode i) = some ei ∧
    keyEq t.key_bytes ent.1 ei.1 = false ∧ i ≤ cost t (tableSlot t hcode i)

/-- When the insert loop stops on an empty slot or a displacement, the
key being inserted is nowhere in the table. -/
theorem fresh_key {t : RTable} {ent : Entry} (wf : WF t) {pr : Nat}
    (hinv : probeInv t ent (hashKey t.key_bytes ent.1) pr)
    (hstop : t.table (tableSlot t (hashKey t.key_bytes ent.1) pr) = none ∨
      cost t (tableSlot t (hashKey t.key_bytes ent.1) pr) < pr) :
    ∀ s e, t.table s = some e → keyEq t.key_bytes ent.1 e.1 = false := by
  intro s e he
  cases hkeq : keyEq t.key_bytes ent.1 e.1 with
  | false => rfl
  | true =>
    exfalso
    have hh : hashKey t.key_bytes e.1 = hashKey t.key_bytes ent.1 :=
      (hashKey_keyEq hkeq).symm
    have hslt := mem_lt_size wf he
    by_cases hcp : cost t s < pr
    · obtain ⟨ei, hei, hkei, _⟩ := hinv (cost t s) hcp
      have hsl : tableSlot t (hashKey t.key_bytes ent.1) (cost t s) = s := by
        rw [← hh]
        exact slot_cost t he hslt
      rw [hsl, he] at hei
      injection hei with hei
      subst hei
      rw [hkeq] at hkei
      exact Bool.noConfusion hkei
    · obtain ⟨e2, he2, hc2⟩ := chain_at wf he (i := pr) (by omega)
      rw [hh] at he2 hc2
      cases hstop with
      | inl hemp =>
        rw [hemp] at he2
        exact Option.noConfusion he2
      | inr hlt => omega

theorem memKey_iff (t : RTable) (k : Key) :
    memKey t k ↔ ∃ e, memEnt t e ∧ keyEq t.key_bytes k e.1 = true := by
  constructor
  · rintro ⟨s, e, he, hk⟩
    exact ⟨e, ⟨s, he⟩, hk⟩
  · rintro ⟨e, ⟨s, he⟩, hk⟩
    exact ⟨s, e, he, hk⟩

/-! ### Specification bundle for `cl_rhash_table_insert` -/

/-- What one insert call does to a well-formed table: the result is
well-formed with the same order and key width; the stored entries are
the new entry plus every old entry with a different key; a `none`
result means a fresh placement (count up by one, key was absent), a
`some` result returns the stored key it replaced (count unchanged). -/
def InsOut (t : RTable) (ent : Entry) (r : RTable × Option Key) : Prop :=
  WF r.1 ∧ r.1.order = t.order ∧ r.1.key_bytes = t.key_bytes ∧
  (∀ e2, memEnt r.1 e2 ↔ (e2 = ent ∨ (memEnt t e2 ∧ keyEq t.key_bytes e2.1 ent.1 = false))) ∧
  ((r.2 = none ∧ r.1.n_entries = t.n_entries + 1 ∧ ¬ memKey t ent.1) ∨
    (∃ e0, r.2 = some e0.1 ∧ memEnt t e0 ∧ keyEq t.key_bytes ent.1 e0.1 = true ∧
      r.1.n_entries = t.n_entries))

/-- Transfer the Robin-Hood property along pointwise equal occupancy and
cost. -/
theorem rh_transfer {t t3 : RTable} (hsz : tableSize t3 = tableSize t)
    (hocc : ∀ s, (t3.table s).isSome = (t.table s).isSome)
    (hcost : ∀ s, cost t3 s = cost t s)
    (hrh : ∀ s e, t.table s = some e → 0 < cost t s →
      (t.table ((s + tableSize t - 1) % tableSize t)).isSome = true ∧
      cost t s ≤ cost t ((s + tableSize t - 1) % tableSize t) + 1) :
    ∀ s e, t3.table s = some e → 0 < cost t3 s →
      (t3.table ((s + tableSize t3 - 1) % tableSize t3)).isSome = true ∧
      cost t3 s ≤ cost t3 ((s + tableSize t3 - 1) % tableSize t3) + 1 := by
  intro s e he hpos
  have hocc_s : (t.table s).isSome = true := by rw [← hocc s, he]; rfl
  obtain ⟨e2, he2⟩ := Option.isSome_iff_exists.mp hocc_s
  have hpos2 : 0 < cost t s := by rw [← hcost s]; exact hpos
  obtain ⟨h1, h2⟩ := hrh s e2 he2 hpos2
  rw [hsz]
  exact ⟨by rw [hocc]; exact h1, by rw [hcost, hcost]; omega⟩

/-- Empty-slot branch of the insert loop. -/
theorem ins_branch_empty (t : RTable) (ent : Entry) (wf : WF t) {pr : Nat}
    (hpr : pr < tableSize t)
    (hinv : probeInv t ent (hashKey t.key_bytes ent.1) pr)
    (hempty : t.table (tableSlot t (hashKey t.key_bytes ent.1) pr) = none) :
    InsOut t ent (storeNew t (tableSlot t (hashKey t.key_bytes ent.1) pr) ent, none) := by
  have hfresh := fresh_key wf hinv (Or.inl hempty)
  set hcode := hashKey t.key_bytes ent.1 with hhc
  set slotp := tableSlot t hcode pr with hsp
  set t3 := storeNew t slotp ent with ht3
  have hsz3 : tableSize t3 = tableSize t := rfl
  have hslt : slotp < tableSize t := tableSlot_lt t hcode pr
  have htbl : ∀ s, s ≠ slotp → t3.table s = t.table s := fun s hs => updateFn_ne t.table _ hs
  have htblp : t3.table slotp = some ent := updateFn_eq t.table slotp (some ent)
  have hcost_ne : ∀ s, s ≠ slotp → cost t3 s = cost t s :=
    fun s hs => cost_eq_of_table_eq (show t3.order = t.order from rfl) rfl (htbl s hs)
  have hcostp : cost t3 slotp = pr := by
    rw [cost_eq_probeOf (t := t3) htblp hslt]
    show probeOf t hcode slotp = pr
    exact probeOf_tableSlot t hcode hpr
  have hwf : WF t3 := by
    refine ⟨?_, ?_, ?_, ?_, ?_⟩
    · intro s hs
      rw [htbl s (fun hc => by omega)]
      exact wf.oob s hs
    · intro s hs
      have h1 : s < t.n_peek := lt_of_lt_of_le hs (Nat.min_le_left _ _)
      have h2 : s < slotp := lt_of_lt_of_le hs (Nat.min_le_right _ _)
      rw [htbl s (by omega)]
      exact wf.peekInv s h1
    · have := occCount_succ_of t t3 rfl slotp hslt hempty (by rw [htblp]; rfl)
        (fun s hs => by rw [htbl s hs])
      rw [wf.count] at this
      exact this
    · intro s1 s2 e1 e2 h1 h2 hk
      rw [show t3.key_bytes = t.key_bytes from rfl] at hk
      by_cases hs1 : s1 = slotp <;> by_cases hs2 : s2 = slotp
      · rw [hs1, hs2]
      · subst hs1
        rw [htblp] at h1
        injection h1 with h1
        subst h1
        rw [htbl s2 hs2] at h2
        rw [hfresh s2 e2 h2] at hk
        exact Bool.noConfusion hk
      · subst hs2
        rw [htblp] at h2
        injection h2 with h2
        subst h2
        rw [htbl s1 hs1] at h1
        have hks : keyEq t.key_bytes ent.1 e1.1 = true := keyEq_symm hk
        rw [hfresh s1 e1 h1] at hks
        exact Bool.noConfusion hks
      · rw [htbl s1 hs1] at h1
        rw [htbl s2 hs2] at h2
        exact wf.nodup s1 s2 e1 e2 h1 h2 hk
    · intro s e he hpos
      by_cases hss : s = slotp
      · subst hss
        rw [hcostp] at hpos ⊢
        have hpr1 : pr - 1 + 1 = pr := by omega
        have hpred : (slotp + tableSize t3 - 1) % tableSize t3 = tableSlot t hcode (pr - 1) := by
          show (tableSlot t hcode pr + tableSize t - 1) % tableSize t = _
          rw [← hpr1, pred_tableSlot, hpr1]
        obtain ⟨ei, hei, _, hci⟩ := hinv (pr - 1) (by omega)
        have hne : tableSlot t hcode (pr - 1) ≠ slotp := fun hc => by
          have := tableSlot_inj t hcode (by omega) hpr hc
          omega
        rw [hpred]
        constructor
        · rw [htbl _ hne, hei]
          rfl
        · rw [hcost_ne _ hne]
          omega
      · rw [htbl s hss] at he
        rw [hcost_ne s hss] at hpos ⊢
        obtain ⟨hocc, hcost⟩ := wf.rh s e he hpos
        have hpred_cases : (s + tableSize t3 - 1) % tableSize t3
            = (s + tableSize t - 1) % tableSize t := rfl
        rw [hpred_cases]
        by_cases hps : (s + tableSize t - 1) % tableSize t = slotp
        · rw [hps, hempty] at hocc
          exact Bool.noConfusion hocc
        · rw [htbl _ hps, hcost_ne _ hps]
          exact ⟨hocc, hcost⟩
  refine ⟨hwf, rfl, rfl, ?_, Or.inl ⟨rfl, rfl, ?_⟩⟩
  · intro e2
    constructor
    · rintro ⟨s, hs⟩
      by_cases hss : s = slotp
      · subst hss
        rw [htblp] at hs
        injection hs with hs
        exact Or.inl hs.symm
      · rw [htbl s hss] at hs
        exact Or.inr ⟨⟨s, hs⟩, keyEq_symm_false (hfresh s e2 hs)⟩
    · rintro (rfl | ⟨⟨s, hs⟩, hkf⟩)
      · exact ⟨slotp, htblp⟩
      · have hss : s ≠ slotp := fun hc => by
          rw [hc, hempty] at hs
          exact Option.noConfusion hs
        exact ⟨s, by rw [htbl s hss]; exact hs⟩
  · rintro ⟨s, e, he, hk⟩
    rw [hfresh s e he] at hk
    exact Bool.noConfusion hk

/-- Key-match (update) branch of the insert loop. -/
theorem ins_branch_update (t : RTable) (ent : Entry) (wf : WF t) {pr : Nat}
    (hpr : pr < tableSize t) {e0 : Entry}
    (hsome : t.table (tableSlot t (hashKey t.key_bytes ent.1) pr) = some e0)
    (hkeq : keyEq t.key_bytes ent.1 e0.1 = true) :
    InsOut t ent (storeOver t (tableSlot t (hashKey t.key_bytes ent.1) pr) ent, some e0.1) := by
  set hcode := hashKey t.key_bytes ent.1 with hhc
  set slotp := tableSlot t hcode pr with hsp
  set t3 := storeOver t slotp ent with ht3
  have hsz3 : tableSize t3 = tableSize t := rfl
  have hslt : slotp < tableSize t := tableSlot_lt t hcode pr
  have htbl : ∀ s, s ≠ slotp → t3.table s = t.table s := fun s hs => updateFn_ne t.table _ hs
  have htblp : t3.table slotp = some ent := updateFn_eq t.table slotp (some ent)
  have hocc_all : ∀ s, (t3.table s).isSome = (t.table s).isSome := by
    intro s
    by_cases hss : s = slotp
    · subst hss
      rw [htblp, hsome]
      rfl
    · rw [htbl s hss]
  have hcost_all : ∀ s, cost t3 s = cost t s := by
    intro s
    by_cases hss : s = slotp
    · subst hss
      unfold cost
      rw [htblp, hsome]
      show costSlot t slotp (tableSlot t (hashKey t.key_bytes ent.1) 0) = _
      rw [hashKey_keyEq hkeq]
    · exact cost_eq_of_table_eq (show t3.order = t.order from rfl) rfl (htbl s hss)
  have hwf : WF t3 := by
    refine ⟨?_, ?_, ?_, ?_, ?_⟩
    · intro s hs
      rw [htbl s (fun hc => by omega)]
      exact wf.oob s hs
    · intro s hs
      have h1 : s < t.n_peek := lt_of_lt_of_le hs (Nat.min_le_left _ _)
      have h2 : s < slotp := lt_of_lt_of_le hs (Nat.min_le_right _ _)
      rw [htbl s (by omega)]
      exact wf.peekInv s h1
    · have := occCount_congr t t3 rfl hocc_all
      rw [wf.count] at this
      exact this
    · intro s1 s2 e1 e2 h1 h2 hk
      rw [show t3.key_bytes = t.key_bytes from rfl] at hk
      by_cases hs1 : s1 = slotp <;> by_cases hs2 : s2 = slotp
      · rw [hs1, hs2]
      · subst hs1
        rw [htblp] at h1
        injection h1 with h1
        subst h1
        rw [htbl s2 hs2] at h2
        have : keyEq t.key_bytes e0.1 e2.1 = true := keyEq_trans (keyEq_symm hkeq) hk
        have := wf.nodup slotp s2 e0 e2 hsome h2 this
        exact absurd this.symm hs2
      · subst hs2
        rw [htblp] at h2
        injection h2 with h2
        subst h2
        rw [htbl s1 hs1] at h1
        have : keyEq t.key_bytes e0.1 e1.1 = true :=
          keyEq_trans (keyEq_symm hkeq) (keyEq_symm hk)
        have := wf.nodup slotp s1 e0 e1 hsome h1 this
        exact absurd this.symm hs1
      · rw [htbl s1 hs1] at h1
        rw [htbl s2 hs2] at h2
        exact wf.nodup s1 s2 e1 e2 h1 h2 hk
    · exact rh_transfer (show tableSize t3 = tableSize t from rfl) hocc_all hcost_all wf.rh
  refine ⟨hwf, rfl, rfl, ?_, Or.inr ⟨e0, rfl, ⟨slotp, hsome⟩, hkeq, rfl⟩⟩
  intro e2
  constructor
  · rintro ⟨s, hs⟩
    by_cases hss : s = slotp
    · subst hss
      rw [htblp] at hs
      injection hs with hs
      exact Or.inl hs.symm
    · rw [htbl s hss] at hs
      refine Or.inr ⟨⟨s, hs⟩, ?_⟩
      cases hke2 : keyEq t.key_bytes e2.1 ent.1 with
      | false => rfl
      | true =>
        have : keyEq t.key_bytes e2.1 e0.1 = true := keyEq_trans hke2 hkeq
        have := wf.nodup s slotp e2 e0 hs hsome this
        exact absurd this hss
  · rintro (rfl | ⟨⟨s, hs⟩, hkf⟩)
    · exact ⟨slotp, htblp⟩
    · have hss : s ≠ slotp := fun hc => by
        rw [hc, hsome] at hs
        injection hs with hs
        subst hs
        rw [keyEq_symm hkeq] at hkf
        exact Bool.noConfusion hkf
      exact ⟨s, by rw [htbl s hss]; exact hs⟩

/-- Robin-Hood displacement branch of the insert loop. -/
theorem ins_branch_displace (t : RTable) (ent : Entry) (wf : WF t)
    (hn : t.n_entries < tableSize t) {pr : Nat} (hpr : pr < tableSize t)
    (hinv : probeInv t ent (hashKey t.key_bytes ent.1) pr) {e0 : Entry}
    (hres : t.table (tableSlot t (hashKey t.key_bytes ent.1) pr) = some e0)
    (hclt : cost t (tableSlot t (hashKey t.key_bytes ent.1) pr) < pr) :
    InsOut t ent
      (storeNew (shiftForward t (hashKey t.key_bytes ent.1) pr)
        (tableSlot t (hashKey t.key_bytes ent.1) pr) ent, none) := by
  have hfresh := fresh_key wf hinv (Or.inr hclt)
  set hc := hashKey t.key_bytes ent.1 with hhc
  -- an empty probe exists at or after pr
  obtain ⟨s0, hs0lt, hs0e⟩ := exists_empty_slot wf hn
  have hj0lt : probeOf t hc s0 < tableSize t := probeOf_lt t hc s0
  have hj0slot : tableSlot t hc (probeOf t hc s0) = s0 := tableSlot_probeOf t hc hs0lt
  have hj0ge : pr ≤ probeOf t hc s0 := by
    by_contra hcon
    push_neg at hcon
    obtain ⟨ei, hei, _, _⟩ := hinv _ hcon
    rw [hj0slot, hs0e] at hei
    exact Option.noConfusion hei
  have hempty0 : t.table (tableSlot t hc (probeOf t hc s0)) = none := by
    rw [hj0slot]
    exact hs0e
  obtain ⟨hsh1, hsh2, hsh3, hsh4⟩ := findEmpty_spec t hc (tableSize t - pr) pr
    (probeOf t hc s0) hj0ge (by omega) hempty0
  rw [show shiftForward t hc pr = shiftForwardAux t hc pr (findEmpty t hc pr (tableSize t - pr))
    from rfl]
  set shift := findEmpty t hc pr (tableSize t - pr) with hshift
  have hshlt : shift < tableSize t := by omega
  have hprshift : pr < shift := by
    rcases Nat.lt_or_ge pr shift with h | h
    · exact h
    · exfalso
      have hpe : shift = pr := by omega
      rw [hpe, hres] at hsh3
      exact Option.noConfusion hsh3
  set slotp := tableSlot t hc pr with hsp
  set t2 := shiftForwardAux t hc pr shift with ht2
  set t3 := storeNew t2 slotp ent with ht3g
  have hslt : slotp < tableSize t := tableSlot_lt t hc pr
  have hord2 : t2.order = t.order := shiftForwardAux_order t hc pr shift
  have hkb2 : t2.key_bytes = t.key_bytes := shiftForwardAux_key_bytes t hc pr shift
  have hord3 : t3.order = t.order := hord2
  have hkb3 : t3.key_bytes = t.key_bytes := hkb2
  have hsz3 : tableSize t3 = tableSize t := tableSize_congr hord3
  have hn3 : t3.n_entries = t.n_entries + 1 := by
    show t2.n_entries + 1 = t.n_entries + 1
    rw [shiftForwardAux_n_entries]
  -- table characterisation
  have htbl_pr : t3.table slotp = some ent := updateFn_eq t2.table slotp (some ent)
  have htbl_j : ∀ j, pr + 1 ≤ j → j ≤ shift →
      t3.table (tableSlot t hc j) = t.table (tableSlot t hc (j - 1)) := by
    intro j hj1 hj2
    have hne : tableSlot t hc j ≠ slotp := fun hcon => by
      have := tableSlot_inj t hc (by omega) hpr hcon
      omega
    show updateFn t2.table slotp (some ent) _ = _
    rw [updateFn_ne _ _ hne]
    exact sfa_table_at t hc pr shift hshlt hj1 hj2
  have htbl_un : ∀ s, (∀ j, pr ≤ j → j ≤ shift → tableSlot t hc j ≠ s) →
      t3.table s = t.table s := by
    intro s hno
    show updateFn t2.table slotp (some ent) s = _
    rw [updateFn_ne _ _ (fun hcon => hno pr (Nat.le_refl _) (by omega) hcon.symm)]
    exact sfa_table_untouched t hc pr shift (fun j hj1 hj2 => hno j (by omega) hj2)
  -- occupancy flags
  have hocc_other : ∀ s, s ≠ tableSlot t hc shift →
      (t3.table s).isSome = (t.table s).isSome := by
    intro s hs
    by_cases htouch : ∃ j, pr ≤ j ∧ j ≤ shift ∧ tableSlot t hc j = s
    · obtain ⟨j, hj1, hj2, hjs⟩ := htouch
      have hjne : j ≠ shift := fun hcon => hs (by rw [← hjs, hcon])
      have hjlt : j < shift := by omega
      by_cases hjpr : j = pr
      · subst hjpr
        rw [← hjs]
        rw [htbl_pr, hres]
        rfl
      · rw [← hjs, htbl_j j (by omega) hj2]
        have h1 := hsh4 (j - 1) (by omega) (by omega)
        have h2 := hsh4 j hj1 hjlt
        rw [h1, h2]
    · push_neg at htouch
      rw [htbl_un s (fun j hj1 hj2 => htouch j hj1 hj2)]
  have hocc_shift : (t3.table (tableSlot t hc shift)).isSome = true := by
    rw [htbl_j shift (by omega) (Nat.le_refl _)]
    exact hsh4 (shift - 1) (by omega) (by omega)
  -- counting
  have hcnt : occCount t3 = occCount t + 1 :=
    occCount_succ_of t t3 hsz3 (tableSlot t hc shift) (tableSlot_lt t hc shift)
      hsh3 hocc_shift hocc_other
  -- costs
  have hcost_un : ∀ s, (∀ j, pr ≤ j → j ≤ shift → tableSlot t hc j ≠ s) →
      cost t3 s = cost t s :=
    fun s h => cost_eq_of_table_eq hord3 hkb3 (htbl_un s h)
  have hcost_pr : cost t3 slotp = pr := by
    rw [cost_eq_probeOf (t := t3) htbl_pr (by omega)]
    rw [probeOf_congr hord3, hkb3, ← hhc]
    exact probeOf_tableSlot t hc hpr
  have hcost_j : ∀ j, pr + 1 ≤ j → j ≤ shift →
      cost t3 (tableSlot t hc j) = cost t (tableSlot t hc (j - 1)) + 1 := by
    intro j hj1 hj2
    obtain ⟨ej, hej⟩ := Option.isSome_iff_exists.mp (hsh4 (j - 1) (by omega) (by omega))
    have hj3 : t3.table (tableSlot t hc j) = some ej := by
      rw [htbl_j j hj1 hj2, hej]
    have hcj : cost t (tableSlot t hc (j - 1))
        = probeOf t (hashKey t.key_bytes ej.1) (tableSlot t hc (j - 1)) :=
      cost_eq_probeOf t hej (tableSlot_lt t hc (j - 1))
    have hcb : cost t (tableSlot t hc (j - 1)) < t.n_entries := cost_lt_entries wf hej
    have hjlt : tableSlot t hc j < tableSize t3 := by
      rw [hsz3]
      exact tableSlot_lt t hc j
    rw [cost_eq_probeOf (t := t3) hj3 hjlt]
    rw [probeOf_congr hord3, hkb3]
    have hsucc : tableSlot t hc j = (tableSlot t hc (j - 1) + 1) % tableSize t := by
      conv_lhs => rw [show j = (j - 1) + 1 by omega]
      rw [← succ_tableSlot]
    rw [hsucc, probeOf_succ t _ (tableSlot_lt t hc (j - 1)) (by omega), ← hcj]
  -- helper: where each stored entry of t3 comes from
  have hsource : ∀ s e2, t3.table s = some e2 → (s = slotp ∧ e2 = ent) ∨
      (∃ j, pr + 1 ≤ j ∧ j ≤ shift ∧ s = tableSlot t hc j ∧
        t.table (tableSlot t hc (j - 1)) = some e2) ∨
      ((∀ j, pr ≤ j → j ≤ shift → tableSlot t hc j ≠ s) ∧ t.table s = some e2) := by
    intro s e2 he2
    by_cases htouch : ∃ j, pr ≤ j ∧ j ≤ shift ∧ tableSlot t hc j = s
    · obtain ⟨j, hj1, hj2, hjs⟩ := htouch
      by_cases hjpr : j = pr
      · subst hjpr
        rw [← hjs, htbl_pr] at he2
        injection he2 with he2
        exact Or.inl ⟨hjs.symm, he2.symm⟩
      · refine Or.inr (Or.inl ⟨j, by omega, hj2, hjs.symm, ?_⟩)
        rw [← htbl_j j (by omega) hj2, hjs]
        exact he2
    · push_neg at htouch
      refine Or.inr (Or.inr ⟨fun j h1 h2 => htouch j h1 h2, ?_⟩)
      rw [← htbl_un s (fun j h1 h2 => htouch j h1 h2)]
      exact he2
  have hwf : WF t3 := by
    refine ⟨?_, ?_, ?_, ?_, ?_⟩
    · -- oob
      intro s hs
      rw [hsz3] at hs
      rw [htbl_un s (fun j h1 h2 hcon => by
        have := tableSlot_lt t hc j
        omega)]
      exact wf.oob s hs
    · -- peekInv
      intro s hs
      have hle2 : t3.n_peek ≤ t2.n_peek := Nat.min_le_left _ _
      have hle0 : t2.n_peek ≤ t.n_peek := sfa_n_peek_le t hc pr shift
      have hno : ∀ j, pr ≤ j → j ≤ shift → tableSlot t hc j ≠ s := by
        intro j h1 h2 hcon
        have hsl := sfa_n_peek_le_slot t hc pr shift (by omega) h1 h2
        rw [← ht2] at hsl
        have hle1 : t3.n_peek ≤ slotp := Nat.min_le_right _ _
        omega
      rw [htbl_un s hno]
      exact wf.peekInv s (by omega)
    · rw [hcnt, wf.count, hn3]
    · -- nodup
      intro s1 s2 e1 e2 h1 h2 hk
      rw [show t3.key_bytes = t.key_bytes from hkb3] at hk
      rcases hsource s1 e1 h1 with ⟨hs1, he1⟩ | ⟨j1, hj11, hj12, hs1, he1⟩ | ⟨hun1, he1⟩ <;>
        rcases hsource s2 e2 h2 with ⟨hs2, he2⟩ | ⟨j2, hj21, hj22, hs2, he2⟩ | ⟨hun2, he2⟩
      · rw [hs1, hs2]
      · subst he1
        have := hfresh _ _ he2
        rw [hk] at this
        exact Bool.noConfusion this
      · subst he1
        have := hfresh _ _ he2
        rw [hk] at this
        exact Bool.noConfusion this
      · subst he2
        have := hfresh _ _ he1
        rw [keyEq_symm hk] at this
        exact Bool.noConfusion this
      · have := wf.nodup _ _ _ _ he1 he2 hk
        have hj := tableSlot_inj t hc (i := j1 - 1) (j := j2 - 1) (by omega) (by omega) this
        rw [hs1, hs2]
        congr 1
        omega
      · have := wf.nodup _ _ _ _ he1 he2 hk
        exact absurd this (hun2 (j1 - 1) (by omega) (by omega))
      · subst he2
        have := hfresh _ _ he1
        rw [keyEq_symm hk] at this
        exact Bool.noConfusion this
      · have := wf.nodup _ _ _ _ he1 he2 hk
        exact absurd this.symm (fun hcon => hun1 (j2 - 1) (by omega) (by omega) hcon)
      · exact wf.nodup _ _ _ _ he1 he2 hk
    · -- Robin Hood
      intro s e2 he2 hpos
      have hslt3 : s < tableSize t := by
        by_contra hcon
        push_neg at hcon
        rw [htbl_un s (fun j h1 h2 hcc => by
          have := tableSlot_lt t hc j
          omega)] at he2
        rw [wf.oob s hcon] at he2
        exact Option.noConfusion he2
      rw [show (s + tableSize t3 - 1) % tableSize t3 = (s + tableSize t - 1) % tableSize t
        from by rw [hsz3]]
      rcases hsource s e2 he2 with ⟨hs1, he1⟩ | ⟨j, hj1, hj2, hs1, he1⟩ | ⟨hun, he1⟩
      · -- the new entry at probe pr
        subst hs1
        rw [hcost_pr] at hpos ⊢
        have hpred : (slotp + tableSize t - 1) % tableSize t = tableSlot t hc (pr - 1) := by
          rw [hsp]
          conv_lhs => rw [show pr = (pr - 1) + 1 by omega]
          exact pred_tableSlot t hc (pr - 1)
        rw [hpred]
        obtain ⟨ei, hei, _, hci⟩ := hinv (pr - 1) (by omega)
        have hno : ∀ j, pr ≤ j → j ≤ shift → tableSlot t hc j ≠ tableSlot t hc (pr - 1) := by
          intro j h1 h2 hcon
          have := tableSlot_inj t hc (by omega) (by omega) hcon
          omega
        rw [htbl_un _ hno, hcost_un _ hno, hei]
        exact ⟨rfl, by omega⟩
      · -- a shifted entry, now at probe j (source probe j-1)
        subst hs1
        rw [hcost_j j hj1 hj2] at hpos ⊢
        have hpred : (tableSlot t hc j + tableSize t - 1) % tableSize t
            = tableSlot t hc (j - 1) := by
          conv_lhs => rw [show j = (j - 1) + 1 by omega]
          exact pred_tableSlot t hc (j - 1)
        rw [hpred]
        by_cases hjp : j - 1 = pr
        · rw [hjp]
          rw [← hsp, htbl_pr, hcost_pr]
          exact ⟨rfl, by omega⟩
        · -- j - 1 > pr
          rw [htbl_j (j - 1) (by omega) (by omega), hcost_j (j - 1) (by omega) (by omega)]
          have hocc1 := hsh4 (j - 1 - 1) (by omega) (by omega)
          refine ⟨hocc1, ?_⟩
          by_cases h0 : cost t (tableSlot t hc (j - 1)) = 0
          · omega
          · obtain ⟨ej1, hej1⟩ := Option.isSome_iff_exists.mp (hsh4 (j - 1) (by omega) (by omega))
            obtain ⟨_, hrh2⟩ := wf.rh _ ej1 hej1 (by omega)
            have hpred1 : (tableSlot t hc (j - 1) + tableSize t - 1) % tableSize t
                = tableSlot t hc (j - 1 - 1) := by
              conv_lhs => rw [show j - 1 = (j - 1 - 1) + 1 by omega]
              exact pred_tableSlot t hc (j - 1 - 1)
            rw [hpred1] at hrh2
            omega
      · -- an untouched entry
        rw [hcost_un s hun] at hpos ⊢
        obtain ⟨hocc1, hcost1⟩ := wf.rh s e2 he1 hpos
        by_cases hptouch : ∃ j, pr ≤ j ∧ j ≤ shift ∧
            tableSlot t hc j = (s + tableSize t - 1) % tableSize t
        · obtain ⟨j, hj1, hj2, hjs⟩ := hptouch
          by_cases hjsh : j = shift
          · subst hjsh
            rw [← hjs, hsh3] at hocc1
            exact Bool.noConfusion hocc1
          · exfalso
            have hsucc : s = tableSlot t hc (j + 1) := by
              rw [← succ_pred_slot t hslt3, ← hjs, succ_tableSlot]
            exact hun (j + 1) (by omega) (by omega) hsucc.symm
        · push_neg at hptouch
          rw [htbl_un _ (fun j h1 h2 => hptouch j h1 h2),
            hcost_un _ (fun j h1 h2 => hptouch j h1 h2)]
          exact ⟨hocc1, hcost1⟩
  refine ⟨hwf, hord3, hkb3, ?_, Or.inl ⟨rfl, hn3, ?_⟩⟩
  · intro e2
    constructor
    · rintro ⟨s, hs⟩
      rcases hsource s e2 hs with ⟨hs1, he1⟩ | ⟨j, hj1, hj2, hs1, he1⟩ | ⟨hun, he1⟩
      · exact Or.inl he1
      · refine Or.inr ⟨⟨_, he1⟩, ?_⟩
        exact keyEq_symm_false (hfresh _ _ he1)
      · refine Or.inr ⟨⟨s, he1⟩, ?_⟩
        exact keyEq_symm_false (hfresh _ _ he1)
    · rintro (rfl | ⟨⟨s, hs⟩, hkf⟩)
      · exact ⟨slotp, htbl_pr⟩
      · by_cases htouch : ∃ j, pr ≤ j ∧ j ≤ shift ∧ tableSlot t hc j = s
        · obtain ⟨j, hj1, hj2, hjs⟩ := htouch
          have hjsh : j ≠ shift := fun hcon => by
            rw [hcon] at hjs
            rw [hjs, hs] at hsh3
            exact Option.noConfusion hsh3
          refine ⟨tableSlot t hc (j + 1), ?_⟩
          rw [htbl_j (j + 1) (by omega) (by omega)]
          simpa [hjs] using hs
        · push_neg at htouch
          exact ⟨s, by rw [htbl_un s (fun j h1 h2 => htouch j h1 h2)]; exact hs⟩
  · rintro ⟨s, e2, he2, hk⟩
    have := hfresh s e2 he2
    rw [this] at hk
    exact Bool.noConfusion hk

/-- The insert loop satisfies the insert specification (the fuel-exhausted
branch is unreachable below full occupancy). -/
theorem insLoop_spec (t : RTable) (ent : Entry) (wf : WF t)
    (hn : t.n_entries < tableSize t) :
    ∀ fuel pr, pr + fuel = tableSize t →
      probeInv t ent (hashKey t.key_bytes ent.1) pr →
      InsOut t ent (insLoop t ent (hashKey t.key_bytes ent.1) pr fuel) := by
  intro fuel
  induction fuel with
  | zero =>
    intro pr hpf hinv
    exfalso
    have hall : ∀ x ∈ Finset.range (tableSize t), (t.table x).isSome = true := by
      intro x hx
      rw [Finset.mem_range] at hx
      have hplt : probeOf t (hashKey t.key_bytes ent.1) x < pr := by
        have := probeOf_lt t (hashKey t.key_bytes ent.1) x
        omega
      obtain ⟨ei, hei, _, _⟩ := hinv _ hplt
      rw [tableSlot_probeOf t _ hx] at hei
      rw [hei]
      rfl
    have hfull : occCount t = tableSize t := by
      unfold occCount
      rw [Finset.filter_true_of_mem hall, Finset.card_range]
    have := wf.count
    omega
  | succ n ih =>
    intro pr hpf hinv
    rw [insLoop]
    cases hsl : t.table (tableSlot t (hashKey t.key_bytes ent.1) pr) with
    | none => exact ins_branch_empty t ent wf (by omega) hinv hsl
    | some e =>
      dsimp only
      by_cases hke : keyEq t.key_bytes ent.1 e.1 = true
      · rw [if_pos hke]
        exact ins_branch_update t ent wf (by omega) hsl hke
      · rw [if_neg hke]
        by_cases hcl : cost t (tableSlot t (hashKey t.key_bytes ent.1) pr) < pr
        · rw [if_pos hcl]
          exact ins_branch_displace t ent wf hn (by omega) hinv hsl hcl
        · rw [if_neg hcl]
          apply ih (pr + 1) (by omega)
          intro i hi
          by_cases hip : i = pr
          · subst hip
            refine ⟨e, hsl, ?_, Nat.le_of_not_lt hcl⟩
            cases hkb : keyEq t.key_bytes ent.1 e.1 with
            | false => rfl
            | true => exact absurd hkb hke
          · exact hinv i (by omega)

/-- `cl_rhash_table_insert` on a well-formed, not-full table. -/
theorem tableInsert_spec (t : RTable) (ent : Entry) (wf : WF t)
    (hn : t.n_entries < tableSize t) : InsOut t ent (tableInsert t ent) := by
  unfold tableInsert
  exact insLoop_spec t ent wf hn (tableSize t) 0 (by omega)
    (fun i hi => absurd hi (Nat.not_lt_zero i))

/-! ### The backward-shift scan and `shiftBackwardAux` -/

theorem backScan_spec (t : RTable) (hcode : Nat) :
    ∀ fuel pr0, pr0 ≤ backScan t hcode pr0 fuel ∧
      backScan t hcode pr0 fuel ≤ pr0 + fuel ∧
      (∀ i, pr0 ≤ i → i < backScan t hcode pr0 fuel →
        (t.table (tableSlot t hcode i)).isSome = true ∧ cost t (tableSlot t hcode i) ≠ 0) ∧
      (backScan t hcode pr0 fuel < pr0 + fuel →
        t.table (tableSlot t hcode (backScan t hcode pr0 fuel)) = none ∨
        cost t (tableSlot t hcode (backScan t hcode pr0 fuel)) = 0) := by
  intro fuel
  induction fuel with
  | zero =>
    intro pr0
    rw [backScan]
    exact ⟨Nat.le_refl _, by omega, fun i h1 h2 => by omega, fun h => by omega⟩
  | succ n ih =>
    intro pr0
    rw [backScan]
    cases hsl : t.table (tableSlot t hcode pr0) with
    | none =>
      dsimp only
      exact ⟨Nat.le_refl _, by omega, fun i h1 h2 => by omega, fun _ => Or.inl hsl⟩
    | some e =>
      dsimp only
      by_cases hc0 : cost t (tableSlot t hcode pr0) = 0
      · rw [if_pos hc0]
        exact ⟨Nat.le_refl _, by omega, fun i h1 h2 => by omega, fun _ => Or.inr hc0⟩
      · rw [if_neg hc0]
        obtain ⟨ih1, ih2, ih3, ih4⟩ := ih (pr0 + 1)
        refine ⟨by omega, by omega, ?_, fun h => ih4 (by omega)⟩
        intro i h1 h2
        by_cases hip : i = pr0
        · subst hip
          exact ⟨by rw [hsl]; rfl, hc0⟩
        · exact ih3 i (by omega) h2

theorem sba_table_at (t : RTable) (hcode ipr stop : Nat) (hsz : stop ≤ tableSize t)
    (hipr : ipr + 1 ≤ stop) {j : Nat} (hj1 : ipr ≤ j) (hj2 : j + 2 ≤ stop) :
    (shiftBackwardAux t hcode ipr stop).table (tableSlot t hcode j)
      = t.table (tableSlot t hcode (j + 1)) := by
  have hp : 0 < tableSize t := tableSize_pos t
  have hne : tableSlot t hcode j ≠ tableSlot t hcode (stop - 1) := by
    intro hcon
    have := tableSlot_inj t hcode (i := j) (j := stop - 1) (by omega) (by omega) hcon
    omega
  show updateFn _ (tableSlot t hcode (stop - 1)) none _ = _
  rw [updateFn_ne _ _ hne]
  have huniq : ∀ j2 ∈ List.range' (ipr + 1) (stop - (ipr + 1)),
      tableSlot t hcode (j2 - 1) = tableSlot t hcode j → j2 = j + 1 := by
    intro j2 hj2m hs2
    rw [List.mem_range'_1] at hj2m
    have := tableSlot_inj t hcode (i := j2 - 1) (j := j) (by omega) (by omega) hs2
    omega
  exact foldl_updateFn_eq (fun j2 => tableSlot t hcode (j2 - 1))
    (fun j2 => t.table (tableSlot t hcode j2)) (List.range' (ipr + 1) (stop - (ipr + 1)))
    t.table (tableSlot t hcode j) (j + 1)
    (List.mem_range'_1.mpr ⟨by omega, by omega⟩) rfl huniq

theorem sba_table_stop (t : RTable) (hcode ipr stop : Nat) :
    (shiftBackwardAux t hcode ipr stop).table (tableSlot t hcode (stop - 1)) = none :=
  updateFn_eq _ _ _

theorem sba_table_untouched (t : RTable) (hcode ipr stop : Nat) (hsz : stop ≤ tableSize t)
    (hipr : ipr + 1 ≤ stop)
    {s : Nat} (hno : ∀ j, ipr ≤ j → j ≤ stop - 1 → tableSlot t hcode j ≠ s) :
    (shiftBackwardAux t hcode ipr stop).table s = t.table s := by
  have hp : 0 < tableSize t := tableSize_pos t
  have hne : s ≠ tableSlot t hcode (stop - 1) :=
    fun hcon => hno (stop - 1) (by omega) (Nat.le_refl _) hcon.symm
  show updateFn _ (tableSlot t hcode (stop - 1)) none s = _
  rw [updateFn_ne _ _ hne]
  exact foldl_updateFn_ne _ _ _ _ s (fun j2 hj2 => by
    rw [List.mem_range'_1] at hj2
    exact hno (j2 - 1) (by omega) (by omega))

/-! ### The removal path -/

theorem backScan_congr {t t2 : RTable} (hord : t2.order = t.order)
    (hkb : t2.key_bytes = t.key_bytes) (htab : ∀ s, t2.table s = t.table s) (hcode : Nat) :
    ∀ fuel pr, backScan t2 hcode pr fuel = backScan t hcode pr fuel := by
  intro fuel
  induction fuel with
  | zero => intro pr; rw [backScan, backScan]
  | succ n ih =>
    intro pr
    rw [backScan, backScan, tableSlot_congr hord, htab,
      cost_eq_of_table_eq hord hkb (htab _), ih]

/-- Moving an entry one slot back (cyclically) lowers its cost by one. -/
theorem cost_pred_entry {t t3 : RTable} (hord : t3.order = t.order)
    (hkb : t3.key_bytes = t.key_bytes) {s p : Nat} {e : Entry}
    (hs : s < tableSize t) (hp : p = (s + tableSize t - 1) % tableSize t)
    (he : t.table s = some e) (he3 : t3.table p = some e) (h0 : 0 < cost t s) :
    cost t3 p = cost t s - 1 := by
  have hts : tableSize t3 = tableSize t := tableSize_congr hord
  have hpos : 0 < tableSize t := tableSize_pos t
  have hh : tableSlot t (hashKey t.key_bytes e.1) 0 < tableSize t := tableSlot_lt t _ 0
  unfold cost at h0 ⊢
  rw [he] at h0
  rw [he3, he]
  dsimp only at h0 ⊢
  rw [tableSlot_congr hord, hkb]
  unfold costSlot at h0 ⊢
  rw [hts]
  by_cases hs0 : s = 0
  · have hpv : p = tableSize t - 1 := by
      rw [hp, hs0, show 0 + tableSize t - 1 = tableSize t - 1 by omega]
      exact Nat.mod_eq_of_lt (by omega)
    rw [hs0] at h0
    rw [hpv, hs0]
    by_cases hge : 0 ≥ tableSlot t (hashKey t.key_bytes e.1) 0
    · rw [if_pos hge] at h0
      omega
    · rw [if_neg hge] at h0 ⊢
      rw [if_pos (by omega)]
      omega
  · have hpv : p = s - 1 := by
      rw [hp, show s + tableSize t - 1 = (s - 1) + tableSize t by omega, Nat.add_mod_right]
      exact Nat.mod_eq_of_lt (by omega)
    rw [hpv]
    by_cases hge : s ≥ tableSlot t (hashKey t.key_bytes e.1) 0
    · rw [if_pos hge] at h0 ⊢
      rw [if_pos (by omega)]
      omega
    · rw [if_neg hge] at h0 ⊢
      rw [if_neg (by omega)]
      omega

/-- If the remove loop walked past probes holding only different keys
and then hit an empty slot (or the table end), the key is absent. -/
theorem rem_absent {t : RTable} (wf : WF t) {k : Key} {pr : Nat}
    (hinv : ∀ i, i < pr → ∃ ei, t.table (tableSlot t (hashKey t.key_bytes k) i) = some ei ∧
      keyEq t.key_bytes k ei.1 = false)
    (hstop : t.table (tableSlot t (hashKey t.key_bytes k) pr) = none ∨ tableSize t ≤ pr) :
    ¬ memKey t k := by
  rintro ⟨s, e, he, hk⟩
  have hh : hashKey t.key_bytes e.1 = hashKey t.key_bytes k := (hashKey_keyEq hk).symm
  have hslt : s < tableSize t := mem_lt_size wf he
  have hclt : cost t s < tableSize t := cost_lt_size t s hslt
  by_cases hcp : cost t s < pr
  · obtain ⟨ei, hei, hkf⟩ := hinv (cost t s) hcp
    have hsl : tableSlot t (hashKey t.key_bytes k) (cost t s) = s := by
      rw [← hh]
      exact slot_cost t he hslt
    rw [hsl, he] at hei
    injection hei with hei
    subst hei
    rw [hk] at hkf
    exact Bool.noConfusion hkf
  · cases hstop with
    | inl hemp =>
      obtain ⟨e2, he2, _⟩ := chain_at wf he (i := pr) (by omega)
      rw [hh] at he2
      rw [hemp] at he2
      exact Option.noConfusion he2
    | inr hge => omega

/-- Specification bundle for `cl_rhash_table_remove`: either the key was
absent and the call returns `none` leaving the table untouched, or the
stored entry with that key is returned and exactly it disappears. -/
def RemOut (t : RTable) (k : Key) (r : RTable × Option Key) : Prop :=
  WF r.1 ∧ r.1.order = t.order ∧ r.1.key_bytes = t.key_bytes ∧
  ((r.2 = none ∧ r.1 = t ∧ ¬ memKey t k) ∨
   (∃ e0, r.2 = some e0.1 ∧ memEnt t e0 ∧ keyEq t.key_bytes k e0.1 = true ∧
     r.1.n_entries + 1 = t.n_entries ∧
     (∀ e2, memEnt r.1 e2 ↔ (memEnt t e2 ∧ keyEq t.key_bytes k e2.1 = false))))

/-- Core of the remove-hit branch: removing the entry found at probe
`pr` and back-shifting the following run up to the scan stop `S` yields
a well-formed table holding exactly the old entries of other keys. -/
theorem rem_shift_spec (t : RTable) (k : Key) (wf : WF t)
    {pr S : Nat} (hpr : pr < tableSize t)
    (hinv : ∀ i, i < pr → ∃ ei, t.table (tableSlot t (hashKey t.key_bytes k) i) = some ei ∧
      keyEq t.key_bytes k ei.1 = false)
    {e : Entry} (hsl : t.table (tableSlot t (hashKey t.key_bytes k) pr) = some e)
    (hke : keyEq t.key_bytes k e.1 = true)
    (hs1 : pr + 1 ≤ S) (hSlt : S < tableSize t)
    (hs3 : ∀ i, pr + 1 ≤ i → i < S →
      (t.table (tableSlot t (hashKey t.key_bytes k) i)).isSome = true ∧
      cost t (tableSlot t (hashKey t.key_bytes k) i) ≠ 0)
    (hs4x : t.table (tableSlot t (hashKey t.key_bytes k) S) = none ∨
      cost t (tableSlot t (hashKey t.key_bytes k) S) = 0) :
    WF (setPeekMin (shiftBackwardAux { t with n_entries := t.n_entries - 1 }
        (hashKey t.key_bytes k) pr S) (tableSlot t (hashKey t.key_bytes k) pr)) ∧
    (setPeekMin (shiftBackwardAux { t with n_entries := t.n_entries - 1 }
        (hashKey t.key_bytes k) pr S) (tableSlot t (hashKey t.key_bytes k) pr)).n_entries + 1
      = t.n_entries ∧
    (∀ e2, memEnt (setPeekMin (shiftBackwardAux { t with n_entries := t.n_entries - 1 }
        (hashKey t.key_bytes k) pr S) (tableSlot t (hashKey t.key_bytes k) pr)) e2 ↔
      (memEnt t e2 ∧ keyEq t.key_bytes k e2.1 = false)) := by
  have hpos : 0 < tableSize t := tableSize_pos t
  have hwc := wf.count
  set T3 := setPeekMin (shiftBackwardAux { t with n_entries := t.n_entries - 1 }
    (hashKey t.key_bytes k) pr S) (tableSlot t (hashKey t.key_bytes k) pr) with hT3
  have hts3 : tableSize T3 = tableSize t := tableSize_congr rfl
  have hne3 : T3.n_entries = t.n_entries - 1 := rfl
  have hmove : ∀ j, pr ≤ j → j + 2 ≤ S →
      T3.table (tableSlot t (hashKey t.key_bytes k) j)
        = t.table (tableSlot t (hashKey t.key_bytes k) (j + 1)) := by
    intro j hj1 hj2
    rw [hT3]
    exact sba_table_at { t with n_entries := t.n_entries - 1 } (hashKey t.key_bytes k) pr S
      hSlt.le hs1 hj1 hj2
  have hzero : T3.table (tableSlot t (hashKey t.key_bytes k) (S - 1)) = none := by
    rw [hT3]
    exact sba_table_stop { t with n_entries := t.n_entries - 1 } (hashKey t.key_bytes k) pr S
  have hun : ∀ s, (∀ j, pr ≤ j → j ≤ S - 1 → tableSlot t (hashKey t.key_bytes k) j ≠ s) →
      T3.table s = t.table s := by
    intro s hno
    rw [hT3]
    exact sba_table_untouched { t with n_entries := t.n_entries - 1 } (hashKey t.key_bytes k)
      pr S hSlt.le hs1 hno
  have hoccT : ∀ j, pr ≤ j → j ≤ S - 1 →
      (t.table (tableSlot t (hashKey t.key_bytes k) j)).isSome = true := by
    intro j hj1 hj2
    by_cases hjp : j = pr
    · subst hjp
      rw [hsl]
      rfl
    · exact (hs3 j (by omega) (by omega)).1
  have hcostpr : cost t (tableSlot t (hashKey t.key_bytes k) pr) = pr := by
    rw [cost_eq_probeOf t hsl (tableSlot_lt t _ pr), ← hashKey_keyEq hke]
    exact probeOf_tableSlot t _ hpr
  have hchar : ∀ s e2, T3.table s = some e2 →
      (∃ j, pr ≤ j ∧ j + 2 ≤ S ∧ tableSlot t (hashKey t.key_bytes k) j = s ∧
        t.table (tableSlot t (hashKey t.key_bytes k) (j + 1)) = some e2) ∨
      ((∀ j, pr ≤ j → j ≤ S - 1 → tableSlot t (hashKey t.key_bytes k) j ≠ s) ∧
        t.table s = some e2) := by
    intro s e2 hs3x
    by_cases hex : ∃ j, pr ≤ j ∧ j ≤ S - 1 ∧ tableSlot t (hashKey t.key_bytes k) j = s
    · obtain ⟨j, hj1, hj2, hj3⟩ := hex
      by_cases hjs : j = S - 1
      · exfalso
        rw [← hj3, hjs, hzero] at hs3x
        exact Option.noConfusion hs3x
      · refine Or.inl ⟨j, hj1, by omega, hj3, ?_⟩
        rw [← hmove j hj1 (by omega), hj3]
        exact hs3x
    · push_neg at hex
      refine Or.inr ⟨fun j h1 h2 => hex j h1 h2, ?_⟩
      rw [← hun s (fun j h1 h2 => hex j h1 h2)]
      exact hs3x
  have hoob : ∀ s, tableSize t ≤ s → T3.table s = none := by
    intro s hs
    rw [hun s (fun j h1 h2 hc => by
      have := tableSlot_lt t (hashKey t.key_bytes k) j
      omega)]
    exact wf.oob s hs
  have hpeek : ∀ s, s < T3.n_peek → T3.table s = none := by
    intro s hs
    have hnp : T3.n_peek = min t.n_peek (tableSlot t (hashKey t.key_bytes k) pr) := rfl
    have hsnp : s < t.n_peek := by omega
    by_cases hex : ∃ j, pr ≤ j ∧ j ≤ S - 1 ∧ tableSlot t (hashKey t.key_bytes k) j = s
    · exfalso
      obtain ⟨j, hj1, hj2, hj3⟩ := hex
      have hocc := hoccT j hj1 hj2
      rw [hj3, wf.peekInv s hsnp] at hocc
      exact absurd hocc (by decide)
    · push_neg at hex
      rw [hun s (fun j h1 h2 => hex j h1 h2)]
      exact wf.peekInv s hsnp
  have hother : ∀ s, s ≠ tableSlot t (hashKey t.key_bytes k) (S - 1) →
      (T3.table s).isSome = (t.table s).isSome := by
    intro s hsne
    by_cases hex : ∃ j, pr ≤ j ∧ j ≤ S - 1 ∧ tableSlot t (hashKey t.key_bytes k) j = s
    · obtain ⟨j, hj1, hj2, hj3⟩ := hex
      have hjne : j ≠ S - 1 := fun hc => hsne (by rw [← hj3, hc])
      rw [← hj3, hmove j hj1 (by omega), hoccT (j + 1) (by omega) (by omega),
        hoccT j hj1 hj2]
    · push_neg at hex
      rw [hun s (fun j h1 h2 => hex j h1 h2)]
  have hcnt : occCount T3 + 1 = occCount t :=
    occCount_pred_of t T3 hts3 (tableSlot t (hashKey t.key_bytes k) (S - 1))
      (tableSlot_lt t _ _) (hoccT (S - 1) (by omega) (Nat.le_refl _)) hzero hother
  have hwfcount : occCount T3 = T3.n_entries := by omega
  have hnodup : ∀ s1 s2 e1 e2, T3.table s1 = some e1 → T3.table s2 = some e2 →
      keyEq t.key_bytes e1.1 e2.1 = true → s1 = s2 := by
    intro s1 s2 e1 e2 h1 h2 hkeq
    rcases hchar s1 e1 h1 with ⟨j1, hj11, hj12, hj13, hj14⟩ | ⟨hno1, ht1⟩ <;>
      rcases hchar s2 e2 h2 with ⟨j2, hj21, hj22, hj23, hj24⟩ | ⟨hno2, ht2⟩
    · have hss := wf.nodup _ _ _ _ hj14 hj24 hkeq
      have hjj := tableSlot_inj t (hashKey t.key_bytes k) (i := j1 + 1) (j := j2 + 1)
        (by omega) (by omega) hss
      rw [← hj13, ← hj23, show j1 = j2 from by omega]
    · exfalso
      have hss := wf.nodup _ _ _ _ hj14 ht2 hkeq
      exact hno2 (j1 + 1) (by omega) (by omega) hss
    · exfalso
      have hss := wf.nodup _ _ _ _ ht1 hj24 hkeq
      exact hno1 (j2 + 1) (by omega) (by omega) hss.symm
    · exact wf.nodup _ _ _ _ ht1 ht2 hkeq
  have hrh : ∀ s e2, T3.table s = some e2 → 0 < cost T3 s →
      (T3.table ((s + tableSize t - 1) % tableSize t)).isSome = true ∧
      cost T3 s ≤ cost T3 ((s + tableSize t - 1) % tableSize t) + 1 := by
    intro s e2 hs3x hcpos
    rcases hchar s e2 hs3x with ⟨j, hj1, hj2, hj3, hj4⟩ | ⟨hno, ht⟩
    · have hc1pos : 0 < cost t (tableSlot t (hashKey t.key_bytes k) (j + 1)) :=
        Nat.pos_of_ne_zero (hs3 (j + 1) (by omega) (by omega)).2
      have hcnew : cost T3 s = cost t (tableSlot t (hashKey t.key_bytes k) (j + 1)) - 1 := by
        refine cost_pred_entry (show T3.order = t.order from rfl) rfl (tableSlot_lt t _ (j + 1)) ?_ hj4 hs3x hc1pos
        rw [pred_tableSlot]
        exact hj3.symm
      have hrhold := wf.rh _ _ hj4 hc1pos
      rw [pred_tableSlot] at hrhold
      rcases Nat.eq_or_lt_of_le hj1 with hjp | hjgt
      · subst hjp
        have hpr1 : 1 ≤ pr := by
          by_contra hc
          have hle := hrhold.2
          rw [hcostpr] at hle
          omega
        have hp2 : (s + tableSize t - 1) % tableSize t
            = tableSlot t (hashKey t.key_bytes k) (pr - 1) := by
          rw [← hj3]
          have hpt := pred_tableSlot t (hashKey t.key_bytes k) (pr - 1)
          rw [show pr - 1 + 1 = pr from by omega] at hpt
          exact hpt
        have hunp : T3.table (tableSlot t (hashKey t.key_bytes k) (pr - 1))
            = t.table (tableSlot t (hashKey t.key_bytes k) (pr - 1)) := by
          apply hun
          intro i hi1 hi2 hcon
          have := tableSlot_inj t (hashKey t.key_bytes k) (i := i) (j := pr - 1)
            (by omega) (by omega) hcon
          omega
        obtain ⟨ei, hei, _⟩ := hinv (pr - 1) (by omega)
        constructor
        · rw [hp2, hunp, hei]
          rfl
        · rw [hp2, hcnew, cost_eq_of_table_eq (show T3.order = t.order from rfl) rfl hunp]
          obtain ⟨_, hrh2⟩ := wf.rh _ _ hsl (by omega)
          have hpp : (tableSlot t (hashKey t.key_bytes k) pr + tableSize t - 1) % tableSize t
              = tableSlot t (hashKey t.key_bytes k) (pr - 1) := by
            have hpt := pred_tableSlot t (hashKey t.key_bytes k) (pr - 1)
            rw [show pr - 1 + 1 = pr from by omega] at hpt
            exact hpt
          rw [hpp, hcostpr] at hrh2
          have hle := hrhold.2
          rw [hcostpr] at hle
          omega
      · have hp2 : (s + tableSize t - 1) % tableSize t
            = tableSlot t (hashKey t.key_bytes k) (j - 1) := by
          rw [← hj3]
          have hpt := pred_tableSlot t (hashKey t.key_bytes k) (j - 1)
          rw [show j - 1 + 1 = j from by omega] at hpt
          exact hpt
        have hmv2 : T3.table (tableSlot t (hashKey t.key_bytes k) (j - 1))
            = t.table (tableSlot t (hashKey t.key_bytes k) j) := by
          have hmv := hmove (j - 1) (by omega) (by omega)
          rw [show j - 1 + 1 = j from by omega] at hmv
          exact hmv
        have hcjpos : 0 < cost t (tableSlot t (hashKey t.key_bytes k) j) :=
          Nat.pos_of_ne_zero (hs3 j (by omega) (by omega)).2
        obtain ⟨ej, hej⟩ := Option.isSome_iff_exists.mp (hs3 j (by omega) (by omega)).1
        have hcnew2 : cost T3 (tableSlot t (hashKey t.key_bytes k) (j - 1))
            = cost t (tableSlot t (hashKey t.key_bytes k) j) - 1 := by
          refine cost_pred_entry (show T3.order = t.order from rfl) rfl (tableSlot_lt t _ j) ?_ hej ?_ hcjpos
          · have hpt := pred_tableSlot t (hashKey t.key_bytes k) (j - 1)
            rw [show j - 1 + 1 = j from by omega] at hpt
            exact hpt.symm
          · rw [hmv2]
            exact hej
        constructor
        · rw [hp2, hmv2, hej]
          rfl
        · rw [hp2, hcnew2, hcnew]
          have hle := hrhold.2
          omega
    · have hcsame : cost T3 s = cost t s :=
        cost_eq_of_table_eq (show T3.order = t.order from rfl) rfl (hun s hno)
      have hcpos2 : 0 < cost t s := by omega
      have hslt2 : s < tableSize t := mem_lt_size wf ht
      obtain ⟨hpocc, hpcost⟩ := wf.rh s e2 ht hcpos2
      by_cases hex : ∃ i, pr ≤ i ∧ i ≤ S - 1 ∧
          tableSlot t (hashKey t.key_bytes k) i = (s + tableSize t - 1) % tableSize t
      · exfalso
        obtain ⟨i, hi1, hi2, hi3⟩ := hex
        have hs_eq : s = tableSlot t (hashKey t.key_bytes k) (i + 1) := by
          have h1 : ((s + tableSize t - 1) % tableSize t + 1) % tableSize t = s :=
            succ_pred_slot t hslt2
          rw [← hi3, succ_tableSlot] at h1
          exact h1.symm
        by_cases hiS : i = S - 1
        · subst hiS
          rw [show S - 1 + 1 = S from by omega] at hs_eq
          rcases hs4x with hemp | hc0
          · rw [hs_eq, hemp] at ht
            exact Option.noConfusion ht
          · rw [hs_eq] at hcpos2
            omega
        · exact hno (i + 1) (by omega) (by omega) hs_eq.symm
      · push_neg at hex
        have hunp : T3.table ((s + tableSize t - 1) % tableSize t)
            = t.table ((s + tableSize t - 1) % tableSize t) :=
          hun _ (fun i h1 h2 => hex i h1 h2)
        constructor
        · rw [hunp]
          exact hpocc
        · rw [hcsame, cost_eq_of_table_eq (show T3.order = t.order from rfl) rfl hunp]
          exact hpcost
  have hmem : ∀ e2, memEnt T3 e2 ↔ (memEnt t e2 ∧ keyEq t.key_bytes k e2.1 = false) := by
    intro e2
    constructor
    · rintro ⟨s, hs3x⟩
      rcases hchar s e2 hs3x with ⟨j, hj1, hj2, hj3, hj4⟩ | ⟨hno, ht⟩
      · refine ⟨⟨_, hj4⟩, ?_⟩
        cases hkf : keyEq t.key_bytes k e2.1 with
        | false => rfl
        | true =>
          exfalso
          have hke2 : keyEq t.key_bytes e2.1 e.1 = true := keyEq_trans (keyEq_symm hkf) hke
          have hss := wf.nodup _ _ _ _ hj4 hsl hke2
          have := tableSlot_inj t (hashKey t.key_bytes k) (i := j + 1) (j := pr)
            (by omega) (by omega) hss
          omega
      · refine ⟨⟨_, ht⟩, ?_⟩
        cases hkf : keyEq t.key_bytes k e2.1 with
        | false => rfl
        | true =>
          exfalso
          have hke2 : keyEq t.key_bytes e2.1 e.1 = true := keyEq_trans (keyEq_symm hkf) hke
          have hss := wf.nodup _ _ _ _ ht hsl hke2
          exact hno pr (Nat.le_refl _) (by omega) hss.symm
    · rintro ⟨⟨s, hts'⟩, hkf⟩
      by_cases hex : ∃ j, pr ≤ j ∧ j ≤ S - 1 ∧ tableSlot t (hashKey t.key_bytes k) j = s
      · obtain ⟨j, hj1, hj2, hj3⟩ := hex
        rcases Nat.eq_or_lt_of_le hj1 with hjp | hjgt
        · exfalso
          rw [← hj3, ← hjp, hsl] at hts'
          injection hts' with heq
          rw [heq] at hke
          rw [hke] at hkf
          exact Bool.noConfusion hkf
        · refine ⟨tableSlot t (hashKey t.key_bytes k) (j - 1), ?_⟩
          have hmv := hmove (j - 1) (by omega) (by omega)
          rw [show j - 1 + 1 = j from by omega] at hmv
          rw [hmv, hj3]
          exact hts'
      · push_neg at hex
        exact ⟨s, by rw [hun s (fun j h1 h2 => hex j h1 h2)]; exact hts'⟩
  exact ⟨⟨hoob, hpeek, hwfcount, hnodup, hrh⟩, by omega, hmem⟩

/-- The hit branch of the remove loop satisfies the removal bundle. -/
theorem rem_branch_hit (t : RTable) (k : Key) (wf : WF t) (hn : t.n_entries < tableSize t)
    {pr : Nat} (hpr : pr < tableSize t)
    (hinv : ∀ i, i < pr → ∃ ei, t.table (tableSlot t (hashKey t.key_bytes k) i) = some ei ∧
      keyEq t.key_bytes k ei.1 = false)
    {e : Entry} (hsl : t.table (tableSlot t (hashKey t.key_bytes k) pr) = some e)
    (hke : keyEq t.key_bytes k e.1 = true) :
    RemOut t k
      (setPeekMin
        (shiftBackward { t with n_entries := t.n_entries - 1 } (hashKey t.key_bytes e.1) pr)
        (tableSlot t (hashKey t.key_bytes k) pr), some e.1) := by
  rw [← hashKey_keyEq hke]
  unfold shiftBackward
  have hbs : backScan { t with n_entries := t.n_entries - 1 } (hashKey t.key_bytes k) (pr + 1)
      (tableSize { t with n_entries := t.n_entries - 1 } - (pr + 1))
      = backScan t (hashKey t.key_bytes k) (pr + 1) (tableSize t - (pr + 1)) :=
    backScan_congr (show ({ t with n_entries := t.n_entries - 1 } : RTable).order = t.order
      from rfl) rfl (fun _ => rfl) _ _ _
  rw [hbs]
  obtain ⟨ha1, ha2, ha3, ha4⟩ :=
    backScan_spec t (hashKey t.key_bytes k) (tableSize t - (pr + 1)) (pr + 1)
  have hSlt : backScan t (hashKey t.key_bytes k) (pr + 1) (tableSize t - (pr + 1))
      < tableSize t := by
    by_contra hc
    push_neg at hc
    have hall : ∀ x ∈ Finset.range (tableSize t), (t.table x).isSome = true := by
      intro x hx
      rw [Finset.mem_range] at hx
      have hxe : tableSlot t (hashKey t.key_bytes k) (probeOf t (hashKey t.key_bytes k) x)
          = x := tableSlot_probeOf t _ hx
      have hplt : probeOf t (hashKey t.key_bytes k) x < tableSize t := probeOf_lt t _ x
      rcases Nat.lt_trichotomy (probeOf t (hashKey t.key_bytes k) x) pr with h1 | h1 | h1
      · obtain ⟨ei, hei, _⟩ := hinv _ h1
        rw [hxe] at hei
        rw [hei]
        rfl
      · rw [h1] at hxe
        rw [← hxe, hsl]
        rfl
      · have hocc := (ha3 (probeOf t (hashKey t.key_bytes k) x) (by omega) (by omega)).1
        rwa [hxe] at hocc
    have hfull : occCount t = tableSize t := by
      unfold occCount
      rw [Finset.filter_true_of_mem hall, Finset.card_range]
    have hwc := wf.count
    omega
  obtain ⟨hwf3, hcnt3, hmem3⟩ := rem_shift_spec t k wf hpr hinv hsl hke ha1 hSlt
    (fun i h1 h2 => ha3 i h1 h2) (ha4 (by omega))
  exact ⟨hwf3, rfl, rfl, Or.inr ⟨e, rfl, ⟨_, hsl⟩, hke, hcnt3, hmem3⟩⟩

theorem remLoop_spec (t : RTable) (k : Key) (wf : WF t) (hn : t.n_entries < tableSize t) :
    ∀ fuel pr, pr + fuel = tableSize t →
      (∀ i, i < pr → ∃ ei, t.table (tableSlot t (hashKey t.key_bytes k) i) = some ei ∧
        keyEq t.key_bytes k ei.1 = false) →
      RemOut t k (remLoop t k (hashKey t.key_bytes k) pr fuel) := by
  intro fuel
  induction fuel with
  | zero =>
    intro pr hpf hinv
    rw [remLoop]
    exact ⟨wf, rfl, rfl, Or.inl ⟨rfl, rfl, rem_absent wf hinv (Or.inr (by omega))⟩⟩
  | succ n ih =>
    intro pr hpf hinv
    rw [remLoop]
    cases hsl : t.table (tableSlot t (hashKey t.key_bytes k) pr) with
    | none =>
      exact ⟨wf, rfl, rfl, Or.inl ⟨rfl, rfl, rem_absent wf hinv (Or.inl hsl)⟩⟩
    | some e =>
      dsimp only
      by_cases hke : keyEq t.key_bytes k e.1 = true
      · rw [if_pos hke]
        exact rem_branch_hit t k wf hn (by omega) hinv hsl hke
      · rw [if_neg hke]
        apply ih (pr + 1) (by omega)
        intro i hi
        by_cases hip : i = pr
        · subst hip
          refine ⟨e, hsl, ?_⟩
          cases hkb : keyEq t.key_bytes k e.1 with
          | false => rfl
          | true => exact absurd hkb hke
        · exact hinv i (by omega)

/-- `cl_rhash_table_remove` on a well-formed, not-full table. -/
theorem tableRemove_spec (t : RTable) (k : Key) (wf : WF t)
    (hn : t.n_entries < tableSize t) : RemOut t k (tableRemove t k) := by
  unfold tableRemove
  by_cases h0 : t.n_entries = 0
  · rw [if_pos h0]
    refine ⟨wf, rfl, rfl, Or.inl ⟨rfl, rfl, ?_⟩⟩
    rintro ⟨s, e2, he, hk2⟩
    have hin : s ∈ (Finset.range (tableSize t)).filter (fun x => (t.table x).isSome = true) :=
      Finset.mem_filter.mpr ⟨Finset.mem_range.mpr (mem_lt_size wf he), by rw [he]; rfl⟩
    have hcard := Finset.card_pos.mpr ⟨s, hin⟩
    have hwc := wf.count
    unfold occCount at hwc
    omega
  · rw [if_neg h0]
    exact remLoop_spec t k wf hn (tableSize t) 0 (by omega)
      (fun i hi => absurd hi (Nat.not_lt_zero i))

/-! ### Empty tables and the peek scan -/

theorem WF_empty_table (t : RTable) (htab : ∀ s, t.table s = none)
    (hn : t.n_entries = 0) : WF t := by
  refine ⟨fun s _ => htab s, fun s _ => htab s, ?_, ?_, ?_⟩
  · unfold occCount
    rw [Finset.filter_false_of_mem (fun x _ => by rw [htab x]; decide), Finset.card_empty, hn]
  · intro s1 s2 e1 e2 h1 h2 _
    rw [htab s1] at h1
    exact Option.noConfusion h1
  · intro s e he _
    rw [htab s] at he
    exact Option.noConfusion he

theorem not_memKey_of_empty {t : RTable} (htab : ∀ s, t.table s = none) (k : Key) :
    ¬ memKey t k := by
  rintro ⟨s, e, he, _⟩
  rw [htab s] at he
  exact Option.noConfusion he

theorem tableInit_WF (kb : Nat) : WF (tableInit kb) :=
  WF_empty_table _ (fun _ => rfl) rfl

theorem tableClear_kb (t : RTable) : (tableClear t).key_bytes = t.key_bytes := by
  unfold tableClear
  split
  · rfl
  · rfl

theorem peekLoop_sound (t : RTable) :
    ∀ fuel s0 s1, peekLoop t s0 fuel = some s1 →
      (t.table s1).isSome = true ∧ s0 ≤ s1 ∧ ∀ i, s0 ≤ i → i < s1 → t.table i = none := by
  intro fuel
  induction fuel with
  | zero =>
    intro s0 s1 h
    exact absurd h (by rw [peekLoop]; exact Option.noConfusion)
  | succ n ih =>
    intro s0 s1 h
    rw [peekLoop] at h
    by_cases hocc : (t.table s0).isSome = true
    · rw [if_pos hocc] at h
      injection h with h
      subst h
      exact ⟨hocc, Nat.le_refl _, fun i h1 h2 => by omega⟩
    · rw [if_neg hocc] at h
      obtain ⟨h1, h2, h3⟩ := ih (s0 + 1) s1 h
      refine ⟨h1, by omega, ?_⟩
      intro i hi1 hi2
      by_cases his : i = s0
      · subst his
        cases hx : t.table i with
        | none => rfl
        | some e => exact absurd (by rw [hx]; rfl) hocc
      · exact h3 i (by omega) hi2

theorem peekLoop_complete (t : RTable) :
    ∀ fuel s0 j0, s0 ≤ j0 → j0 < s0 + fuel → (t.table j0).isSome = true →
      (peekLoop t s0 fuel).isSome = true := by
  intro fuel
  induction fuel with
  | zero => intro s0 j0 h1 h2 _; omega
  | succ n ih =>
    intro s0 j0 h1 h2 hj0
    rw [peekLoop]
    by_cases hocc : (t.table s0).isSome = true
    · rw [if_pos hocc]
      rfl
    · rw [if_neg hocc]
      have hne : s0 ≠ j0 := fun hc => hocc (hc ▸ hj0)
      exact ih (s0 + 1) j0 (by omega) (by omega) hj0

/-- `cl_rhash_table_peek` on a well-formed table: the storage, count,
order and key width are untouched (only the peek cursor may advance);
the result is well-formed; an empty table yields `none` and a non-empty
one yields some stored entry. -/
theorem tablePeek_spec (t : RTable) (wf : WF t) :
    (tablePeek t).1.table = t.table ∧
    (tablePeek t).1.n_entries = t.n_entries ∧
    (tablePeek t).1.order = t.order ∧
    (tablePeek t).1.key_bytes = t.key_bytes ∧
    WF (tablePeek t).1 ∧
    (t.n_entries = 0 → (tablePeek t).2 = none) ∧
    (0 < t.n_entries → ∃ e, (tablePeek t).2 = some e ∧ memEnt t e) := by
  unfold tablePeek
  by_cases hn : t.n_entries > 0
  · rw [if_pos hn]
    unfold tablePeekEntry
    have hex : ∃ j0, j0 ∈ (Finset.range (tableSize t)).filter
        (fun s => (t.table s).isSome = true) := by
      apply Finset.Nonempty.exists_mem
      apply Finset.card_pos.mp
      have := wf.count
      unfold occCount at this
      omega
    obtain ⟨j0, hj0⟩ := hex
    rw [Finset.mem_filter, Finset.mem_range] at hj0
    have hj0p : t.n_peek ≤ j0 := by
      by_contra hc
      rw [wf.peekInv j0 (by omega)] at hj0
      exact absurd hj0.2 (by decide)
    have hpc := peekLoop_complete t (tableSize t - t.n_peek) t.n_peek j0 hj0p
      (by omega) hj0.2
    obtain ⟨s1, hs1⟩ := Option.isSome_iff_exists.mp hpc
    rw [hs1]
    obtain ⟨hocc1, hle1, hemp1⟩ := peekLoop_sound t _ _ _ hs1
    obtain ⟨e1, he1⟩ := Option.isSome_iff_exists.mp hocc1
    dsimp only
    refine ⟨rfl, rfl, rfl, rfl, ?_, fun h0 => by omega, fun _ => ⟨e1, by rw [he1], s1, he1⟩⟩
    refine ⟨wf.oob, ?_, wf.count, wf.nodup, wf.rh⟩
    intro s hs
    by_cases hsp : s < t.n_peek
    · exact wf.peekInv s hsp
    · exact hemp1 s (by omega) hs
  · rw [if_neg hn]
    exact ⟨rfl, rfl, rfl, rfl, wf, fun _ => rfl, fun h0 => by omega⟩

/-! ### Key-level corollaries of the insert and remove bundles -/

theorem insOut_memKey {t : RTable} {ent : Entry} {r : RTable × Option Key}
    (h : InsOut t ent r) (x : Key) :
    memKey r.1 x ↔ (keyEq t.key_bytes x ent.1 = true ∨ memKey t x) := by
  obtain ⟨_, _, hkb, hmem, _⟩ := h
  constructor
  · rintro ⟨s, e2, he2, hk2⟩
    rw [hkb] at hk2
    rcases (hmem e2).mp ⟨s, he2⟩ with he | ⟨⟨s2, he2b⟩, hkf⟩
    · subst he
      exact Or.inl hk2
    · exact Or.inr ⟨s2, e2, he2b, hk2⟩
  · rintro (hk | ⟨s, e2, he2, hk2⟩)
    · obtain ⟨s1, hs1⟩ := (hmem ent).mpr (Or.inl rfl)
      exact ⟨s1, ent, hs1, by rw [hkb]; exact hk⟩
    · by_cases hke : keyEq t.key_bytes e2.1 ent.1 = true
      · obtain ⟨s1, hs1⟩ := (hmem ent).mpr (Or.inl rfl)
        exact ⟨s1, ent, hs1, by rw [hkb]; exact keyEq_trans hk2 hke⟩
      · obtain ⟨s1, hs1⟩ := (hmem e2).mpr (Or.inr ⟨⟨s, he2⟩, by
          cases hx : keyEq t.key_bytes e2.1 ent.1 with
          | false => rfl
          | true => exact absurd hx hke⟩)
        exact ⟨s1, e2, hs1, by rw [hkb]; exact hk2⟩

theorem memKey_of_memEnt_char {t t2 : RTable} (hkb : t2.key_bytes = t.key_bytes) {k : Key}
    (hchar : ∀ e2, memEnt t2 e2 ↔ (memEnt t e2 ∧ keyEq t.key_bytes k e2.1 = false)) (x : Key) :
    memKey t2 x ↔ (memKey t x ∧ keyEq t.key_bytes k x = false) := by
  constructor
  · rintro ⟨s, e2, he2, hk2⟩
    rw [hkb] at hk2
    obtain ⟨⟨s2, he2b⟩, hkf⟩ := (hchar e2).mp ⟨s, he2⟩
    refine ⟨⟨s2, e2, he2b, hk2⟩, ?_⟩
    cases hkx : keyEq t.key_bytes k x with
    | false => rfl
    | true =>
      rw [keyEq_trans hkx hk2] at hkf
      exact Bool.noConfusion hkf
  · rintro ⟨⟨s, e2, he2, hk2⟩, hkx⟩
    have hkf : keyEq t.key_bytes k e2.1 = false := by
      cases hke : keyEq t.key_bytes k e2.1 with
      | false => rfl
      | true =>
        rw [keyEq_trans hke (keyEq_symm hk2)] at hkx
        exact Bool.noConfusion hkx
    obtain ⟨s2, hs2⟩ := (hchar e2).mpr ⟨⟨s, he2⟩, hkf⟩
    exact ⟨s2, e2, hs2, by rw [hkb]; exact hk2⟩

/-! ### The dual-table invariant -/

/-- The structural invariant of `struct cl_rhash` between top-level
calls: both probe tables are well-formed with a common key width, the
orders are coupled as the expand/shrink policy keeps them, no key is in
both tables, and the load bookkeeping the rebalancing maintains: the
weighted load `hi.n + 2*lo.n` stays within `hi`'s limit, strictly when
the low table has drained. -/
def Inv (h : RHash) : Prop :=
  WF h.h_lo ∧ WF h.h_hi ∧
  h.h_lo.key_bytes = h.h_hi.key_bytes ∧
  OrdInv h ∧
  (∀ x, memKey h.h_lo x → memKey h.h_hi x → False) ∧
  h.h_hi.n_entries + 2 * h.h_lo.n_entries ≤ tableLimit h.h_hi ∧
  (h.h_lo.n_entries = 0 → h.h_hi.n_entries < tableLimit h.h_hi)

theorem inv_create (kb : Nat) (im : Bool) : Inv (hashCreate kb im) := by
  refine ⟨tableInit_WF kb, tableInit_WF kb, rfl, ordInv_create kb im, ?_, ?_, ?_⟩
  · intro x hx _
    exact not_memKey_of_empty (fun _ => rfl) x hx
  · show 0 + 2 * 0 ≤ tableLimit (tableInit kb)
    exact Nat.zero_le _
  · intro _
    show 0 < tableLimit (tableInit kb)
    show 0 < tableSize (tableInit kb) - tableSize (tableInit kb) / 4
    have : tableSize (tableInit kb) = 64 := rfl
    omega

theorem memKey_congr {t t2 : RTable} (htab : t2.table = t.table)
    (hkb : t2.key_bytes = t.key_bytes) (x : Key) : memKey t2 x ↔ memKey t x := by
  unfold memKey
  rw [htab, hkb]

theorem memEnt_congr {t t2 : RTable} (htab : t2.table = t.table) (e : Entry) :
    memEnt t2 e ↔ memEnt t e := by
  unfold memEnt
  rw [htab]

/-- `cl_rhash_move_lower` under the invariant preconditions: one entry
migrates from the high to the low table. -/
theorem moveLower_spec (h : RHash) (wflo : WF h.h_lo) (wfhi : WF h.h_hi)
    (hkb : h.h_lo.key_bytes = h.h_hi.key_bytes)
    (hnd : ∀ x, memKey h.h_lo x → memKey h.h_hi x → False)
    (hhin : 0 < h.h_hi.n_entries)
    (hhisz : h.h_hi.n_entries < tableSize h.h_hi)
    (hlosz : h.h_lo.n_entries < tableSize h.h_lo) :
    WF (moveLower h).h_lo ∧ WF (moveLower h).h_hi ∧
    (moveLower h).h_lo.order = h.h_lo.order ∧
    (moveLower h).h_hi.order = h.h_hi.order ∧
    (moveLower h).h_lo.key_bytes = h.h_lo.key_bytes ∧
    (moveLower h).h_hi.key_bytes = h.h_hi.key_bytes ∧
    (moveLower h).h_lo.n_entries = h.h_lo.n_entries + 1 ∧
    (moveLower h).h_hi.n_entries + 1 = h.h_hi.n_entries ∧
    (moveLower h).is_map = h.is_map ∧
    (moveLower h).n_edit = h.n_edit ∧
    (∀ x, memKey (moveLower h).h_lo x → memKey (moveLower h).h_hi x → False) ∧
    (∀ e, (memEnt (moveLower h).h_lo e ∨ memEnt (moveLower h).h_hi e) ↔
      (memEnt h.h_lo e ∨ memEnt h.h_hi e)) := by
  obtain ⟨hpt, hpn, hpo, hpk, hpwf, hp0, hps⟩ := tablePeek_spec h.h_hi wfhi
  obtain ⟨ent, hent, hment⟩ := hps hhin
  rcases hpeq : tablePeek h.h_hi with ⟨hi1, oe⟩
  rw [hpeq] at hpt hpn hpo hpk hpwf hent
  have hoe : oe = some ent := hent
  subst hoe
  dsimp only at hpt hpn hpo hpk hpwf
  have hn1 : hi1.n_entries < tableSize hi1 := by
    have := tableSize_congr hpo
    omega
  have hment1 : memEnt hi1 ent := (memEnt_congr hpt ent).mpr hment
  have hmk1 : memKey hi1 ent.1 := by
    obtain ⟨s, hs⟩ := hment1
    exact ⟨s, ent, hs, keyEq_refl _ _⟩
  obtain ⟨wf2, ho2, hkb2, hdisj⟩ := tableRemove_spec hi1 ent.1 hpwf hn1
  rcases hreq : tableRemove hi1 ent.1 with ⟨hi2, ok⟩
  rw [hreq] at wf2 ho2 hkb2 hdisj
  have hmklo : ¬ memKey h.h_lo ent.1 := fun hc =>
    hnd ent.1 hc ⟨_, ent, hment.choose_spec, keyEq_refl _ _⟩
  obtain ⟨wfI, hoI, hkbI, hmemI, hdisjI⟩ := tableInsert_spec h.h_lo ent wflo hlosz
  have hfreshI : (tableInsert h.h_lo ent).2 = none ∧
      (tableInsert h.h_lo ent).1.n_entries = h.h_lo.n_entries + 1 := by
    rcases hdisjI with ⟨ha, hb, _⟩ | ⟨e0, _, he0, hke0, _⟩
    · exact ⟨ha, hb⟩
    · exact absurd ⟨_, e0, he0.choose_spec, hke0⟩ hmklo
  cases ok with
  | none =>
    exfalso
    rcases hdisj with ⟨_, _, habs⟩ | ⟨e0, he0, _⟩
    · exact habs hmk1
    · exact Option.noConfusion he0
  | some pk =>
    rcases hdisj with ⟨hc, _, _⟩ | ⟨e0, _, _, _, hcnt, hchar⟩
    · exact Option.noConfusion hc
    · dsimp only at wf2 ho2 hkb2 hcnt hchar
      have hgoal : moveLower h = { h with h_hi := hi2, h_lo := (tableInsert h.h_lo ent).1 } := by
        unfold moveLower
        rw [hpeq]
        dsimp only
        rw [hreq]
      rw [hgoal]
      dsimp only
      have hmk2 : ∀ x, memKey hi2 x ↔ (memKey hi1 x ∧ keyEq hi1.key_bytes ent.1 x = false) :=
        memKey_of_memEnt_char hkb2 hchar
      have hkb1 : hi1.key_bytes = h.h_hi.key_bytes := hpk
      refine ⟨wfI, wf2, hoI, by rw [ho2, hpo], hkbI, by rw [hkb2, hpk], hfreshI.2, by omega,
        rfl, rfl, ?_, ?_⟩
      · intro x hxI hx2
        obtain ⟨hx1, hxne⟩ := (hmk2 x).mp hx2
        have hxhi : memKey h.h_hi x := (memKey_congr hpt hpk x).mp hx1
        rcases (insOut_memKey ⟨wfI, hoI, hkbI, hmemI, hdisjI⟩ x).mp hxI with hke | hxlo
        · have hke2 : keyEq hi1.key_bytes x ent.1 = true := by
            rw [hkb1, ← hkb]
            exact hke
          rw [keyEq_symm hke2] at hxne
          exact Bool.noConfusion hxne
        · exact hnd x hxlo hxhi
      · intro e
        constructor
        · rintro (heI | he2)
          · rcases (hmemI e).mp heI with he | ⟨helo, _⟩
            · subst he
              exact Or.inr hment
            · exact Or.inl helo
          · obtain ⟨he1, _⟩ := (hchar e).mp he2
            exact Or.inr ((memEnt_congr hpt e).mp he1)
        · rintro (helo | hehi)
          · refine Or.inl ((hmemI e).mpr (Or.inr ⟨helo, ?_⟩))
            cases hx : keyEq h.h_lo.key_bytes e.1 ent.1 with
            | false => rfl
            | true =>
              exfalso
              obtain ⟨s, hs⟩ := helo
              obtain ⟨sm, hsm⟩ := hment
              exact hnd ent.1 ⟨s, e, hs, keyEq_symm hx⟩ ⟨sm, ent, hsm, keyEq_refl _ _⟩
          · have he1 : memEnt hi1 e := (memEnt_congr hpt e).mpr hehi
            by_cases hke : keyEq hi1.key_bytes ent.1 e.1 = true
            · have hee : e = ent := by
                obtain ⟨s1, hs1⟩ := he1
                obtain ⟨s2, hs2⟩ := hment1
                have hss := hpwf.nodup s1 s2 e ent hs1 hs2 (keyEq_symm hke)
                rw [hss, hs2] at hs1
                injection hs1 with hh
                exact hh.symm
              subst hee
              exact Or.inl ((hmemI e).mpr (Or.inl rfl))
            · refine Or.inr ((hchar e).mpr ⟨he1, ?_⟩)
              cases hx : keyEq hi1.key_bytes ent.1 e.1 with
              | false => rfl
              | true => exact absurd hx hke

theorem memEnt_of_count0 {t : RTable} (wf : WF t) (h0 : t.n_entries = 0) (e : Entry) :
    ¬ memEnt t e := by
  rintro ⟨s, hs⟩
  have hin : s ∈ (Finset.range (tableSize t)).filter (fun x => (t.table x).isSome = true) :=
    Finset.mem_filter.mpr ⟨Finset.mem_range.mpr (mem_lt_size wf hs), by rw [hs]; rfl⟩
  have hcard := Finset.card_pos.mpr ⟨s, hin⟩
  have hwc := wf.count
  unfold occCount at hwc
  omega

theorem four_le_tableSize (t : RTable) (h2 : 2 ≤ t.order) : 4 ≤ tableSize t := by
  show 4 ≤ 2 ^ t.order
  calc (4 : Nat) = 2 ^ 2 := rfl
    _ ≤ 2 ^ t.order := Nat.pow_le_pow_right (by omega) h2

theorem tableSize_div4 (t : RTable) (h2 : 2 ≤ t.order) :
    tableSize t / 4 = 2 ^ (t.order - 2) := by
  show 2 ^ t.order / 4 = 2 ^ (t.order - 2)
  rw [show t.order = (t.order - 2) + 2 from by omega, Nat.pow_add]
  show 2 ^ (t.order - 2) * 4 / 4 = 2 ^ (t.order - 2)
  exact Nat.mul_div_cancel _ (by omega)

theorem tableLimit_eq (t : RTable) (h2 : 2 ≤ t.order) :
    tableLimit t = 3 * 2 ^ (t.order - 2) := by
  unfold tableLimit
  rw [tableSize_div4 t h2]
  show 2 ^ t.order - 2 ^ (t.order - 2) = 3 * 2 ^ (t.order - 2)
  have hord : t.order = (t.order - 2) + 2 := by omega
  nth_rewrite 1 [hord]
  rw [Nat.pow_add, show (2:Nat) ^ 2 = 4 from rfl]
  have hp : 0 < 2 ^ (t.order - 2) := Nat.two_pow_pos _
  omega

theorem tableLimit_lt_size (t : RTable) (h2 : 2 ≤ t.order) :
    tableLimit t < tableSize t := by
  unfold tableLimit
  have h4 := four_le_tableSize t h2
  have : 1 ≤ tableSize t / 4 := by omega
  have hle : tableSize t / 4 ≤ tableSize t := Nat.div_le_self _ _
  omega

theorem tableSize_succ {t t2 : RTable} (h : t2.order = t.order + 1) :
    tableSize t2 = 2 * tableSize t := by
  show 2 ^ t2.order = 2 * 2 ^ t.order
  rw [h, Nat.pow_succ]
  ring

/-- Bounds extracted from the invariant: both tables have room. -/
theorem inv_hi_lt_size (h : RHash) (hI : Inv h) :
    h.h_hi.n_entries < tableSize h.h_hi := by
  obtain ⟨_, _, _, ⟨ho1, _, _⟩, _, hl1, _⟩ := hI
  have := tableLimit_lt_size h.h_hi (by
    have : minOrder = 6 := rfl
    omega)
  omega

theorem inv_lo_lt_size (h : RHash) (hI : Inv h) :
    h.h_lo.n_entries < tableSize h.h_lo := by
  obtain ⟨_, _, _, ⟨ho1, ho2, ho3⟩, _, hl1, _⟩ := hI
  have hm : minOrder = 6 := rfl
  rcases ho3 with hc | ⟨hc1, hc2⟩
  · have hsz := tableSize_succ hc
    have hlim := tableLimit_lt_size h.h_hi (by omega)
    have h4 := four_le_tableSize h.h_lo (by omega)
    omega
  · have hlim := tableLimit_lt_size h.h_hi (by omega)
    have hsz : tableSize h.h_hi = tableSize h.h_lo := by
      show 2 ^ h.h_hi.order = 2 ^ h.h_lo.order
      rw [hc1, hc2]
    omega

/-- `cl_rhash_expand`: the high table's storage is transferred verbatim
to the low slot and a fresh empty table one order higher replaces it. -/
theorem hashExpand_spec (h : RHash) (wfhi : WF h.h_hi) :
    (hashExpand h).h_lo = h.h_hi ∧
    WF (hashExpand h).h_hi ∧
    (hashExpand h).h_hi.n_entries = 0 ∧
    (hashExpand h).h_hi.order = h.h_hi.order + 1 ∧
    (hashExpand h).h_hi.key_bytes = h.h_hi.key_bytes ∧
    (∀ s, (hashExpand h).h_hi.table s = none) ∧
    (hashExpand h).is_map = h.is_map ∧ (hashExpand h).n_edit = h.n_edit :=
  ⟨rfl, WF_empty_table _ (fun _ => rfl) rfl, rfl, rfl, rfl, fun _ => rfl, rfl, rfl⟩

/-- `cl_rhash_shrink`: the low table's storage moves to the high slot
and a fresh empty table one order lower replaces it. -/
theorem hashShrink_spec (h : RHash) (wflo : WF h.h_lo) :
    (hashShrink h).h_hi = h.h_lo ∧
    WF (hashShrink h).h_lo ∧
    (hashShrink h).h_lo.n_entries = 0 ∧
    (hashShrink h).h_lo.order = h.h_lo.order - 1 ∧
    (hashShrink h).h_lo.key_bytes = h.h_lo.key_bytes ∧
    (∀ s, (hashShrink h).h_lo.table s = none) ∧
    (hashShrink h).is_map = h.is_map ∧ (hashShrink h).n_edit = h.n_edit :=
  ⟨rfl, WF_empty_table _ (fun _ => rfl) rfl, rfl, rfl, rfl, fun _ => rfl, rfl, rfl⟩

theorem tableLimit_congr {t t2 : RTable} (h : t2.order = t.order) :
    tableLimit t2 = tableLimit t := by
  unfold tableLimit
  rw [tableSize_congr h]

theorem hi_lt_size_of (h : RHash) (hord : OrdInv h)
    (hsum : h.h_hi.n_entries + 2 * h.h_lo.n_entries ≤ tableLimit h.h_hi) :
    h.h_hi.n_entries < tableSize h.h_hi := by
  obtain ⟨ho1, _, _⟩ := hord
  have hm : minOrder = 6 := rfl
  have := tableLimit_lt_size h.h_hi (by omega)
  omega

theorem lo_lt_size_of (h : RHash) (hord : OrdInv h)
    (hsum : h.h_hi.n_entries + 2 * h.h_lo.n_entries ≤ tableLimit h.h_hi) :
    h.h_lo.n_entries < tableSize h.h_lo := by
  obtain ⟨ho1, ho2, ho3⟩ := hord
  have hm : minOrder = 6 := rfl
  rcases ho3 with hc | ⟨hc1, hc2⟩
  · have hsz := tableSize_succ hc
    have hlim := tableLimit_lt_size h.h_hi (by omega)
    have h4 := four_le_tableSize h.h_lo (by omega)
    omega
  · have hlim := tableLimit_lt_size h.h_hi (by omega)
    have hsz : tableSize h.h_hi = tableSize h.h_lo := by
      show 2 ^ h.h_hi.order = 2 ^ h.h_lo.order
      rw [hc1, hc2]
    omega

theorem tableSize_eq4 (t : RTable) (h2 : 2 ≤ t.order) :
    tableSize t = 4 * 2 ^ (t.order - 2) := by
  show 2 ^ t.order = 4 * 2 ^ (t.order - 2)
  have hord : t.order = (t.order - 2) + 2 := by omega
  nth_rewrite 1 [hord]
  rw [Nat.pow_add, show (2:Nat) ^ 2 = 4 from rfl]
  ring

/-- `cl_rhash_check_shrink` from an invariant state: the invariant is
kept, the count and combined entry set are unchanged, and the high
order never grows. -/
theorem checkShrink_spec (h2 : RHash) (hI : Inv h2) :
    Inv (checkShrink h2) ∧
    hashCount (checkShrink h2) = hashCount h2 ∧
    (checkShrink h2).is_map = h2.is_map ∧
    (checkShrink h2).n_edit = h2.n_edit ∧
    (checkShrink h2).h_lo.key_bytes = h2.h_lo.key_bytes ∧
    (checkShrink h2).h_hi.order ≤ h2.h_hi.order ∧
    (∀ e, (memEnt (checkShrink h2).h_lo e ∨ memEnt (checkShrink h2).h_hi e) ↔
      (memEnt h2.h_lo e ∨ memEnt h2.h_hi e)) := by
  obtain ⟨wflo, wfhi, hkb, ⟨ho1, ho2, ho3⟩, hnd, hload1, hload2⟩ := hI
  have hm : minOrder = 6 := rfl
  unfold checkShrink
  split
  · rename_i hss
    unfold shouldShrink at hss
    have hgt : h2.h_hi.order > minOrder :=
      of_decide_eq_true (Bool.and_elim_left (Bool.and_elim_left hss))
    have h0 : h2.h_hi.n_entries = 0 :=
      of_decide_eq_true (Bool.and_elim_right (Bool.and_elim_left hss))
    have hsl : h2.h_lo.n_entries ≤ tableSlimit h2.h_hi :=
      of_decide_eq_true (Bool.and_elim_right hss)
    have hc : h2.h_hi.order = h2.h_lo.order + 1 := by
      rcases ho3 with hc | ⟨hc1, hc2⟩
      · exact hc
      · omega
    have hslim : tableSlimit h2.h_hi = tableSize h2.h_hi / 4 := by
      unfold tableSlimit
      rw [if_pos hgt]
    have hs2 : tableSize h2.h_hi = 2 * tableSize h2.h_lo := tableSize_succ hc
    have hlolim : tableLimit h2.h_lo = 3 * 2 ^ (h2.h_lo.order - 2) :=
      tableLimit_eq h2.h_lo (by omega)
    have hsz4 : tableSize h2.h_lo = 4 * 2 ^ (h2.h_lo.order - 2) :=
      tableSize_eq4 h2.h_lo (by omega)
    have hk : 0 < 2 ^ (h2.h_lo.order - 2) := Nat.two_pow_pos _
    have hlt : h2.h_lo.n_entries < tableLimit h2.h_lo := by omega
    refine ⟨⟨WF_empty_table _ (fun _ => rfl) rfl, wflo, rfl, ⟨?_, ?_, Or.inl ?_⟩, ?_, ?_, ?_⟩,
      ?_, rfl, rfl, rfl, ?_, ?_⟩
    · show minOrder ≤ h2.h_lo.order
      omega
    · show h2.h_lo.order ≤ maxOrder
      omega
    · show h2.h_lo.order = h2.h_lo.order - 1 + 1
      omega
    · intro x hxlo _
      exact not_memKey_of_empty (fun _ => rfl) x hxlo
    · show h2.h_lo.n_entries + 2 * 0 ≤ tableLimit h2.h_lo
      omega
    · intro _
      show h2.h_lo.n_entries < tableLimit h2.h_lo
      exact hlt
    · show 0 + h2.h_lo.n_entries = h2.h_lo.n_entries + h2.h_hi.n_entries
      omega
    · show h2.h_lo.order ≤ h2.h_hi.order
      omega
    · intro e
      constructor
      · rintro (he | he)
        · obtain ⟨s, hs⟩ := he
          exact absurd hs (by show (none : Option Entry) = some e → False; exact Option.noConfusion)
        · exact Or.inl he
      · rintro (he | he)
        · exact Or.inr he
        · exact absurd he (memEnt_of_count0 wfhi h0 e)
  · exact ⟨⟨wflo, wfhi, hkb, ⟨ho1, ho2, ho3⟩, hnd, hload1, hload2⟩, rfl, rfl, rfl, rfl,
      Nat.le_refl _, fun e => Iff.rfl⟩

/-- The rebalancing pair run after a successful removal
(`cl_rhash_check_move_lower` then `cl_rhash_check_shrink`). -/
theorem remChecks_spec (h1 : RHash) (wflo : WF h1.h_lo) (wfhi : WF h1.h_hi)
    (hkb : h1.h_lo.key_bytes = h1.h_hi.key_bytes)
    (hnd : ∀ x, memKey h1.h_lo x → memKey h1.h_hi x → False)
    (hord : OrdInv h1)
    (hsum1 : h1.h_hi.n_entries + 2 * h1.h_lo.n_entries + 1 ≤ tableLimit h1.h_hi) :
    Inv (checkShrink (checkMoveLower h1)) ∧
    hashCount (checkShrink (checkMoveLower h1)) = hashCount h1 ∧
    (checkShrink (checkMoveLower h1)).is_map = h1.is_map ∧
    (checkShrink (checkMoveLower h1)).n_edit = h1.n_edit ∧
    (checkShrink (checkMoveLower h1)).h_lo.key_bytes = h1.h_lo.key_bytes ∧
    (checkShrink (checkMoveLower h1)).h_hi.order ≤ h1.h_hi.order ∧
    (∀ e, (memEnt (checkShrink (checkMoveLower h1)).h_lo e ∨
        memEnt (checkShrink (checkMoveLower h1)).h_hi e) ↔
      (memEnt h1.h_lo e ∨ memEnt h1.h_hi e)) := by
  unfold checkMoveLower
  split
  · rename_i hsm
    unfold shouldMoveLower at hsm
    simp only [Bool.and_eq_true, decide_eq_true_eq] at hsm
    have hhin : 0 < h1.h_hi.n_entries := by exact_mod_cast hsm.1
    have hhisz : h1.h_hi.n_entries < tableSize h1.h_hi :=
      hi_lt_size_of h1 hord (by omega)
    have hlosz : h1.h_lo.n_entries < tableSize h1.h_lo :=
      lo_lt_size_of h1 hord (by omega)
    obtain ⟨mwflo, mwfhi, molo, mohi, mklo, mkhi, mnlo, mnhi, mmap, medit, mnd, munion⟩ :=
      moveLower_spec h1 wflo wfhi hkb hnd hhin hhisz hlosz
    have hlimc : tableLimit (moveLower h1).h_hi = tableLimit h1.h_hi := tableLimit_congr mohi
    have hI2 : Inv (moveLower h1) := by
      refine ⟨mwflo, mwfhi, by rw [mklo, mkhi]; exact hkb,
        ordInv_of_orders h1 _ molo mohi hord, mnd, by rw [hlimc]; omega, ?_⟩
      intro hzero
      omega
    obtain ⟨cs1, cs2, cs3, cs4, cs5, cs6, cs7⟩ := checkShrink_spec (moveLower h1) hI2
    have hcc : hashCount (moveLower h1) = hashCount h1 := by
      show (moveLower h1).h_lo.n_entries + (moveLower h1).h_hi.n_entries
        = h1.h_lo.n_entries + h1.h_hi.n_entries
      omega
    exact ⟨cs1, by rw [cs2, hcc], by rw [cs3, mmap], by rw [cs4, medit],
      by rw [cs5, mklo], by rw [mohi] at cs6; exact cs6,
      fun e => (cs7 e).trans (munion e)⟩
  · have hI1 : Inv h1 := by
      refine ⟨wflo, wfhi, hkb, hord, hnd, by omega, ?_⟩
      intro hzero
      omega
    exact checkShrink_spec h1 hI1

/-- `cl_rhash_remove` from an invariant state: a miss leaves the hash
exactly as it was (not even the edit version moves) and the key was
absent; a hit removes exactly that key's entry, decrements the count,
and keeps the invariant through the rebalancing checks. -/
theorem hashRemove_spec (h : RHash) (k : Key) (hI : Inv h) :
    Inv (hashRemove h k).1 ∧
    (hashRemove h k).1.is_map = h.is_map ∧
    (hashRemove h k).1.h_lo.key_bytes = h.h_lo.key_bytes ∧
    (hashRemove h k).1.h_hi.order ≤ h.h_hi.order ∧
    ((hashRemove h k).2 = none →
      (hashRemove h k).1 = h ∧ ¬ memKey h.h_lo k ∧ ¬ memKey h.h_hi k) ∧
    ((hashRemove h k).2 ≠ none → hashCount (hashRemove h k).1 + 1 = hashCount h) ∧
    (∀ e2, (memEnt (hashRemove h k).1.h_lo e2 ∨ memEnt (hashRemove h k).1.h_hi e2) ↔
      ((memEnt h.h_lo e2 ∨ memEnt h.h_hi e2) ∧ keyEq h.h_hi.key_bytes k e2.1 = false)) := by
  have hszhi : h.h_hi.n_entries < tableSize h.h_hi := inv_hi_lt_size h hI
  have hszlo : h.h_lo.n_entries < tableSize h.h_lo := inv_lo_lt_size h hI
  obtain ⟨wflo, wfhi, hkb, hord, hnd, hload1, hload2⟩ := hI
  obtain ⟨wfR, hoR, hkbR, hdisjR⟩ := tableRemove_spec h.h_lo k wflo hszlo
  unfold hashRemove
  rcases hre : tableRemove h.h_lo k with ⟨lo1, ro⟩
  rw [hre] at wfR hoR hkbR hdisjR
  dsimp only at wfR hoR hkbR hdisjR
  cases ro with
  | some pk =>
    dsimp only
    rcases hdisjR with ⟨hc, _, _⟩ | ⟨e0, he0, hm0, hk0, hcR, hcharR⟩
    · exact Option.noConfusion hc
    · obtain ⟨s0, hs0⟩ := hm0
      have hmklo : memKey h.h_lo k := ⟨s0, e0, hs0, hk0⟩
      have hmk1 : ∀ x, memKey lo1 x ↔
          (memKey h.h_lo x ∧ keyEq h.h_lo.key_bytes k x = false) :=
        memKey_of_memEnt_char hkbR hcharR
      have hnd1 : ∀ x, memKey lo1 x → memKey h.h_hi x → False := by
        intro x hx1 hxhi
        exact hnd x ((hmk1 x).mp hx1).1 hxhi
      obtain ⟨cs1, cs2, cs3, cs4, cs5, cs6, cs7⟩ :=
        remChecks_spec { h with h_lo := lo1 } wfR wfhi
          (by show lo1.key_bytes = h.h_hi.key_bytes; rw [hkbR]; exact hkb)
          hnd1 (ordInv_of_orders h _ hoR rfl hord)
          (by show h.h_hi.n_entries + 2 * lo1.n_entries + 1 ≤ tableLimit h.h_hi; omega)
      have hcnt : hashCount { h with h_lo := lo1 } + 1 = hashCount h := by
        show lo1.n_entries + h.h_hi.n_entries + 1 = h.h_lo.n_entries + h.h_hi.n_entries
        omega
      have hfin : hashCount (checkShrink (checkMoveLower { h with h_lo := lo1 })) + 1
          = hashCount h := by
        rw [cs2]
        exact hcnt
      refine ⟨cs1, cs3, cs5.trans hkbR, cs6, fun hc => Option.noConfusion hc,
        fun _ => hfin, ?_⟩
      intro e2
      have hmid := cs7 e2
      constructor
      · intro hx
        rcases hmid.mp hx with helo | hehi
        · obtain ⟨hlo, hkf⟩ := (hcharR e2).mp helo
          exact ⟨Or.inl hlo, by rw [← hkb]; exact hkf⟩
        · refine ⟨Or.inr hehi, ?_⟩
          cases hke : keyEq h.h_hi.key_bytes k e2.1 with
          | false => rfl
          | true =>
            exfalso
            obtain ⟨s, hs⟩ := hehi
            exact hnd k hmklo ⟨s, e2, hs, hke⟩
      · rintro ⟨hm | hm, hkf⟩
        · exact hmid.mpr (Or.inl ((hcharR e2).mpr ⟨hm, by rw [hkb]; exact hkf⟩))
        · exact hmid.mpr (Or.inr hm)
  | none =>
    dsimp only
    rcases hdisjR with ⟨_, hr1, hfrlo⟩ | ⟨e0, he0, _⟩
    · subst hr1
      obtain ⟨wfR2, hoR2, hkbR2, hdisjR2⟩ := tableRemove_spec h.h_hi k wfhi hszhi
      rcases hre2 : tableRemove h.h_hi k with ⟨hi1, ro2⟩
      rw [hre2] at wfR2 hoR2 hkbR2 hdisjR2
      dsimp only at wfR2 hoR2 hkbR2 hdisjR2
      cases ro2 with
      | some pk =>
        dsimp only
        rcases hdisjR2 with ⟨hc, _, _⟩ | ⟨e0, he0, hm0, hk0, hcR, hcharR⟩
        · exact Option.noConfusion hc
        · obtain ⟨s0, hs0⟩ := hm0
          have hmkhi : memKey h.h_hi k := ⟨s0, e0, hs0, hk0⟩
          have hmk1 : ∀ x, memKey hi1 x ↔
              (memKey h.h_hi x ∧ keyEq h.h_hi.key_bytes k x = false) :=
            memKey_of_memEnt_char hkbR2 hcharR
          have hnd1 : ∀ x, memKey h.h_lo x → memKey hi1 x → False := by
            intro x hxlo hx1
            exact hnd x hxlo ((hmk1 x).mp hx1).1
          obtain ⟨cs1, cs2, cs3, cs4, cs5, cs6, cs7⟩ :=
            remChecks_spec { h with h_lo := h.h_lo, h_hi := hi1 } wflo wfR2
              (by show h.h_lo.key_bytes = hi1.key_bytes; rw [hkbR2]; exact hkb)
              hnd1 (ordInv_of_orders h _ rfl hoR2 hord)
              (by show hi1.n_entries + 2 * h.h_lo.n_entries + 1 ≤ tableLimit hi1
                  rw [tableLimit_congr hoR2]
                  omega)
          have hcnt : hashCount { h with h_lo := h.h_lo, h_hi := hi1 } + 1 = hashCount h := by
            show h.h_lo.n_entries + hi1.n_entries + 1 = h.h_lo.n_entries + h.h_hi.n_entries
            omega
          have hfin : hashCount (checkShrink (checkMoveLower
              { h with h_lo := h.h_lo, h_hi := hi1 })) + 1 = hashCount h := by
            rw [cs2]
            exact hcnt
          refine ⟨cs1, cs3, cs5, ?_, fun hc => Option.noConfusion hc, fun _ => hfin, ?_⟩
          · rw [hoR2] at cs6
            exact cs6
          · intro e2
            have hmid := cs7 e2
            constructor
            · intro hx
              rcases hmid.mp hx with helo | hehi
              · refine ⟨Or.inl helo, ?_⟩
                cases hke : keyEq h.h_hi.key_bytes k e2.1 with
                | false => rfl
                | true =>
                  exfalso
                  obtain ⟨s, hs⟩ := helo
                  exact hnd k ⟨s, e2, hs, by rw [hkb]; exact hke⟩ hmkhi
              · obtain ⟨hhi, hkf⟩ := (hcharR e2).mp hehi
                exact ⟨Or.inr hhi, hkf⟩
            · rintro ⟨hm | hm, hkf⟩
              · exact hmid.mpr (Or.inl hm)
              · exact hmid.mpr (Or.inr ((hcharR e2).mpr ⟨hm, hkf⟩))
      | none =>
        dsimp only
        rcases hdisjR2 with ⟨_, hr2, hfrhi⟩ | ⟨e0, he0, _⟩
        · subst hr2
          refine ⟨⟨wflo, wfhi, hkb, hord, hnd, hload1, hload2⟩, rfl, rfl, Nat.le_refl _,
            fun _ => ⟨rfl, hfrlo, hfrhi⟩, fun hc => absurd rfl hc, ?_⟩
          intro e2
          constructor
          · intro hm
            refine ⟨hm, ?_⟩
            cases hke : keyEq h.h_hi.key_bytes k e2.1 with
            | false => rfl
            | true =>
              exfalso
              rcases hm with ⟨s, hs⟩ | ⟨s, hs⟩
              · exact hfrlo ⟨s, e2, hs, by rw [hkb]; exact hke⟩
              · exact hfrhi ⟨s, e2, hs, hke⟩
          · exact fun hm => hm.1
        · exact Option.noConfusion he0
    · exact Option.noConfusion he0

/-- `cl_rhash_remove` either misses (no matching key anywhere) or
returns the key of a stored entry matching the argument. -/
theorem hashRemove_found (h : RHash) (k : Key) (hI : Inv h) :
    ((hashRemove h k).2 = none ∧ ¬ memKey h.h_lo k ∧ ¬ memKey h.h_hi k) ∨
    (∃ e0, (hashRemove h k).2 = some e0.1 ∧
      (memEnt h.h_lo e0 ∨ memEnt h.h_hi e0) ∧
      keyEq h.h_hi.key_bytes k e0.1 = true) := by
  have hszlo := inv_lo_lt_size h hI
  have hszhi := inv_hi_lt_size h hI
  obtain ⟨wflo, wfhi, hkb, _, _, _, _⟩ := hI
  have hlo := tableRemove_spec h.h_lo k wflo hszlo
  have hhi := tableRemove_spec h.h_hi k wfhi hszhi
  unfold hashRemove
  rcases hrl : tableRemove h.h_lo k with ⟨lo1, rl⟩
  rw [hrl] at hlo
  obtain ⟨_, _, _, hcase⟩ := hlo
  cases rl with
  | some pk =>
    rcases hcase with ⟨hno, _, _⟩ | ⟨e0, hsome, hmem, hke, _, _⟩
    · exact Option.noConfusion hno
    · refine Or.inr ⟨e0, ?_, Or.inl hmem, ?_⟩
      · exact hsome
      · rw [← hkb]
        exact hke
  | none =>
    rcases hcase with ⟨_, hlo1, hnklo⟩ | ⟨e0, hsome, _, _, _, _⟩
    · rcases hrh : tableRemove h.h_hi k with ⟨hi1, rh⟩
      rw [hrh] at hhi
      obtain ⟨_, _, _, hcase2⟩ := hhi
      cases rh with
      | some pk =>
        rcases hcase2 with ⟨hno, _, _⟩ | ⟨e0, hsome2, hmem2, hke2, _, _⟩
        · exact Option.noConfusion hno
        · exact Or.inr ⟨e0, hsome2, Or.inr hmem2, hke2⟩
      | none =>
        rcases hcase2 with ⟨_, hhi1, hnkhi⟩ | ⟨e0, hsome2, _, _, _, _⟩
        · exact Or.inl ⟨rfl, hnklo, hnkhi⟩
        · exact Option.noConfusion hsome2
    · exact Option.noConfusion hsome

/-- C7: on a state satisfying the dual-table invariant, removing an
absent key returns the "not found" result and leaves the entire hash
(tables, counters and edit version) unchanged; removing a present key
returns a stored key equal to it, and `contains` on that key immediately
afterwards returns false. -/
theorem c7_remove_semantics (h : RHash) (k : Key) (hI : Inv h) :
    (hashContains h k = false →
      (hashRemove h k).2 = none ∧ (hashRemove h k).1 = h) ∧
    (hashContains h k = true →
      (∃ k0, (hashRemove h k).2 = some k0 ∧ keyEq h.h_hi.key_bytes k k0 = true) ∧
      hashContains (hashRemove h k).1 k = false) := by
  have hfound := hashRemove_found h k hI
  obtain ⟨r1, r2, r3, r4, r5, r6, r7⟩ := hashRemove_spec h k hI
  obtain ⟨wflo, wfhi, hkb, _, _, _, _⟩ := hI
  constructor
  · intro hcf
    have hcf2 : (tableContains h.h_lo k || tableContains h.h_hi k) = false := hcf
    rw [Bool.or_eq_false_iff] at hcf2
    obtain ⟨hcl, hch⟩ := hcf2
    have hnl : ¬ memKey h.h_lo k := by
      intro hm
      rw [(tableContains_iff wflo k).mpr hm] at hcl
      exact Bool.noConfusion hcl
    have hnh : ¬ memKey h.h_hi k := by
      intro hm
      rw [(tableContains_iff wfhi k).mpr hm] at hch
      exact Bool.noConfusion hch
    rcases hfound with ⟨hn, _, _⟩ | ⟨e0, hsome, hmem, hke⟩
    · exact ⟨hn, (r5 hn).1⟩
    · rcases hmem with ⟨s, hs⟩ | ⟨s, hs⟩
      · exact absurd ⟨s, e0, hs, by rw [hkb]; exact hke⟩ hnl
      · exact absurd ⟨s, e0, hs, hke⟩ hnh
  · intro hct
    have hct2 : (tableContains h.h_lo k || tableContains h.h_hi k) = true := hct
    rcases hfound with ⟨hn, hnl, hnh⟩ | ⟨e0, hsome, hmem, hke⟩
    · rw [Bool.or_eq_true] at hct2
      rcases hct2 with hc | hc
      · exact absurd ((tableContains_iff wflo k).mp hc) hnl
      · exact absurd ((tableContains_iff wfhi k).mp hc) hnh
    · refine ⟨⟨e0.1, hsome, hke⟩, ?_⟩
      obtain ⟨wflo2, wfhi2, hkb2, _⟩ := r1
      have hknew_lo : (hashRemove h k).1.h_lo.key_bytes = h.h_hi.key_bytes :=
        r3.trans hkb
      have hknew_hi : (hashRemove h k).1.h_hi.key_bytes = h.h_hi.key_bytes :=
        hkb2.symm.trans hknew_lo
      have hnl2 : ¬ memKey (hashRemove h k).1.h_lo k := by
        rintro ⟨s, e, hs, hkx⟩
        have hchar := (r7 e).mp (Or.inl ⟨s, hs⟩)
        rw [hknew_lo] at hkx
        rw [hchar.2] at hkx
        exact Bool.noConfusion hkx
      have hnh2 : ¬ memKey (hashRemove h k).1.h_hi k := by
        rintro ⟨s, e, hs, hkx⟩
        have hchar := (r7 e).mp (Or.inr ⟨s, hs⟩)
        rw [hknew_hi] at hkx
        rw [hchar.2] at hkx
        exact Bool.noConfusion hkx
      show (tableContains (hashRemove h k).1.h_lo k ||
        tableContains (hashRemove h k).1.h_hi k) = false
      rw [Bool.or_eq_false_iff]
      constructor
      · cases hc : tableContains (hashRemove h k).1.h_lo k
        · rfl
        · exact absurd ((tableContains_iff wflo2 k).mp hc) hnl2
      · cases hc : tableContains (hashRemove h k).1.h_hi k
        · rfl
        · exact absurd ((tableContains_iff wfhi2 k).mp hc) hnh2

/-- Witness for C7 at a concrete invariant-satisfying state. -/
theorem c7_remove_semantics_witness :
    (hashContains (hashCreate 0 false) [5] = false →
      (hashRemove (hashCreate 0 false) [5]).2 = none ∧
      (hashRemove (hashCreate 0 false) [5]).1 = hashCreate 0 false) ∧
    (hashContains (hashCreate 0 false) [5] = true →
      (∃ k0, (hashRemove (hashCreate 0 false) [5]).2 = some k0 ∧
        keyEq (hashCreate 0 false).h_hi.key_bytes [5] k0 = true) ∧
      hashContains (hashRemove (hashCreate 0 false) [5]).1 [5] = false) :=
  c7_remove_semantics (hashCreate 0 false) [5] (inv_create 0 false)

/-- First occupied slot at or after `s`, scanning `fuel` slots. -/
def scanAux (t : RTable) : Nat → Nat → Option (Nat × Entry)
  | _, 0 => none
  | s, fuel + 1 =>
    match t.table s with
    | some e => some (s, e)
    | none => scanAux t (s + 1) fuel

theorem scan_none_filterMap (t : RTable) :
    ∀ m s, scanAux t s m = none → (List.range' s m).filterMap t.table = [] := by
  intro m
  induction m with
  | zero => intro s _; rfl
  | succ n ih =>
    intro s hsc
    rw [scanAux] at hsc
    rw [List.range'_succ]
    cases hsl : t.table s with
    | some e =>
      rw [hsl] at hsc
      exact Option.noConfusion hsc
    | none =>
      rw [hsl] at hsc
      rw [List.filterMap_cons_none hsl]
      exact ih (s + 1) hsc

theorem scan_some_props (t : RTable) :
    ∀ m s u e, scanAux t s m = some (u, e) →
      s ≤ u ∧ u < s + m ∧ t.table u = some e ∧
      (List.range' s m).filterMap t.table =
        e :: (List.range' (u + 1) (s + m - (u + 1))).filterMap t.table := by
  intro m
  induction m with
  | zero =>
    intro s u e hsc
    rw [scanAux] at hsc
    exact Option.noConfusion hsc
  | succ n ih =>
    intro s u e hsc
    rw [scanAux] at hsc
    rw [List.range'_succ]
    cases hsl : t.table s with
    | some e0 =>
      rw [hsl] at hsc
      dsimp only at hsc
      rw [Option.some.injEq, Prod.mk.injEq] at hsc
      obtain ⟨h1, h2⟩ := hsc
      subst h1
      subst h2
      refine ⟨Nat.le_refl s, by omega, hsl, ?_⟩
      rw [List.filterMap_cons_some hsl]
      have harg : s + (n + 1) - (s + 1) = n := by omega
      rw [harg]
    | none =>
      rw [hsl] at hsc
      dsimp only at hsc
      obtain ⟨h1, h2, h3, h4⟩ := ih (s + 1) u e hsc
      refine ⟨by omega, by omega, h3, ?_⟩
      rw [List.filterMap_cons_none hsl, h4]
      have harg : s + 1 + n - (u + 1) = s + (n + 1) - (u + 1) := by omega
      rw [harg]

theorem iterDone_lo (s e : Nat) : iterDone ⟨.tLo, s, e⟩ = false := rfl

theorem iterDone_hi (s e : Nat) : iterDone ⟨.tHi, s, e⟩ = false := rfl

theorem iterDone_tnone (s e : Nat) : iterDone ⟨.tNone, s, e⟩ = true := rfl

theorem iterTableDone_lo (h : RHash) (s e : Nat) :
    iterTableDone h ⟨.tLo, s, e⟩ = decide (s ≥ tableSize h.h_lo) := rfl

theorem iterTableDone_hi (h : RHash) (s e : Nat) :
    iterTableDone h ⟨.tHi, s, e⟩ = decide (s ≥ tableSize h.h_hi) := rfl

theorem iterTableDone_tnone (h : RHash) (s e : Nat) :
    iterTableDone h ⟨.tNone, s, e⟩ = false := rfl

theorem iterNextTable_lo (h : RHash) (s e : Nat) :
    iterNextTable h ⟨.tLo, s, e⟩ = ⟨.tHi, h.h_hi.n_peek, e⟩ := rfl

theorem iterNextTable_hi (h : RHash) (s e : Nat) :
    iterNextTable h ⟨.tHi, s, e⟩ = ⟨.tNone, 0, e⟩ := rfl

theorem iterEntry_lo (h : RHash) (s e : Nat) :
    iterEntry h ⟨.tLo, s, e⟩ = h.h_lo.table s := rfl

theorem iterEntry_hi (h : RHash) (s e : Nat) :
    iterEntry h ⟨.tHi, s, e⟩ = h.h_hi.table s := rfl

theorem iterEntry_tnone (h : RHash) (s e : Nat) :
    iterEntry h ⟨.tNone, s, e⟩ = none := rfl

theorem iterNextSlot_hi_stay (h : RHash) (j jn ed : Nat)
    (hjn : (j + 1) % 2 ^ 32 = jn) (hlt : jn < tableSize h.h_hi) :
    iterNextSlot h ⟨.tHi, j, ed⟩ = ⟨.tHi, jn, ed⟩ := by
  unfold iterNextSlot
  dsimp only
  rw [hjn]
  have hc : ¬ iterTableDone h ⟨.tHi, jn, ed⟩ = true := by
    rw [iterTableDone_hi]
    simp only [ge_iff_le, decide_eq_true_eq]
    omega
  rw [if_neg hc, if_neg hc]

theorem iterNextSlot_hi_exit (h : RHash) (j jn ed : Nat)
    (hjn : (j + 1) % 2 ^ 32 = jn) (hge : tableSize h.h_hi ≤ jn) :
    iterNextSlot h ⟨.tHi, j, ed⟩ = ⟨.tNone, 0, ed⟩ := by
  unfold iterNextSlot
  dsimp only
  rw [hjn]
  have hc : iterTableDone h ⟨.tHi, jn, ed⟩ = true := by
    rw [iterTableDone_hi]
    simp only [ge_iff_le, decide_eq_true_eq]
    omega
  rw [if_pos hc, iterNextTable_hi]
  rw [if_neg (by rw [iterTableDone_tnone]; exact Bool.false_ne_true)]

theorem iterNextSlot_lo_stay (h : RHash) (j jn ed : Nat)
    (hjn : (j + 1) % 2 ^ 32 = jn) (hlt : jn < tableSize h.h_lo) :
    iterNextSlot h ⟨.tLo, j, ed⟩ = ⟨.tLo, jn, ed⟩ := by
  unfold iterNextSlot
  dsimp only
  rw [hjn]
  have hc : ¬ iterTableDone h ⟨.tLo, jn, ed⟩ = true := by
    rw [iterTableDone_lo]
    simp only [ge_iff_le, decide_eq_true_eq]
    omega
  rw [if_neg hc, if_neg hc]

theorem iterNextSlot_lo_hop (h : RHash) (j jn ed : Nat)
    (hjn : (j + 1) % 2 ^ 32 = jn) (hge : tableSize h.h_lo ≤ jn)
    (hnp : h.h_hi.n_peek < tableSize h.h_hi) :
    iterNextSlot h ⟨.tLo, j, ed⟩ = ⟨.tHi, h.h_hi.n_peek, ed⟩ := by
  unfold iterNextSlot
  dsimp only
  rw [hjn]
  have hc : iterTableDone h ⟨.tLo, jn, ed⟩ = true := by
    rw [iterTableDone_lo]
    simp only [ge_iff_le, decide_eq_true_eq]
    omega
  rw [if_pos hc, iterNextTable_lo]
  have hc2 : ¬ iterTableDone h ⟨.tHi, h.h_hi.n_peek, ed⟩ = true := by
    rw [iterTableDone_hi]
    simp only [ge_iff_le, decide_eq_true_eq]
    omega
  rw [if_neg hc2]

theorem iterNextSlot_lo_finish (h : RHash) (j jn ed : Nat)
    (hjn : (j + 1) % 2 ^ 32 = jn) (hge : tableSize h.h_lo ≤ jn)
    (hnp : tableSize h.h_hi ≤ h.h_hi.n_peek) :
    iterNextSlot h ⟨.tLo, j, ed⟩ = ⟨.tNone, 0, ed⟩ := by
  unfold iterNextSlot
  dsimp only
  rw [hjn]
  have hc : iterTableDone h ⟨.tLo, jn, ed⟩ = true := by
    rw [iterTableDone_lo]
    simp only [ge_iff_le, decide_eq_true_eq]
    omega
  rw [if_pos hc, iterNextTable_lo]
  have hc2 : iterTableDone h ⟨.tHi, h.h_hi.n_peek, ed⟩ = true := by
    rw [iterTableDone_hi]
    simp only [ge_iff_le, decide_eq_true_eq]
    omega
  rw [if_pos hc2, iterNextTable_hi]

theorem iterNextLoop_succ (h : RHash) (it : RIter) (fuel : Nat) :
    iterNextLoop h it (fuel + 1) =
      if iterDone it then (none, it)
      else
        match iterEntry h (iterNextSlot h it) with
        | some e => (some e.1, iterNextSlot h it)
        | none => iterNextLoop h (iterNextSlot h it) fuel := rfl

/-- The `next` scan from a high-table position: it yields the first
occupied slot after the current one, or finishes the iteration. -/
theorem iterLoop_hi (h : RHash) (ed : Nat) (hSH2 : tableSize h.h_hi < 2 ^ 32) :
    ∀ fuel j jn, (j + 1) % 2 ^ 32 = jn →
      tableSize h.h_hi - jn + 2 ≤ fuel →
      ((scanAux h.h_hi jn (tableSize h.h_hi - jn) = none →
          iterNextLoop h ⟨.tHi, j, ed⟩ fuel = (none, ⟨.tNone, 0, ed⟩)) ∧
       (∀ u e, scanAux h.h_hi jn (tableSize h.h_hi - jn) = some (u, e) →
          iterNextLoop h ⟨.tHi, j, ed⟩ fuel = (some e.1, ⟨.tHi, u, ed⟩))) := by
  intro fuel
  induction fuel with
  | zero => intro j jn hjn hf; omega
  | succ n ih =>
    intro j jn hjn hf
    rw [iterNextLoop_succ]
    rw [if_neg (by rw [iterDone_hi]; exact Bool.false_ne_true)]
    by_cases hlt : jn < tableSize h.h_hi
    · rw [iterNextSlot_hi_stay h j jn ed hjn hlt, iterEntry_hi]
      obtain ⟨m, hm⟩ : ∃ m, tableSize h.h_hi - jn = m + 1 :=
        ⟨tableSize h.h_hi - jn - 1, by omega⟩
      rw [hm, scanAux]
      cases hsl : h.h_hi.table jn with
      | some e0 =>
        dsimp only
        constructor
        · intro hsc
          exact Option.noConfusion hsc
        · intro u e hue
          rw [Option.some.injEq, Prod.mk.injEq] at hue
          obtain ⟨h1, h2⟩ := hue
          subst h1
          subst h2
          rfl
      | none =>
        dsimp only
        have harg : m = tableSize h.h_hi - (jn + 1) := by omega
        rw [harg]
        exact ih jn (jn + 1) (Nat.mod_eq_of_lt (by omega)) (by omega)
    · rw [iterNextSlot_hi_exit h j jn ed hjn (by omega)]
      rw [iterEntry_tnone]
      dsimp only
      have h0 : tableSize h.h_hi - jn = 0 := by omega
      rw [h0, scanAux]
      constructor
      · intro _
        obtain ⟨n2, rfl⟩ : ∃ n2, n = n2 + 1 := ⟨n - 1, by omega⟩
        rw [iterNextLoop_succ]
        rw [if_pos (iterDone_tnone 0 ed)]
      · intro u e hue
        exact Option.noConfusion hue

/-- The `next` scan from a low-table position: it yields the first
occupied slot after the current one, falling through to the high table
at its peek cursor, or finishes the iteration. -/
theorem iterLoop_lo (h : RHash) (ed : Nat) (hSL2 : tableSize h.h_lo < 2 ^ 32)
    (hSH2 : tableSize h.h_hi < 2 ^ 32) :
    ∀ fuel j jn, (j + 1) % 2 ^ 32 = jn →
      tableSize h.h_lo - jn + (tableSize h.h_hi + 2) ≤ fuel →
      ((∀ u e, scanAux h.h_lo jn (tableSize h.h_lo - jn) = some (u, e) →
          iterNextLoop h ⟨.tLo, j, ed⟩ fuel = (some e.1, ⟨.tLo, u, ed⟩)) ∧
       (scanAux h.h_lo jn (tableSize h.h_lo - jn) = none →
        ((∀ u e, scanAux h.h_hi h.h_hi.n_peek
              (tableSize h.h_hi - h.h_hi.n_peek) = some (u, e) →
            iterNextLoop h ⟨.tLo, j, ed⟩ fuel = (some e.1, ⟨.tHi, u, ed⟩)) ∧
         (scanAux h.h_hi h.h_hi.n_peek (tableSize h.h_hi - h.h_hi.n_peek) = none →
            iterNextLoop h ⟨.tLo, j, ed⟩ fuel = (none, ⟨.tNone, 0, ed⟩))))) := by
  intro fuel
  induction fuel with
  | zero => intro j jn hjn hf; omega
  | succ n ih =>
    intro j jn hjn hf
    rw [iterNextLoop_succ]
    rw [if_neg (by rw [iterDone_lo]; exact Bool.false_ne_true)]
    by_cases hlt : jn < tableSize h.h_lo
    · rw [iterNextSlot_lo_stay h j jn ed hjn hlt, iterEntry_lo]
      obtain ⟨m, hm⟩ : ∃ m, tableSize h.h_lo - jn = m + 1 :=
        ⟨tableSize h.h_lo - jn - 1, by omega⟩
      rw [hm, scanAux]
      cases hsl : h.h_lo.table jn with
      | some e0 =>
        dsimp only
        constructor
        · intro u e hue
          rw [Option.some.injEq, Prod.mk.injEq] at hue
          obtain ⟨h1, h2⟩ := hue
          subst h1
          subst h2
          rfl
        · intro hsc
          exact Option.noConfusion hsc
      | none =>
        dsimp only
        have harg : m = tableSize h.h_lo - (jn + 1) := by omega
        rw [harg]
        exact ih jn (jn + 1) (Nat.mod_eq_of_lt (by omega)) (by omega)
    · by_cases hnp : h.h_hi.n_peek < tableSize h.h_hi
      · rw [iterNextSlot_lo_hop h j jn ed hjn (by omega) hnp]
        rw [iterEntry_hi]
        have h0 : tableSize h.h_lo - jn = 0 := by omega
        rw [h0, scanAux]
        obtain ⟨m, hm⟩ : ∃ m, tableSize h.h_hi - h.h_hi.n_peek = m + 1 :=
          ⟨tableSize h.h_hi - h.h_hi.n_peek - 1, by omega⟩
        rw [hm, scanAux]
        cases hsl : h.h_hi.table h.h_hi.n_peek with
        | some e0 =>
          dsimp only
          refine ⟨fun u e hue => Option.noConfusion hue, fun _ => ⟨?_, ?_⟩⟩
          · intro u e hue
            rw [Option.some.injEq, Prod.mk.injEq] at hue
            obtain ⟨h1, h2⟩ := hue
            subst h1
            subst h2
            rfl
          · intro hsc
            exact Option.noConfusion hsc
        | none =>
          dsimp only
          have harg : m = tableSize h.h_hi - (h.h_hi.n_peek + 1) := by omega
          rw [harg]
          have hrec := iterLoop_hi h ed hSH2 n h.h_hi.n_peek (h.h_hi.n_peek + 1)
            (Nat.mod_eq_of_lt (by omega)) (by omega)
          exact ⟨fun u e hue => Option.noConfusion hue,
            fun _ => ⟨hrec.2, hrec.1⟩⟩
      · rw [iterNextSlot_lo_finish h j jn ed hjn (by omega) (by omega)]
        rw [iterEntry_tnone]
        dsimp only
        have h0 : tableSize h.h_lo - jn = 0 := by omega
        have h1 : tableSize h.h_hi - h.h_hi.n_peek = 0 := by omega
        rw [h0, h1, scanAux]
        refine ⟨fun u e hue => Option.noConfusion hue, fun _ => ⟨?_, ?_⟩⟩
        · intro u e hue
          exact Option.noConfusion hue
        · intro _
          obtain ⟨n2, rfl⟩ : ∃ n2, n = n2 + 1 := ⟨n - 1, by omega⟩
          rw [iterNextLoop_succ]
          rw [if_pos (iterDone_tnone 0 ed)]

/-- Collecting from a high-table position yields the keys of the
remaining occupied high slots, in slot order. -/
theorem iterCollect_hi (h : RHash) (ed : Nat) (hSH2 : tableSize h.h_hi < 2 ^ 32) :
    ∀ cf j jn, (j + 1) % 2 ^ 32 = jn →
      ((List.range' jn (tableSize h.h_hi - jn)).filterMap h.h_hi.table).length < cf →
      iterCollect h ⟨.tHi, j, ed⟩ cf =
        ((List.range' jn (tableSize h.h_hi - jn)).filterMap h.h_hi.table).map
          (fun e => e.1) := by
  intro cf
  induction cf with
  | zero => intro j jn hjn hlen; omega
  | succ n ih =>
    intro j jn hjn hlen
    rw [iterCollect]
    have hmain := iterLoop_hi h ed hSH2 (tableSize h.h_lo + tableSize h.h_hi + 2)
      j jn hjn (by omega)
    cases hsc : scanAux h.h_hi jn (tableSize h.h_hi - jn) with
    | none =>
      rw [show iterNext h ⟨.tHi, j, ed⟩ = (none, ⟨.tNone, 0, ed⟩) from hmain.1 hsc]
      rw [scan_none_filterMap h.h_hi _ jn hsc]
      rfl
    | some ue =>
      obtain ⟨u, e⟩ := ue
      obtain ⟨hsu, hult, hue, hfm⟩ := scan_some_props h.h_hi _ jn u e hsc
      rw [show iterNext h ⟨.tHi, j, ed⟩ = (some e.1, ⟨.tHi, u, ed⟩) from hmain.2 u e hsc]
      dsimp only
      rw [hfm, List.map_cons]
      congr 1
      have harg : jn + (tableSize h.h_hi - jn) - (u + 1) = tableSize h.h_hi - (u + 1) := by
        omega
      rw [harg] at hfm ⊢
      refine ih u (u + 1) (Nat.mod_eq_of_lt (by omega)) ?_
      rw [hfm, List.length_cons] at hlen
      omega

/-- Collecting from a low-table position yields the keys of the
remaining occupied low slots followed by the occupied high slots at or
after the high peek cursor, in slot order. -/
theorem iterCollect_lo (h : RHash) (ed : Nat) (hSL2 : tableSize h.h_lo < 2 ^ 32)
    (hSH2 : tableSize h.h_hi < 2 ^ 32) :
    ∀ cf j jn, (j + 1) % 2 ^ 32 = jn →
      ((List.range' jn (tableSize h.h_lo - jn)).filterMap h.h_lo.table).length +
        ((List.range' h.h_hi.n_peek (tableSize h.h_hi - h.h_hi.n_peek)).filterMap
          h.h_hi.table).length < cf →
      iterCollect h ⟨.tLo, j, ed⟩ cf =
        ((List.range' jn (tableSize h.h_lo - jn)).filterMap h.h_lo.table).map
          (fun e => e.1) ++
        ((List.range' h.h_hi.n_peek (tableSize h.h_hi - h.h_hi.n_peek)).filterMap
          h.h_hi.table).map (fun e => e.1) := by
  intro cf
  induction cf with
  | zero => intro j jn hjn hlen; omega
  | succ n ih =>
    intro j jn hjn hlen
    rw [iterCollect]
    have hmain := iterLoop_lo h ed hSL2 hSH2 (tableSize h.h_lo + tableSize h.h_hi + 2)
      j jn hjn (by omega)
    cases hscl : scanAux h.h_lo jn (tableSize h.h_lo - jn) with
    | some ue =>
      obtain ⟨u, e⟩ := ue
      obtain ⟨hsu, hult, hue, hfm⟩ := scan_some_props h.h_lo _ jn u e hscl
      rw [show iterNext h ⟨.tLo, j, ed⟩ = (some e.1, ⟨.tLo, u, ed⟩) from hmain.1 u e hscl]
      dsimp only
      rw [hfm, List.map_cons, List.cons_append]
      congr 1
      have harg : jn + (tableSize h.h_lo - jn) - (u + 1) = tableSize h.h_lo - (u + 1) := by
        omega
      rw [harg] at hfm ⊢
      refine ih u (u + 1) (Nat.mod_eq_of_lt (by omega)) ?_
      rw [hfm, List.length_cons] at hlen
      omega
    | none =>
      have hlo_nil := scan_none_filterMap h.h_lo _ jn hscl
      have hmain2 := hmain.2 hscl
      cases hsch : scanAux h.h_hi h.h_hi.n_peek (tableSize h.h_hi - h.h_hi.n_peek) with
      | some ue =>
        obtain ⟨u, e⟩ := ue
        obtain ⟨hsu, hult, hue, hfm⟩ := scan_some_props h.h_hi _ _ u e hsch
        rw [show iterNext h ⟨.tLo, j, ed⟩ = (some e.1, ⟨.tHi, u, ed⟩) from
          hmain2.1 u e hsch]
        dsimp only
        rw [hlo_nil, hfm, List.map_cons]
        simp only [List.map_nil, List.nil_append]
        congr 1
        have harg : h.h_hi.n_peek + (tableSize h.h_hi - h.h_hi.n_peek) - (u + 1) =
            tableSize h.h_hi - (u + 1) := by omega
        rw [harg] at hfm ⊢
        refine iterCollect_hi h ed hSH2 n u (u + 1) (Nat.mod_eq_of_lt (by omega)) ?_
        rw [hlo_nil] at hlen
        rw [hfm, List.length_cons] at hlen
        simp only [List.length_nil] at hlen
        omega
      | none =>
        rw [show iterNext h ⟨.tLo, j, ed⟩ = (none, ⟨.tNone, 0, ed⟩) from hmain2.2 hsch]
        rw [hlo_nil, scan_none_filterMap h.h_hi _ _ hsch]
        rfl

theorem range'_split (s m k : Nat) :
    List.range' s (m + k) = List.range' s m ++ List.range' (s + m) k := by
  induction m generalizing s with
  | zero =>
    rw [List.range'_zero, List.nil_append, Nat.add_zero, Nat.zero_add]
  | succ m2 ih =>
    have h1 : m2 + 1 + k = (m2 + k) + 1 := by omega
    rw [h1, List.range'_succ, List.range'_succ, ih (s + 1), List.cons_append]
    have h2 : s + 1 + m2 = s + (m2 + 1) := by omega
    rw [h2]

theorem filterMap_nil_of_none (f : Nat → Option Entry) :
    ∀ l : List Nat, (∀ a, a ∈ l → f a = none) → l.filterMap f = [] := by
  intro l
  induction l with
  | nil => intro _; rfl
  | cons a l2 ih =>
    intro hall
    rw [List.filterMap_cons_none (hall a (List.mem_cons_self a l2))]
    exact ih (fun b hb => hall b (List.mem_cons_of_mem a hb))

/-- Thanks to the peek invariant (no occupied slot below the peek
cursor), the scan that starts at the peek cursor sees every entry. -/
theorem filterMap_from_peek (t : RTable)
    (hpeek : ∀ s, s < t.n_peek → t.table s = none) :
    (List.range' t.n_peek (tableSize t - t.n_peek)).filterMap t.table =
      (List.range (tableSize t)).filterMap t.table := by
  by_cases hle : t.n_peek ≤ tableSize t
  · have hsplit : List.range (tableSize t) =
        List.range' 0 t.n_peek ++ List.range' t.n_peek (tableSize t - t.n_peek) := by
      rw [List.range_eq_range']
      nth_rewrite 1 [show tableSize t = t.n_peek + (tableSize t - t.n_peek) from by omega]
      rw [range'_split 0 t.n_peek (tableSize t - t.n_peek), Nat.zero_add]
    have h1 : (List.range' 0 t.n_peek).filterMap t.table = [] :=
      filterMap_nil_of_none t.table _ (fun a ha => hpeek a (by
        have := (List.mem_range'_1.mp ha).2
        omega))
    rw [hsplit, List.filterMap_append, h1, List.nil_append]
  · have h0 : tableSize t - t.n_peek = 0 := by omega
    rw [h0, List.range'_zero, List.filterMap_nil]
    symm
    refine filterMap_nil_of_none t.table _ (fun a ha => ?_)
    have := List.mem_range.mp ha
    exact hpeek a (by omega)

theorem occCount_eq_filter_length (t : RTable) :
    occCount t = ((List.range (tableSize t)).filter
      (fun s => (t.table s).isSome)).length := by
  unfold occCount
  generalize tableSize t = n
  induction n with
  | zero => rfl
  | succ m ih =>
    rw [Finset.range_succ, List.range_succ, List.filter_append, Finset.filter_insert]
    by_cases hp : (t.table m).isSome = true
    · rw [if_pos hp]
      rw [Finset.card_insert_of_not_mem
        (fun hmem => absurd (Finset.mem_filter.mp hmem).1 Finset.not_mem_range_self)]
      rw [List.length_append, List.filter_cons, if_pos hp]
      simp only [List.filter_nil, List.length_cons, List.length_nil]
      omega
    · rw [if_neg hp]
      rw [List.length_append, List.filter_cons, if_neg hp]
      simp only [List.filter_nil, List.length_nil]
      omega

theorem length_filterMap_table (f : Nat → Option Entry) :
    ∀ l : List Nat, (l.filterMap f).length = (l.filter (fun a => (f a).isSome)).length := by
  intro l
  induction l with
  | nil => rfl
  | cons a l2 ih =>
    cases hfa : f a with
    | some e =>
      rw [List.filterMap_cons_some hfa, List.filter_cons,
        if_pos (show (f a).isSome = true by rw [hfa]; rfl)]
      rw [List.length_cons, List.length_cons, ih]
    | none =>
      rw [List.filterMap_cons_none hfa, List.filter_cons,
        if_neg (show ¬ (f a).isSome = true by rw [hfa]; exact Bool.false_ne_true)]
      exact ih

theorem tableEntries_length (t : RTable) (wf : WF t) :
    (tableEntries t).length = t.n_entries := by
  show ((List.range (tableSize t)).filterMap t.table).length = t.n_entries
  rw [length_filterMap_table, ← occCount_eq_filter_length]
  exact wf.count

theorem tableEntries_nodup (t : RTable) (wf : WF t) : (tableEntries t).Nodup := by
  show ((List.range (tableSize t)).filterMap t.table).Nodup
  refine List.Nodup.filterMap ?_ (List.nodup_range _)
  intro a a' b hb hb'
  rw [Option.mem_def] at hb hb'
  exact wf.nodup a a' b b hb hb' (keyEq_refl _ _)

theorem keys_map_nodup (t : RTable) (wf : WF t) :
    ((tableEntries t).map (fun e => e.1)).Nodup := by
  refine List.Nodup.map_on ?_ (tableEntries_nodup t wf)
  intro e1 h1 e2 h2 heq
  obtain ⟨s1, _, hs1⟩ := List.mem_filterMap.mp h1
  obtain ⟨s2, _, hs2⟩ := List.mem_filterMap.mp h2
  have hkeq : keyEq t.key_bytes e1.1 e2.1 = true := by
    rw [heq]
    exact keyEq_refl _ _
  have hss := wf.nodup s1 s2 e1 e2 hs1 hs2 hkeq
  rw [hss, hs2] at hs1
  injection hs1 with hs1
  exact hs1.symm

theorem hashKeysList_length (h : RHash) (wflo : WF h.h_lo) (wfhi : WF h.h_hi) :
    (hashKeysList h).length = hashCount h := by
  unfold hashKeysList
  rw [List.length_append, List.length_map, List.length_map,
    tableEntries_length h.h_lo wflo, tableEntries_length h.h_hi wfhi]
  rfl

theorem hashKeysList_nodup (h : RHash) (wflo : WF h.h_lo) (wfhi : WF h.h_hi)
    (hnd : ∀ x, memKey h.h_lo x → memKey h.h_hi x → False) :
    (hashKeysList h).Nodup := by
  unfold hashKeysList
  refine List.Nodup.append (keys_map_nodup _ wflo) (keys_map_nodup _ wfhi) ?_
  intro k hk1 hk2
  obtain ⟨e1, he1, rfl⟩ := List.mem_map.mp hk1
  obtain ⟨e2, he2, heq2⟩ := List.mem_map.mp hk2
  obtain ⟨s1, _, hs1⟩ := List.mem_filterMap.mp he1
  obtain ⟨s2, _, hs2⟩ := List.mem_filterMap.mp he2
  refine hnd e1.1 ⟨s1, e1, hs1, keyEq_refl _ _⟩ ⟨s2, e2, hs2, ?_⟩
  rw [← heq2]
  exact keyEq_refl _ _

/-- A full fresh iteration yields exactly the direct slot-order
enumeration of both tables. -/
theorem iterKeys_eq (h : RHash) (wflo : WF h.h_lo) (wfhi : WF h.h_hi)
    (hnp : h.h_lo.n_peek < 2 ^ 32) (hSL2 : tableSize h.h_lo < 2 ^ 32)
    (hSH2 : tableSize h.h_hi < 2 ^ 32) :
    iterKeys h = hashKeysList h := by
  have hfl := filterMap_from_peek h.h_lo wflo.peekInv
  have hfh := filterMap_from_peek h.h_hi wfhi.peekInv
  have hlen_lo : ((List.range' h.h_lo.n_peek (tableSize h.h_lo - h.h_lo.n_peek)).filterMap
      h.h_lo.table).length = h.h_lo.n_entries := by
    rw [hfl]
    exact tableEntries_length h.h_lo wflo
  have hlen_hi : ((List.range' h.h_hi.n_peek (tableSize h.h_hi - h.h_hi.n_peek)).filterMap
      h.h_hi.table).length = h.h_hi.n_entries := by
    rw [hfh]
    exact tableEntries_length h.h_hi wfhi
  have hjn : ((h.h_lo.n_peek + (2 ^ 32 - 1)) % 2 ^ 32 + 1) % 2 ^ 32 = h.h_lo.n_peek := by
    omega
  have hcnt : hashCount h = h.h_lo.n_entries + h.h_hi.n_entries := rfl
  have hcol := iterCollect_lo h h.n_edit hSL2 hSH2 (hashCount h + 1)
    ((h.h_lo.n_peek + (2 ^ 32 - 1)) % 2 ^ 32) h.h_lo.n_peek hjn
    (by rw [hlen_lo, hlen_hi]; omega)
  show iterCollect h ⟨.tLo, (h.h_lo.n_peek + (2 ^ 32 - 1)) % 2 ^ 32, h.n_edit⟩
    (hashCount h + 1) = hashKeysList h
  rw [hcol, hfl, hfh]
  rfl

/-- C6: on every state satisfying the dual-table invariant (with the low
peek cursor in its `uint32` range), creating a fresh iterator and
calling next to exhaustion yields exactly the stored keys: the list
equals the direct slot-order enumeration of both tables, its length is
the entry count N, and its keys are pairwise distinct. -/
theorem c6_iterator_exact (h : RHash) (hI : Inv h) (hnp : h.h_lo.n_peek < 2 ^ 32) :
    iterKeys h = hashKeysList h ∧
    (iterKeys h).length = hashCount h ∧
    (iterKeys h).Nodup := by
  obtain ⟨wflo, wfhi, hkb, ⟨ho1, ho2, ho3⟩, hnd, _, _⟩ := hI
  have hm : minOrder = 6 := rfl
  have hM : maxOrder = 31 := rfl
  have h32 : (2 : Nat) ^ 31 < 2 ^ 32 := by norm_num
  have hSH2 : tableSize h.h_hi < 2 ^ 32 := by
    show 2 ^ h.h_hi.order < 2 ^ 32
    have := Nat.pow_le_pow_right (show 1 ≤ 2 by omega)
      (show h.h_hi.order ≤ 31 by omega)
    omega
  have hSL2 : tableSize h.h_lo < 2 ^ 32 := by
    show 2 ^ h.h_lo.order < 2 ^ 32
    have hord : h.h_lo.order ≤ 31 := by
      rcases ho3 with hc | ⟨hc1, _⟩ <;> omega
    have := Nat.pow_le_pow_right (show 1 ≤ 2 by omega) hord
    omega
  have heq := iterKeys_eq h wflo wfhi hnp hSL2 hSH2
  refine ⟨heq, ?_, ?_⟩
  · rw [heq]
    exact hashKeysList_length h wflo wfhi
  · rw [heq]
    exact hashKeysList_nodup h wflo wfhi hnd

/-- Witness for C6 at a concrete invariant-satisfying state. -/
theorem c6_iterator_exact_witness :
    iterKeys (hashCreate 0 false) = hashKeysList (hashCreate 0 false) ∧
    (iterKeys (hashCreate 0 false)).length = hashCount (hashCreate 0 false) ∧
    (iterKeys (hashCreate 0 false)).Nodup :=
  c6_iterator_exact (hashCreate 0 false) (inv_create 0 false) (by decide)

end Rhash

